import Mathlib

/-!
# NESPatch: a verification development

A shallow embedding of `src/NESPatch.h` (class `NESPatch`, an audio patch that
resynthesises a triangle/saw waveform from the zero crossings of its input).

Modelling conventions.

* `float` values are rationals: arithmetic is exact, there is no rounding, no
  NaN and no infinity.  Float literals denote their decimal value
  (`0.02f` is `1/50`).  The segment tracker is embedded a second time with
  binary32 rounding (`F32`, `trackerStepF32`), for the two properties that
  exact arithmetic gives and rounding takes away (the step at which a ramp
  reaches its target, and the second leg stopping at the start position) and
  for the amplitude bound, which rounding leaves intact.
* `uint32_t` is a `Nat` reduced modulo `2^32` where a shift can overflow.
* `q7_t` is an `Int` in `[-128, 127]`.
* `int` counters that never go negative (`m_SamplesLeft`, loop indices) are `Nat`.
* A pointer argument (`const float* values`, `q7_t* volume_values`) is the
  function sending an index to the element read through the pointer.
* `AUDIO_BLOCK_SIZE` is defined by the host firmware, not by this repository:
  every definition that depends on it takes it as the parameter `B`.
* The member arrays `m_Buffer` and `m_VolumeBuffer` are lists; an element is
  read with `getD _ 0` and written with `set`.
-/

namespace NESPatch

/-! ## Static helpers -/

/-- Source `Clamp01`: `f > 1 ? 1 : (f < 0 ? 0 : f)`. -/
def Clamp01 (f : ℚ) : ℚ :=
  if f > 1 then 1 else (if f < 0 then 0 else f)

/-- Source `Lerp`: `min + (max-min) * Clamp01(f)`. -/
def Lerp (f min max : ℚ) : ℚ :=
  min + (max - min) * Clamp01 f

/-- Source `MapParam`: remap a raw control value, dropping a margin of `0.02`
at both ends. -/
def MapParam (param min max : ℚ) : ℚ :=
  let buffer : ℚ := 2 / 100
  Lerp ((param - buffer) * (1 / (1 - buffer * 2))) min max

/-- Source `Squaref`. -/
def Squaref (x : ℚ) : ℚ :=
  x * x

/-- Source `xorshift32`: the three shift/xor steps on a 32-bit word.  The
result is the new state, which is also the value returned. -/
def xorshift32 (state : Nat) : Nat :=
  let x := state
  let x := x ^^^ ((x <<< 13) % 2 ^ 32)
  let x := x ^^^ (x >>> 17)
  let x := x ^^^ ((x <<< 5) % 2 ^ 32)
  x

/-- Source `RandomUnit`: draws from the generator; the pair is the updated
generator state and the value returned,
`float(xorshift32(state) & 0xffff)/float(0x7fff) - 1`. -/
def RandomUnit (state : Nat) : Nat × ℚ :=
  let x := xorshift32 state
  (x, ((x &&& 0xffff : Nat) : ℚ) / ((0x7fff : Nat) : ℚ) - 1)

/-- Source `Random01`. -/
def Random01 (state : Nat) : Nat × ℚ :=
  let x := xorshift32 state
  (x, ((x &&& 0xffff : Nat) : ℚ) / ((0xffff : Nat) : ℚ))

/-! ## Compile-time constants -/

/-- Source `DELAY_BUFFER_SIZE = (480-AUDIO_BLOCK_SIZE) & ~0x03`, for a block
size of at most 480 (`~0x03` is the 32-bit mask `0xFFFFFFFC`). -/
def DELAY_BUFFER_SIZE (B : Nat) : Nat :=
  (480 - B) &&& 0xFFFFFFFC

/-- Source `VOLUME_BUFFER_RESOLUTION`. -/
def VOLUME_BUFFER_RESOLUTION : Nat := 4

/-- Source `VOLUME_BUFFER_SIZE`. -/
def VOLUME_BUFFER_SIZE (B : Nat) : Nat :=
  (DELAY_BUFFER_SIZE B * 3) / VOLUME_BUFFER_RESOLUTION

/-- Number of elements of `m_Buffer`. -/
def bufferLength (B : Nat) : Nat :=
  DELAY_BUFFER_SIZE B + B + 1

/-- Number of elements of `m_VolumeBuffer`. -/
def volumeBufferLength (B : Nat) : Nat :=
  (DELAY_BUFFER_SIZE B * 3 + B + 1) / VOLUME_BUFFER_RESOLUTION

end NESPatch

/-- The data members of class `NESPatch`. -/
structure NESPatch where
  m_Buffer : List ℚ
  m_VolumeBuffer : List Int
  m_WriteIndex : Int
  m_SamplesLeft : Nat
  m_Velocity : ℚ
  m_NextVelocity : ℚ
  m_Position : ℚ
  m_TargetPosition : ℚ
  m_TriangleParam : ℚ
  m_SawParam : ℚ
  m_AttackParam : ℚ
  m_CompressionParam : ℚ
  m_RandomState : Nat
  m_AttackStrength : ℚ

namespace NESPatch

/-- A freshly constructed instance: the default member initialisers. -/
def fresh (B : Nat) : NESPatch where
  m_Buffer := List.replicate (bufferLength B) 0
  m_VolumeBuffer := List.replicate (volumeBufferLength B) 0
  m_WriteIndex := 0
  m_SamplesLeft := 0
  m_Velocity := 0
  m_NextVelocity := 0
  m_Position := 0
  m_TargetPosition := 0
  m_TriangleParam := 0
  m_SawParam := 0
  m_AttackParam := 0
  m_CompressionParam := 0
  m_RandomState := 12345
  m_AttackStrength := 0

/-- Source `updateParams`; `params` is indexed by the enum
`TriangleParam = 0, SawParam = 1, Attack = 2, Compression = 3`. -/
def updateParams (s : NESPatch) (params : Nat → ℚ) : NESPatch :=
  { s with
    m_TriangleParam := MapParam (params 0) 0 1
    m_SawParam := MapParam (params 1) (1 / 2) 1
    m_AttackParam := MapParam (params 2) 0 2
    m_CompressionParam := MapParam (params 3) 0 1 }

/-- Source `preUpdate`. -/
def preUpdate (s : NESPatch) (value : ℚ) : ℚ :=
  let COMPRESSION_GAIN : ℚ := 20 / 100
  let compressed_value : ℚ :=
    (1 - Squaref (Squaref (Squaref (Squaref (1 - |value|))))) *
      (if value < 0 then -COMPRESSION_GAIN else COMPRESSION_GAIN)
  Lerp s.m_CompressionParam value compressed_value

/-! ## CMSIS-DSP primitives

`arm_max_q7`, `arm_q7_to_float`, `arm_float_to_q7`, `arm_abs_q7`, `arm_copy_f32`
and `arm_copy_q7` belong to the CMSIS-DSP library the patch is linked with.
They are embedded by their documented behaviour. -/

/-- CMSIS `arm_max_q7(pSrc, blockSize, pResult, pIndex)`: the largest of
`pSrc[0 .. blockSize-1]`, scanning from `pSrc[0]` and replacing the running
maximum when a strictly larger element is met.  The index result is dropped
(the source passes a scratch variable).  The routine is meant for
`blockSize ≥ 1`; for `blockSize = 0` the embedding returns `pSrc[0]`. -/
def arm_max_q7 (pSrc : Nat → Int) (blockSize : Nat) : Int :=
  (List.range (blockSize - 1)).foldl
    (fun out i => if out < pSrc (i + 1) then pSrc (i + 1) else out) (pSrc 0)

/-- CMSIS `arm_q7_to_float` on one element: `x / 128`. -/
def arm_q7_to_float (x : Int) : ℚ :=
  (x : ℚ) / 128

/-- CMSIS `arm_float_to_q7` on one element: `x * 128`, converted to an integer
by truncation toward zero and saturated to 8 bits. -/
def arm_float_to_q7 (x : ℚ) : Int :=
  let v : Int := Int.tdiv (x * 128).num ((x * 128).den : Int)
  if v > 127 then 127 else (if v < -128 then -128 else v)

/-- CMSIS `arm_abs_q7` on one element: saturating absolute value. -/
def arm_abs_q7 (x : Int) : Int :=
  if x > 0 then x else (if x = -128 then 127 else -x)

/-- CMSIS `arm_copy_f32` / `arm_copy_q7` with source and destination in the
same array: `buf[dst + i] = buf[src + i]` for `i = start, start+1, ...`,
`count` elements, one after the other in increasing order. -/
def arm_copy_within {α : Type} (zero : α) (src dst : Nat) :
    Nat → Nat → List α → List α
  | 0, _, buf => buf
  | count + 1, start, buf =>
    arm_copy_within zero src dst count (start + 1)
      (buf.set (dst + start) (buf.getD (src + start) zero))

/-- CMSIS `arm_copy_f32` from another array: `buf[dst + i] = pSrc[i]` for
`i = start, start+1, ...`, `count` elements. -/
def arm_copy_from {α : Type} (pSrc : Nat → α) (dst : Nat) :
    Nat → Nat → List α → List α
  | 0, _, buf => buf
  | count + 1, start, buf =>
    arm_copy_from pSrc dst count (start + 1) (buf.set (dst + start) (pSrc start))

/-! ## processSample -/

/-- The `while (m_SamplesLeft < DELAY_BUFFER_SIZE)` loop of `processSample`.
The first argument is `DELAY_BUFFER_SIZE - m_SamplesLeft`, the number of
iterations the loop condition still allows; the result is the final
`m_SamplesLeft` and `area`. -/
def scanLoop (values : Nat → ℚ) (positive : Bool) : Nat → Nat → ℚ → Nat × ℚ
  | 0, samplesLeft, area => (samplesLeft, area)
  | room + 1, samplesLeft, area =>
    if (decide (values samplesLeft > 0)) != positive then (samplesLeft, area)
    else scanLoop values positive room (samplesLeft + 1) (area + values samplesLeft)

/-- The branch `m_SamplesLeft == 0` of `processSample` (a segment starts), with
exact arithmetic; `segmentStartF32` is the same branch with binary32 rounding. -/
def segmentStart (B : Nat) (s : NESPatch) (values : Nat → ℚ) : NESPatch :=
  let positive : Bool := decide (values 0 > 0)
  let area : ℚ := values 0
  let r := scanLoop values positive (DELAY_BUFFER_SIZE B - 1) 1 area
  let m_SamplesLeft : Nat := r.1
  let area : ℚ := r.2
  let m_TargetPosition : ℚ := area / (m_SamplesLeft : ℚ)
  let m_Position : ℚ := Lerp s.m_TriangleParam m_TargetPosition 0
  let use_saw_param : ℚ :=
    if m_TargetPosition > m_Position then s.m_SawParam else 1 - s.m_SawParam
  let up_samples : ℚ := max 1 ((m_SamplesLeft : ℚ) * use_saw_param)
  let down_samples : ℚ := max 1 ((m_SamplesLeft : ℚ) * (1 - use_saw_param))
  { s with
    m_SamplesLeft := m_SamplesLeft
    m_TargetPosition := m_TargetPosition
    m_Position := m_Position
    m_Velocity := (m_TargetPosition - m_Position) / up_samples
    m_NextVelocity := (m_Position - m_TargetPosition) / down_samples }

/-- The `else` branch of `processSample` (inside a segment), with exact
arithmetic: `m_Position += m_Velocity` adds without rounding here;
`inSegmentF32` is the same branch with binary32 rounding. -/
def inSegment (s : NESPatch) : NESPatch :=
  let s := { s with m_SamplesLeft := s.m_SamplesLeft - 1 }
  let s := { s with m_Position := s.m_Position + s.m_Velocity }
  if (s.m_Velocity > 0 ∧ s.m_Position ≥ s.m_TargetPosition) ∨
      (s.m_Velocity < 0 ∧ s.m_Position ≤ s.m_TargetPosition) then
    { s with
      m_Velocity := s.m_NextVelocity
      m_Position := s.m_TargetPosition
      m_NextVelocity := 0
      m_TargetPosition := 0 }
  else s

/-- Source `USE_VOLUME_BUFFER_SIZE` (local constant of `processSample`).  The
source value is negative when `VOLUME_BUFFER_SIZE < AUDIO_BLOCK_SIZE*2/4`; the
embedding is meant for configurations where it is at least 6, so that both
windows of the attack detector are non-empty (`AUDIO_BLOCK_SIZE ≤ 283`). -/
def USE_VOLUME_BUFFER_SIZE (B : Nat) : Nat :=
  VOLUME_BUFFER_SIZE B - (B * 2) / VOLUME_BUFFER_RESOLUTION

/-- Source `ATTACK_WINDOW`. -/
def ATTACK_WINDOW (B : Nat) : Nat :=
  USE_VOLUME_BUFFER_SIZE B / 6

/-- Source `DELAY_WINDOW`. -/
def DELAY_WINDOW (B : Nat) : Nat :=
  USE_VOLUME_BUFFER_SIZE B - ATTACK_WINDOW B

/-- The body of `if (m_AttackParam > 0 && update_volume)` in `processSample`:
the new `m_AttackStrength`. -/
def attackStrength (B : Nat) (volume_values : Nat → Int) : ℚ :=
  let delay_max : Int :=
    arm_max_q7
      (fun i => volume_values
        (USE_VOLUME_BUFFER_SIZE B - (ATTACK_WINDOW B + DELAY_WINDOW B) + i))
      (DELAY_WINDOW B)
  let attack_max : Int :=
    arm_max_q7 (fun i => volume_values (USE_VOLUME_BUFFER_SIZE B - ATTACK_WINDOW B + i))
      (ATTACK_WINDOW B)
  let attack_max : Int :=
    arm_max_q7 (fun i => [attack_max, delay_max].getD i 0) 2
  let float_buf0 : ℚ := arm_q7_to_float attack_max
  let float_buf1 : ℚ := arm_q7_to_float delay_max
  max 0 (float_buf0 - float_buf1)

/-- Source `processSample`: the updated instance and the value returned. -/
def processSample (B : Nat) (s : NESPatch) (values : Nat → ℚ)
    (volume_values : Nat → Int) (update_volume : Bool) : NESPatch × ℚ :=
  let s := if s.m_SamplesLeft = 0 then segmentStart B s values else inSegment s
  let s :=
    if s.m_AttackParam > 0 ∧ update_volume = true then
      { s with m_AttackStrength := attackStrength B volume_values }
    else s
  let r := RandomUnit s.m_RandomState
  let s := { s with m_RandomState := r.1 }
  let attack_noise : ℚ := r.2 * s.m_AttackStrength
  (s, Lerp (s.m_AttackStrength * s.m_AttackParam) s.m_Position attack_noise)

/-! ## processAudio -/

/-- The envelope loop of `processAudio`
(`for (n = 0, m = VOLUME_BUFFER_SIZE; n < size; n += 4, ++m)`), iteration `g`
handling `n = 4 * g`: the peak of the quantised magnitudes of one group of
four samples. -/
def groupPeak (buf_c0 : Nat → ℚ) (g : Nat) : Int :=
  arm_max_q7
    (fun j => arm_abs_q7 (arm_float_to_q7 (buf_c0 (g * VOLUME_BUFFER_RESOLUTION + j))))
    VOLUME_BUFFER_RESOLUTION

/-- The envelope loop of `processAudio`: one entry per group of four samples,
written from index `VOLUME_BUFFER_SIZE` on. -/
def volumeLoop (B : Nat) (buf_c0 : Nat → ℚ) (size : Nat) (vol : List Int) : List Int :=
  (List.range ((size + (VOLUME_BUFFER_RESOLUTION - 1)) / VOLUME_BUFFER_RESOLUTION)).foldl
    (fun v g => v.set (VOLUME_BUFFER_SIZE B + g) (groupPeak buf_c0 g)) vol

/-- The sample loop of `processAudio`: `buf_c0[n] = processSample(m_Buffer + n,
m_VolumeBuffer + n/4, n % 4 == 0)` for `n = 0 .. size-1`.  The accumulator is
the instance and the output samples written so far. -/
def sampleLoop (B : Nat) (size : Nat) (s : NESPatch) : NESPatch × List ℚ :=
  (List.range size).foldl
    (fun acc n =>
      let r := processSample B acc.1
        (fun i => acc.1.m_Buffer.getD (n + i) 0)
        (fun i => acc.1.m_VolumeBuffer.getD (n / VOLUME_BUFFER_RESOLUTION + i) 0)
        (n % VOLUME_BUFFER_RESOLUTION == 0)
      (r.1, acc.2 ++ [r.2]))
    (s, [])

/-- Source `processAudio`.  `params` are the four values the host returns from
`getParameterValue`, `block` is channel 0 of the audio buffer
(`size = block.length`); the result is the updated instance and the block as
overwritten in place. -/
def processAudio (B : Nat) (s : NESPatch) (params : Nat → ℚ) (block : List ℚ) :
    NESPatch × List ℚ :=
  let s := updateParams s params
  let size : Nat := block.length
  let buf_c0 : Nat → ℚ := fun i => block.getD i 0
  let buf := arm_copy_within 0 size 0 (DELAY_BUFFER_SIZE B) 0 s.m_Buffer
  let buf := arm_copy_from buf_c0 (DELAY_BUFFER_SIZE B) size 0 buf
  let s := { s with m_Buffer := buf }
  let vol := arm_copy_within 0 (size / VOLUME_BUFFER_RESOLUTION) 0 (VOLUME_BUFFER_SIZE B) 0
    s.m_VolumeBuffer
  let vol := volumeLoop B buf_c0 size vol
  let s := { s with m_VolumeBuffer := vol }
  sampleLoop B size s

/-- The instance as it enters the sample loop of `processAudio`: parameters
mapped, history and envelope buffers updated. -/
def loopState (B : Nat) (s : NESPatch) (params : Nat → ℚ) (block : List ℚ) : NESPatch :=
  let s := updateParams s params
  let size : Nat := block.length
  let buf_c0 : Nat → ℚ := fun i => block.getD i 0
  let buf := arm_copy_within 0 size 0 (DELAY_BUFFER_SIZE B) 0 s.m_Buffer
  let buf := arm_copy_from buf_c0 (DELAY_BUFFER_SIZE B) size 0 buf
  let s := { s with m_Buffer := buf }
  let vol := arm_copy_within 0 (size / VOLUME_BUFFER_RESOLUTION) 0 (VOLUME_BUFFER_SIZE B) 0
    s.m_VolumeBuffer
  let vol := volumeLoop B buf_c0 size vol
  { s with m_VolumeBuffer := vol }

/-- The compressed variant of a sample as the specification words it: the
magnitude `|v|` goes through `1 - (1 - |v|)^16`, is scaled by the gain `0.20`
and takes the sign of `v` (negative gain when `v < 0`). -/
def compressedSpec (v : ℚ) : ℚ :=
  if v < 0 then (1 - (1 - |v|) ^ 16) * (-(20 / 100)) else (1 - (1 - |v|) ^ 16) * (20 / 100)

/-- The host calling `processAudio` once per block, on successive blocks; each
input is the parameter values read for that call and the block passed. -/
def processBlocks (B : Nat) (s : NESPatch) (inputs : List ((Nat → ℚ) × List ℚ)) : NESPatch :=
  inputs.foldl (fun st x => (processAudio B st x.1 x.2).1) s

/-- The sample stream seen by the instance: zeros (the initial content of the
history) followed by the blocks passed so far, oldest first. -/
def history (B : Nat) (inputs : List ((Nat → ℚ) × List ℚ)) : List ℚ :=
  inputs.foldl (fun acc x => acc ++ x.2) (List.replicate (DELAY_BUFFER_SIZE B + B) 0)

/-- Successive calls of `processSample` on one instance; each element of
`calls` holds the three arguments of one call. -/
def processSamples (B : Nat) (s : NESPatch)
    (calls : List ((Nat → ℚ) × (Nat → Int) × Bool)) : NESPatch :=
  calls.foldl (fun st c => (processSample B st c.1 c.2.1 c.2.2).1) s

/-- Invariant of a segment of non-negative amplitude `T`: the position lies in
`[0, T]`, and the tracker is either on its first leg (target `T`, velocity
upward, next velocity downward) or on its second leg (target 0, velocity
downward, no next velocity). -/
def rampNonneg (a : NESPatch) (T : ℚ) : Prop :=
  0 ≤ a.m_Position ∧ a.m_Position ≤ T ∧
    ((a.m_TargetPosition = T ∧ 0 ≤ a.m_Velocity ∧ a.m_NextVelocity ≤ 0) ∨
      (a.m_TargetPosition = 0 ∧ a.m_Velocity ≤ 0 ∧ a.m_NextVelocity = 0))

/-- Invariant of a segment of non-positive amplitude `T`, the mirror image of
`rampNonneg`. -/
def rampNonpos (a : NESPatch) (T : ℚ) : Prop :=
  T ≤ a.m_Position ∧ a.m_Position ≤ 0 ∧
    ((a.m_TargetPosition = T ∧ a.m_Velocity ≤ 0 ∧ 0 ≤ a.m_NextVelocity) ∨
      (a.m_TargetPosition = 0 ∧ 0 ≤ a.m_Velocity ∧ a.m_NextVelocity = 0))

/-- A single full-scale square-wave cycle spanning a block of `2 * H` samples:
first half `+1`, second half `-1`. -/
def squareBlock (H : Nat) : List ℚ :=
  List.replicate H 1 ++ List.replicate H (-1)

/-- Invariant of a segment that rises from its start position `P0` to its
target `T` (`0 ≤ P0 ≤ T`), `N` being the run length, `v0` and `nv0` the two
velocities set at the segment start.  Either the tracker is on its first leg,
at `P0` plus one `v0` per call made, or it is on its second leg (target 0) and
the calls that remain cannot take it below `P0`. -/
def legNonneg (a : NESPatch) (P0 T v0 nv0 : ℚ) (N : Nat) : Prop :=
  (a.m_TargetPosition = T ∧ a.m_Velocity = v0 ∧ a.m_NextVelocity = nv0 ∧
      a.m_Position = P0 + ((N : ℚ) - (a.m_SamplesLeft : ℚ)) * v0 ∧ a.m_Position ≤ T) ∨
    (a.m_TargetPosition = 0 ∧ a.m_NextVelocity = 0 ∧ a.m_Velocity ≤ 0 ∧
      P0 ≤ a.m_Position + (a.m_SamplesLeft : ℚ) * a.m_Velocity ∧ a.m_Position ≤ T)

/-- Invariant of a segment that falls from its start position `P0` to its
target `T` (`T ≤ P0 ≤ 0`), the mirror image of `legNonneg`. -/
def legNonpos (a : NESPatch) (P0 T v0 nv0 : ℚ) (N : Nat) : Prop :=
  (a.m_TargetPosition = T ∧ a.m_Velocity = v0 ∧ a.m_NextVelocity = nv0 ∧
      a.m_Position = P0 + ((N : ℚ) - (a.m_SamplesLeft : ℚ)) * v0 ∧ T ≤ a.m_Position) ∨
    (a.m_TargetPosition = 0 ∧ a.m_NextVelocity = 0 ∧ 0 ≤ a.m_Velocity ∧
      a.m_Position + (a.m_SamplesLeft : ℚ) * a.m_Velocity ≤ P0 ∧ T ≤ a.m_Position)

/-- A window used in the examples: the run `1, 3` followed by `-1`, then zeros. -/
def exampleWindow : Nat → ℚ :=
  fun i => [1, 3, -1].getD i 0

/-- An instance used in the examples: a fresh one (`AUDIO_BLOCK_SIZE = 128`,
hence `DELAY_BUFFER_SIZE = 352`) after `updateParams` with all four raw
parameters at `1/2`. -/
def exampleState : NESPatch :=
  updateParams (fresh 128) (fun _ => 1 / 2)

/-- The example instance after one `processSample` call on the example window
(a segment start). -/
def exampleSegment : NESPatch :=
  (processSample 128 exampleState exampleWindow (fun _ => 0) true).1

/-- Arguments of a later `processSample` call used in the examples. -/
def exampleCall : (Nat → ℚ) × (Nat → Int) × Bool :=
  (exampleWindow, fun _ => 0, false)

/-- Inputs used in the examples: one block of 128 ones, raw parameters 0. -/
def exampleInputs : List ((Nat → ℚ) × List ℚ) :=
  [(fun _ => 0, List.replicate 128 1)]

end NESPatch

/-! ## Binary32 arithmetic

The tracker of `processSample` once more, this time with every `float`
operation rounded as IEEE 754 binary32 does (24 significant bits, round to
nearest, ties to even).  A value is kept as an integer mantissa and a binary
exponent.  The exponent range, infinities and NaN are not modelled: the
embedding agrees with binary32 as long as every result is zero or normal (the
two evaluations below stay between `2^-6` and `2^5` in magnitude).  The
rational-valued definitions above are the same program with exact
arithmetic. -/

/-- A binary floating-point value `m * 2^e`. -/
structure F32 where
  m : Int
  e : Int
deriving DecidableEq, Repr

namespace F32

/-- Number of significant bits of `n`, by repeated halving; the first
argument bounds the number of halvings. -/
def bitLengthAux : Nat → Nat → Nat
  | 0, _ => 0
  | fuel + 1, n => if n = 0 then 0 else bitLengthAux fuel (n / 2) + 1

/-- Number of significant bits of a natural number (`n` halvings are enough). -/
def bitLength (n : Nat) : Nat :=
  bitLengthAux n n

/-- Rounding of the exact value `m * 2^e` to 24 significant bits, to nearest,
ties to even. -/
def roundBits (m : Int) (e : Int) : F32 :=
  let a : Nat := m.natAbs
  if bitLength a ≤ 24 then ⟨m, e⟩
  else
    let shift : Nat := bitLength a - 24
    let q : Nat := a / 2 ^ shift
    let r : Nat := a % 2 ^ shift
    let half : Nat := 2 ^ (shift - 1)
    let q' : Nat := if r > half ∨ (r = half ∧ q % 2 = 1) then q + 1 else q
    ⟨if m < 0 then -(q' : Int) else (q' : Int), e + (shift : Int)⟩

/-- Mantissa of `x` on the exponent `e ≤ x.e`. -/
def mantissaAt (x : F32) (e : Int) : Int :=
  x.m * 2 ^ (x.e - e).toNat

/-- Comparison `x < y` of two values. -/
def lt (x y : F32) : Bool :=
  decide (mantissaAt x (min x.e y.e) < mantissaAt y (min x.e y.e))

/-- Comparison `x ≤ y` of two values. -/
def le (x y : F32) : Bool :=
  decide (mantissaAt x (min x.e y.e) ≤ mantissaAt y (min x.e y.e))

/-- Equality of two values (whatever their representation). -/
def eq (x y : F32) : Bool :=
  decide (mantissaAt x (min x.e y.e) = mantissaAt y (min x.e y.e))

/-- Rounded sum. -/
def add (x y : F32) : F32 :=
  roundBits (mantissaAt x (min x.e y.e) + mantissaAt y (min x.e y.e)) (min x.e y.e)

/-- Rounded difference. -/
def sub (x y : F32) : F32 :=
  roundBits (mantissaAt x (min x.e y.e) - mantissaAt y (min x.e y.e)) (min x.e y.e)

/-- Rounded product. -/
def mul (x y : F32) : F32 :=
  roundBits (x.m * y.m) (x.e + y.e)

/-- Rounded quotient, for a non-zero divisor: the quotient of the mantissas is
computed with at least 26 bits and a sticky bit for the remainder, then
rounded. -/
def div (x y : F32) : F32 :=
  let a : Nat := x.m.natAbs
  let b : Nat := y.m.natAbs
  let k : Nat := 26 + bitLength b
  let q : Nat := (a * 2 ^ k) / b
  let r : Nat := (a * 2 ^ k) % b
  let mag : Nat := 2 * q + (if r = 0 then 0 else 1)
  roundBits (if (x.m < 0) = (y.m < 0) then (mag : Int) else -(mag : Int))
    (x.e - y.e - (k : Int) - 1)

/-- Conversion `float(n)` of an integer. -/
def ofNat (n : Nat) : F32 :=
  roundBits (n : Int) 0

/-- The larger of two values, as `std::max<float>(a, b)`: `b` if `a < b`,
else `a`. -/
def max (a b : F32) : F32 :=
  if lt a b then b else a

/-- The value as a rational number. -/
def toRat (x : F32) : ℚ :=
  (x.m : ℚ) * (2 : ℚ) ^ x.e

end F32

namespace NESPatch

/-- The members of `NESPatch` read and written by the segment tracker of
`processSample`, as binary32 values. -/
structure TrackerF32 where
  m_SamplesLeft : Nat
  m_Velocity : F32
  m_NextVelocity : F32
  m_Position : F32
  m_TargetPosition : F32
  m_TriangleParam : F32
  m_SawParam : F32
deriving DecidableEq

/-- Source `Clamp01` in binary32. -/
def Clamp01F32 (f : F32) : F32 :=
  if F32.lt ⟨1, 0⟩ f then ⟨1, 0⟩ else (if F32.lt f ⟨0, 0⟩ then ⟨0, 0⟩ else f)

/-- Source `Lerp` in binary32: `min + (max-min) * Clamp01(f)`, each operation
rounded. -/
def LerpF32 (f min max : F32) : F32 :=
  F32.add min (F32.mul (F32.sub max min) (Clamp01F32 f))

/-- The literal `0.02f`: the binary32 value nearest to `0.02`. -/
def bufferF32 : F32 :=
  ⟨10737418, -29⟩

/-- Source `MapParam` in binary32:
`Lerp((param-buffer)*(1/(1-buffer*2)), min, max)`. -/
def MapParamF32 (param min max : F32) : F32 :=
  LerpF32
    (F32.mul (F32.sub param bufferF32)
      (F32.div ⟨1, 0⟩ (F32.sub ⟨1, 0⟩ (F32.mul bufferF32 ⟨2, 0⟩))))
    min max

/-- The two assignments of `updateParams` that the tracker reads, in binary32;
`triangle` and `saw` are `params[TriangleParam]` and `params[SawParam]`. -/
def updateParamsF32 (s : TrackerF32) (triangle saw : F32) : TrackerF32 :=
  { s with
    m_TriangleParam := MapParamF32 triangle ⟨0, 0⟩ ⟨1, 0⟩
    m_SawParam := MapParamF32 saw ⟨1, -1⟩ ⟨1, 0⟩ }

/-- The tracker members of a freshly constructed instance. -/
def freshF32 : TrackerF32 where
  m_SamplesLeft := 0
  m_Velocity := ⟨0, 0⟩
  m_NextVelocity := ⟨0, 0⟩
  m_Position := ⟨0, 0⟩
  m_TargetPosition := ⟨0, 0⟩
  m_TriangleParam := ⟨0, 0⟩
  m_SawParam := ⟨0, 0⟩

/-- The scan loop of `processSample` in binary32 (see `scanLoop`). -/
def scanLoopF32 (values : Nat → F32) (positive : Bool) : Nat → Nat → F32 → Nat × F32
  | 0, samplesLeft, area => (samplesLeft, area)
  | room + 1, samplesLeft, area =>
    if (F32.lt ⟨0, 0⟩ (values samplesLeft)) != positive then (samplesLeft, area)
    else scanLoopF32 values positive room (samplesLeft + 1)
      (F32.add area (values samplesLeft))

/-- The branch `m_SamplesLeft == 0` of `processSample` in binary32 (see
`segmentStart`). -/
def segmentStartF32 (B : Nat) (s : TrackerF32) (values : Nat → F32) : TrackerF32 :=
  let positive : Bool := F32.lt ⟨0, 0⟩ (values 0)
  let area : F32 := values 0
  let r := scanLoopF32 values positive (DELAY_BUFFER_SIZE B - 1) 1 area
  let m_SamplesLeft : Nat := r.1
  let area : F32 := r.2
  let m_TargetPosition : F32 := F32.div area (F32.ofNat m_SamplesLeft)
  let m_Position : F32 := LerpF32 s.m_TriangleParam m_TargetPosition ⟨0, 0⟩
  let use_saw_param : F32 :=
    if F32.lt m_Position m_TargetPosition then s.m_SawParam
    else F32.sub ⟨1, 0⟩ s.m_SawParam
  let up_samples : F32 := F32.max ⟨1, 0⟩ (F32.mul (F32.ofNat m_SamplesLeft) use_saw_param)
  let down_samples : F32 :=
    F32.max ⟨1, 0⟩ (F32.mul (F32.ofNat m_SamplesLeft) (F32.sub ⟨1, 0⟩ use_saw_param))
  { s with
    m_SamplesLeft := m_SamplesLeft
    m_TargetPosition := m_TargetPosition
    m_Position := m_Position
    m_Velocity := F32.div (F32.sub m_TargetPosition m_Position) up_samples
    m_NextVelocity := F32.div (F32.sub m_Position m_TargetPosition) down_samples }

/-- The `else` branch of `processSample` in binary32 (see `inSegment`). -/
def inSegmentF32 (s : TrackerF32) : TrackerF32 :=
  let s := { s with m_SamplesLeft := s.m_SamplesLeft - 1 }
  let s := { s with m_Position := F32.add s.m_Position s.m_Velocity }
  if (F32.lt ⟨0, 0⟩ s.m_Velocity && F32.le s.m_TargetPosition s.m_Position) ||
      (F32.lt s.m_Velocity ⟨0, 0⟩ && F32.le s.m_Position s.m_TargetPosition) then
    { s with
      m_Velocity := s.m_NextVelocity
      m_Position := s.m_TargetPosition
      m_NextVelocity := ⟨0, 0⟩
      m_TargetPosition := ⟨0, 0⟩ }
  else s

/-- The tracker part of one `processSample` call in binary32.  Only the
segment start reads `values`. -/
def trackerStepF32 (B : Nat) (s : TrackerF32) (values : Nat → F32) : TrackerF32 :=
  if s.m_SamplesLeft = 0 then segmentStartF32 B s values else inSegmentF32 s

/-- The value returned by `processSample` in binary32,
`Lerp(m_AttackStrength * m_AttackParam, m_Position, attack_noise)`; the attack
strength, the attack amount and the noise sample are parameters. -/
def outputF32 (a : TrackerF32) (strength attack noise : F32) : F32 :=
  LerpF32 (F32.mul strength attack) a.m_Position noise

/-- A rational number `M * 2^E` with `|M| ≤ 2^24`: a value that rounding to 24
bits leaves alone. -/
def Representable (y : ℚ) : Prop :=
  ∃ (M E : Int), M.natAbs ≤ 2 ^ 24 ∧ y = (M : ℚ) * (2 : ℚ) ^ E

/-- Invariant of the binary32 tracker inside a segment with target `T ≥ 0`:
the position is between 0 and `T`; on the first leg the target is `T`, the
velocity is non-negative and the next velocity non-positive; on the second leg
the target is 0, the velocity non-positive and the next velocity 0. -/
def rampNonnegF32 (a : TrackerF32) (T : ℚ) : Prop :=
  0 ≤ a.m_Position.toRat ∧ a.m_Position.toRat ≤ T ∧
    ((a.m_TargetPosition.toRat = T ∧ 0 ≤ a.m_Velocity.toRat ∧
        a.m_NextVelocity.toRat ≤ 0) ∨
      (a.m_TargetPosition.toRat = 0 ∧ a.m_Velocity.toRat ≤ 0 ∧
        a.m_NextVelocity.toRat = 0))

/-- Invariant of the binary32 tracker inside a segment with target `T ≤ 0`
(the mirror image of `rampNonnegF32`). -/
def rampNonposF32 (a : TrackerF32) (T : ℚ) : Prop :=
  T ≤ a.m_Position.toRat ∧ a.m_Position.toRat ≤ 0 ∧
    ((a.m_TargetPosition.toRat = T ∧ a.m_Velocity.toRat ≤ 0 ∧
        0 ≤ a.m_NextVelocity.toRat) ∨
      (a.m_TargetPosition.toRat = 0 ∧ 0 ≤ a.m_Velocity.toRat ∧
        a.m_NextVelocity.toRat = 0))

/-- A window holding a run of 24 samples `1.0` followed by samples `-1.0`. -/
def rampWindow : Nat → F32 :=
  fun i => if i < 24 then ⟨1, 0⟩ else ⟨-1, 0⟩

/-- A fresh instance after `updateParams` with raw triangle parameter `1.0`
and raw saw parameter `0.0`: triangle shape `1.0` and saw skew `0.5`. -/
def rampTracker : TrackerF32 :=
  updateParamsF32 freshF32 ⟨1, 0⟩ ⟨0, 0⟩

/-- A window holding a run of 6 samples `1.0` followed by samples `-1.0`. -/
def legWindow : Nat → F32 :=
  fun i => if i < 6 then ⟨1, 0⟩ else ⟨-1, 0⟩

/-- A fresh instance after `updateParams` with raw triangle parameter `0.5`
and raw saw parameter `0.0`: triangle shape `0.5` and saw skew `0.5`. -/
def legTracker : TrackerF32 :=
  updateParamsF32 freshF32 ⟨1, -1⟩ ⟨0, 0⟩

end NESPatch

namespace NESPatch

/-! ## Lemmas on the static helpers -/

theorem Clamp01_nonneg (f : ℚ) : 0 ≤ Clamp01 f := by
  unfold Clamp01
  split_ifs <;> linarith

theorem Clamp01_le_one (f : ℚ) : Clamp01 f ≤ 1 := by
  unfold Clamp01
  split_ifs <;> linarith

theorem Clamp01_mono {f g : ℚ} (h : f ≤ g) : Clamp01 f ≤ Clamp01 g := by
  unfold Clamp01
  split_ifs <;> linarith

theorem Clamp01_of_nonpos {f : ℚ} (h : f ≤ 0) : Clamp01 f = 0 := by
  unfold Clamp01
  split_ifs <;> linarith

theorem Clamp01_of_one_le {f : ℚ} (h : 1 ≤ f) : Clamp01 f = 1 := by
  unfold Clamp01
  split_ifs <;> linarith

theorem Clamp01_of_mem {f : ℚ} (h0 : 0 ≤ f) (h1 : f ≤ 1) : Clamp01 f = f := by
  unfold Clamp01
  split_ifs <;> linarith

theorem Lerp_ge {f min max : ℚ} (h : min ≤ max) : min ≤ Lerp f min max := by
  unfold Lerp
  have := mul_nonneg (sub_nonneg.mpr h) (Clamp01_nonneg f)
  linarith

theorem Lerp_le {f min max : ℚ} (h : min ≤ max) : Lerp f min max ≤ max := by
  unfold Lerp
  have := mul_le_mul_of_nonneg_left (Clamp01_le_one f) (sub_nonneg.mpr h)
  linarith

theorem MapParam_ge (p : ℚ) {min max : ℚ} (h : min ≤ max) : min ≤ MapParam p min max :=
  Lerp_ge h

theorem MapParam_le (p : ℚ) {min max : ℚ} (h : min ≤ max) : MapParam p min max ≤ max :=
  Lerp_le h

theorem MapParam_of_nonpos {p : ℚ} (min max : ℚ) (h : p ≤ 0) : MapParam p min max = min := by
  have hc : Clamp01 ((p - 2 / 100) * (1 / (1 - 2 / 100 * 2))) = 0 := by
    apply Clamp01_of_nonpos
    have : (p - 2 / 100) * (1 / (1 - 2 / 100 * 2)) = (p - 2 / 100) * (25 / 24) := by norm_num
    rw [this]
    nlinarith
  simp only [MapParam, Lerp, hc, mul_zero, add_zero]

theorem MapParam_of_one_le {p : ℚ} (min max : ℚ) (h : 1 ≤ p) : MapParam p min max = max := by
  have hc : Clamp01 ((p - 2 / 100) * (1 / (1 - 2 / 100 * 2))) = 1 := by
    apply Clamp01_of_one_le
    have : (p - 2 / 100) * (1 / (1 - 2 / 100 * 2)) = (p - 2 / 100) * (25 / 24) := by norm_num
    rw [this]
    nlinarith
  simp only [MapParam, Lerp, hc, mul_one]
  ring

/-! ## Evaluations at concrete inputs -/

theorem DELAY_BUFFER_SIZE_128 : DELAY_BUFFER_SIZE 128 = 352 := by decide

set_option maxRecDepth 20000 in
theorem xorshift32_draws_0_207 : xorshift32^[207] 12345 = 3771186703 := by decide

set_option maxRecDepth 20000 in
theorem xorshift32_draws_207_414 : xorshift32^[207] 3771186703 = 122656273 := by decide

set_option maxRecDepth 20000 in
theorem xorshift32_draws_414_621 : xorshift32^[207] 122656273 = 425213632 := by decide

set_option maxRecDepth 20000 in
theorem xorshift32_draws_621_828 : xorshift32^[207] 425213632 = 263906914 := by decide

set_option maxRecDepth 20000 in
theorem xorshift32_draws_828_1033 : xorshift32^[205] 263906914 = 3533156270 := by decide

theorem xorshift32_draws_1033 : xorshift32^[1033] 12345 = 3533156270 := by
  have e : (1033 : Nat) = 205 + (207 + (207 + (207 + 207))) := by norm_num
  rw [e, Function.iterate_add_apply, Function.iterate_add_apply, Function.iterate_add_apply,
    Function.iterate_add_apply, xorshift32_draws_0_207, xorshift32_draws_207_414,
    xorshift32_draws_414_621, xorshift32_draws_621_828, xorshift32_draws_828_1033]

theorem RandomUnit_3533156270 : RandomUnit 3533156270 = (3408789503, 32768 / 32767) := by
  have h : xorshift32 3533156270 = 3408789503 := by decide
  have h2 : 3408789503 &&& 0xffff = 65535 := by decide
  simp only [RandomUnit, h, h2]
  norm_num

theorem exampleWindow_run :
    (∀ i, i < 2 → (exampleWindow i > 0 ↔ exampleWindow 0 > 0)) ∧
    (2 = DELAY_BUFFER_SIZE 128 ∨ ¬ (exampleWindow 2 > 0 ↔ exampleWindow 0 > 0)) := by
  refine ⟨?_, Or.inr ?_⟩
  · intro i hi
    interval_cases i <;> simp [exampleWindow]
  · simp [exampleWindow]

theorem exampleState_triangle :
    0 ≤ exampleState.m_TriangleParam ∧ exampleState.m_TriangleParam ≤ 1 :=
  ⟨MapParam_ge _ (by norm_num), MapParam_le _ (by norm_num)⟩

/-! ## Parameter mapper -/

/-- C1: `MapParam p min max` with `min ≤ max` lies in `[min, max]`, so
`updateParams` yields a triangle shape in `[0,1]`, a saw skew in `[1/2,1]`, an
attack amount in `[0,2]` and a compression amount in `[0,1]`; every raw value
`p ≤ 0` maps to `min` and every raw value `p ≥ 1` maps to `max`. -/
theorem MapParam_range :
    (∀ p min max : ℚ, min ≤ max → min ≤ MapParam p min max ∧ MapParam p min max ≤ max) ∧
    (∀ (s : NESPatch) (params : Nat → ℚ),
      (0 ≤ (updateParams s params).m_TriangleParam ∧
        (updateParams s params).m_TriangleParam ≤ 1) ∧
      (1 / 2 ≤ (updateParams s params).m_SawParam ∧
        (updateParams s params).m_SawParam ≤ 1) ∧
      (0 ≤ (updateParams s params).m_AttackParam ∧
        (updateParams s params).m_AttackParam ≤ 2) ∧
      (0 ≤ (updateParams s params).m_CompressionParam ∧
        (updateParams s params).m_CompressionParam ≤ 1)) ∧
    (∀ p min max : ℚ, p ≤ 0 → MapParam p min max = min) ∧
    (∀ p min max : ℚ, 1 ≤ p → MapParam p min max = max) := by
  refine ⟨fun p min max h => ⟨MapParam_ge p h, MapParam_le p h⟩, ?_,
    fun p min max h => MapParam_of_nonpos min max h,
    fun p min max h => MapParam_of_one_le min max h⟩
  intro s params
  simp only [updateParams]
  exact ⟨⟨MapParam_ge _ (by norm_num), MapParam_le _ (by norm_num)⟩,
    ⟨MapParam_ge _ (by norm_num), MapParam_le _ (by norm_num)⟩,
    ⟨MapParam_ge _ (by norm_num), MapParam_le _ (by norm_num)⟩,
    ⟨MapParam_ge _ (by norm_num), MapParam_le _ (by norm_num)⟩⟩

/-- Witness for C1: the range at `p = 1/2` in `[0, 1]`, and the two endpoints
at the out-of-range raw values `-1` and `2`. -/
theorem MapParam_range_witness :
    ((0 : ℚ) ≤ 1 ∧ 0 ≤ MapParam (1 / 2) 0 1 ∧ MapParam (1 / 2) 0 1 ≤ 1) ∧
    ((-1 : ℚ) ≤ 0 ∧ MapParam (-1) 0 2 = 0) ∧
    ((1 : ℚ) ≤ 2 ∧ MapParam 2 0 2 = 2) :=
  ⟨⟨by norm_num, MapParam_range.1 (1 / 2) 0 1 (by norm_num)⟩,
    ⟨by norm_num, MapParam_range.2.2.1 (-1) 0 2 (by norm_num)⟩,
    ⟨by norm_num, MapParam_range.2.2.2 2 0 2 (by norm_num)⟩⟩

/-- C2: `MapParam` is monotonically non-decreasing in the raw input: for
`min ≤ max` and raw values `p ≤ q`, `MapParam p min max ≤ MapParam q min max`. -/
theorem MapParam_mono (p q min max : ℚ) (h : min ≤ max) (hpq : p ≤ q) :
    MapParam p min max ≤ MapParam q min max := by
  have hc : Clamp01 ((p - 2 / 100) * (1 / (1 - 2 / 100 * 2))) ≤
      Clamp01 ((q - 2 / 100) * (1 / (1 - 2 / 100 * 2))) := by
    apply Clamp01_mono
    apply mul_le_mul_of_nonneg_right (by linarith)
    norm_num
  have := mul_le_mul_of_nonneg_left hc (sub_nonneg.mpr h)
  simp only [MapParam, Lerp]
  linarith

/-- Witness for C2: two raw values inside `(0.02, 0.98)` mapped into `[1/2, 1]`. -/
theorem MapParam_mono_witness :
    ((1 : ℚ) / 2 ≤ 1 ∧ (3 : ℚ) / 10 ≤ 6 / 10) ∧
      MapParam (3 / 10) (1 / 2) 1 ≤ MapParam (6 / 10) (1 / 2) 1 :=
  ⟨⟨by norm_num, by norm_num⟩,
    MapParam_mono (3 / 10) (6 / 10) (1 / 2) 1 (by norm_num) (by norm_num)⟩


/-! ## Segment start: the constant-sign scan -/

theorem scanLoop_run (values : Nat → ℚ) (positive : Bool) (N : Nat) :
    ∀ (room n : Nat) (area : ℚ), n ≤ N → N ≤ n + room →
      (∀ i, n ≤ i → i < N → decide (values i > 0) = positive) →
      (N = n + room ∨ decide (values N > 0) ≠ positive) →
      scanLoop values positive room n area =
        (N, area + ∑ i in Finset.Ico n N, values i) := by
  intro room
  induction room with
  | zero =>
    intro n area h1 h2 _ _
    have hN : N = n := by omega
    subst hN
    simp [scanLoop]
  | succ room ih =>
    intro n area h1 h2 hrun hend
    by_cases hm : decide (values n > 0) = positive
    · have hlt : n < N := by
        rcases Nat.lt_or_ge n N with h | h
        · exact h
        · have hN : N = n := by omega
          subst hN
          rcases hend with h' | h'
          · omega
          · exact absurd hm h'
      have hstep : scanLoop values positive (room + 1) n area =
          scanLoop values positive room (n + 1) (area + values n) := by
        simp [scanLoop, hm]
      rw [hstep, ih (n + 1) (area + values n) hlt (by omega)
        (fun i hi hiN => hrun i (by omega) hiN)
        (by rcases hend with h' | h'
            · left; omega
            · right; exact h'),
        Finset.sum_eq_sum_Ico_succ_bot hlt, add_assoc]
    · have hN : N = n := by
        rcases Nat.lt_or_ge n N with h | h
        · exact absurd (hrun n le_rfl h) hm
        · omega
      subst hN
      simp [scanLoop, hm]

theorem scanLoop_segmentStart (B : Nat) (values : Nat → ℚ) (N : Nat)
    (hN1 : 1 ≤ N) (hND : N ≤ DELAY_BUFFER_SIZE B)
    (hrun : ∀ i, i < N → (values i > 0 ↔ values 0 > 0))
    (hend : N = DELAY_BUFFER_SIZE B ∨ ¬ (values N > 0 ↔ values 0 > 0)) :
    scanLoop values (decide (values 0 > 0)) (DELAY_BUFFER_SIZE B - 1) 1 (values 0) =
      (N, ∑ i in Finset.range N, values i) := by
  rw [scanLoop_run values (decide (values 0 > 0)) N (DELAY_BUFFER_SIZE B - 1) 1 (values 0)
    hN1 (by omega)
    (fun i _ hiN => by
      have := hrun i hiN
      simp only [decide_eq_decide]
      exact this)
    (by
      rcases hend with h | h
      · left; omega
      · right
        simpa only [ne_eq, decide_eq_decide] using h)]
  rw [Finset.range_eq_Ico, Finset.sum_eq_sum_Ico_succ_bot (by omega : 0 < N)]

/-- The fields of the tracker after `processSample` are those left by the
branch taken: the attack detector and the noise draw do not touch them. -/
theorem processSample_tracker (B : Nat) (s : NESPatch) (values : Nat → ℚ)
    (volume_values : Nat → Int) (update_volume : Bool) :
    let t := if s.m_SamplesLeft = 0 then segmentStart B s values else inSegment s
    let r := (processSample B s values volume_values update_volume).1
    r.m_SamplesLeft = t.m_SamplesLeft ∧ r.m_TargetPosition = t.m_TargetPosition ∧
      r.m_Position = t.m_Position ∧ r.m_Velocity = t.m_Velocity ∧
      r.m_NextVelocity = t.m_NextVelocity := by
  intro t r
  simp only [r, t, processSample]
  split_ifs <;> simp

/-- C3: segment targeting.  When `processSample` is called with
`m_SamplesLeft = 0` and the window starts with a run of exactly `N` samples
(`1 ≤ N ≤ DELAY_BUFFER_SIZE`) on the same side of zero as the first one (the
test is `value > 0`), ended by a sample on the other side or by the scan cap,
then afterwards `m_TargetPosition` is the arithmetic mean of those `N` raw
samples and `m_SamplesLeft = N`. -/
theorem segment_targeting (B : Nat) (s : NESPatch) (values : Nat → ℚ)
    (volume_values : Nat → Int) (update_volume : Bool) (N : Nat)
    (h0 : s.m_SamplesLeft = 0) (hN1 : 1 ≤ N) (hND : N ≤ DELAY_BUFFER_SIZE B)
    (hrun : ∀ i, i < N → (values i > 0 ↔ values 0 > 0))
    (hend : N = DELAY_BUFFER_SIZE B ∨ ¬ (values N > 0 ↔ values 0 > 0)) :
    (processSample B s values volume_values update_volume).1.m_TargetPosition =
        (∑ i in Finset.range N, values i) / (N : ℚ) ∧
      (processSample B s values volume_values update_volume).1.m_SamplesLeft = N := by
  have ht := processSample_tracker B s values volume_values update_volume
  simp only [h0, if_true] at ht
  rw [ht.1, ht.2.1]
  simp only [segmentStart, scanLoop_segmentStart B values N hN1 hND hrun hend]
  exact ⟨trivial, trivial⟩


/-- Witness for C3: the window `1, 3, -1, 0, ...` on a fresh instance with
`DELAY_BUFFER_SIZE = 352`: the run has 2 samples and mean 2. -/
theorem segment_targeting_witness :
    ((fresh 128).m_SamplesLeft = 0 ∧ 1 ≤ 2 ∧ 2 ≤ DELAY_BUFFER_SIZE 128 ∧
      (∀ i, i < 2 → (exampleWindow i > 0 ↔ exampleWindow 0 > 0)) ∧
      (2 = DELAY_BUFFER_SIZE 128 ∨ ¬ (exampleWindow 2 > 0 ↔ exampleWindow 0 > 0))) ∧
    (processSample 128 (fresh 128) exampleWindow (fun _ => 0) true).1.m_TargetPosition = 2 ∧
    (processSample 128 (fresh 128) exampleWindow (fun _ => 0) true).1.m_SamplesLeft = 2 := by
  have h2 : 2 ≤ DELAY_BUFFER_SIZE 128 := by decide
  have h := segment_targeting 128 (fresh 128) exampleWindow (fun _ => 0) true 2 rfl
    (by norm_num) h2 exampleWindow_run.1 exampleWindow_run.2
  refine ⟨⟨rfl, by norm_num, h2, exampleWindow_run.1, exampleWindow_run.2⟩, ?_, h.2⟩
  rw [h.1]
  simp only [Finset.sum_range_succ, Finset.sum_range_zero, exampleWindow]
  norm_num

/-! ## Compression pre-filter -/

/-- The compression amount is not read by `processSample`: changing it changes
neither the value returned nor any other member. -/
theorem processSample_compression (B : Nat) (s : NESPatch) (c : ℚ) (values : Nat → ℚ)
    (volume_values : Nat → Int) (update_volume : Bool) :
    processSample B { s with m_CompressionParam := c } values volume_values update_volume =
      ({ (processSample B s values volume_values update_volume).1 with
          m_CompressionParam := c },
        (processSample B s values volume_values update_volume).2) := by
  simp only [processSample, segmentStart, inSegment]
  split_ifs <;> rfl

theorem sampleLoop_compression (B : Nat) (size : Nat) (s : NESPatch) (c : ℚ) :
    sampleLoop B size { s with m_CompressionParam := c } =
      ({ (sampleLoop B size s).1 with m_CompressionParam := c }, (sampleLoop B size s).2) := by
  unfold sampleLoop
  generalize ([] : List ℚ) = out
  induction size with
  | zero => rfl
  | succ n ih =>
    rw [List.range_succ, List.foldl_append, List.foldl_append, ih]
    simp only [List.foldl_cons, List.foldl_nil]
    rw [processSample_compression]

/-- The output block of `processAudio` does not depend on the raw Compression
parameter (index 3). -/
theorem processAudio_compression (B : Nat) (s : NESPatch) (params params' : Nat → ℚ)
    (block : List ℚ) (h0 : params 0 = params' 0) (h1 : params 1 = params' 1)
    (h2 : params 2 = params' 2) :
    (processAudio B s params block).2 = (processAudio B s params' block).2 := by
  have h := sampleLoop_compression B block.length
    { updateParams s params' with
      m_Buffer := arm_copy_from (fun i => block.getD i 0) (DELAY_BUFFER_SIZE B) block.length 0
        (arm_copy_within 0 block.length 0 (DELAY_BUFFER_SIZE B) 0 s.m_Buffer)
      m_VolumeBuffer := volumeLoop B (fun i => block.getD i 0) block.length
        (arm_copy_within 0 (block.length / VOLUME_BUFFER_RESOLUTION) 0 (VOLUME_BUFFER_SIZE B) 0
          s.m_VolumeBuffer) }
    (MapParam (params 3) 0 1)
  simp only [processAudio, updateParams, h0, h1, h2] at h ⊢
  rw [h]

/-- C4 (the code at a failing input): with compression amount 1 and a window
that starts with the run `1/2, 1/2` followed by `-1/2`, the segment start sets
`m_TargetPosition` to the mean of the raw samples, `1/2`, while the mean of
`preUpdate` over the run is `13107/65536`. -/
theorem segment_area_uses_raw_samples :
    (updateParams (fresh 128) (fun _ => 1)).m_CompressionParam = 1 ∧
    (updateParams (fresh 128) (fun _ => 1)).m_SamplesLeft = 0 ∧
    (processSample 128 (updateParams (fresh 128) (fun _ => 1))
        (fun i => if i < 2 then 1 / 2 else -1 / 2) (fun _ => 0) true).1.m_TargetPosition
      = 1 / 2 ∧
    (∑ i in Finset.range 2, preUpdate (updateParams (fresh 128) (fun _ => 1))
        ((fun i : Nat => if i < 2 then (1 : ℚ) / 2 else -1 / 2) i)) / 2 = 13107 / 65536 := by
  have hc : (updateParams (fresh 128) (fun _ => 1)).m_CompressionParam = 1 := by
    simp only [updateParams]
    exact MapParam_of_one_le 0 1 le_rfl
  refine ⟨hc, rfl, ?_, ?_⟩
  · have ht := processSample_tracker 128 (updateParams (fresh 128) (fun _ => 1))
      (fun i => if i < 2 then 1 / 2 else -1 / 2) (fun _ => 0) true
    have hrun : ∀ i, i < 2 →
        (((fun i : Nat => if i < 2 then (1 : ℚ) / 2 else -1 / 2) i) > 0 ↔
          ((fun i : Nat => if i < 2 then (1 : ℚ) / 2 else -1 / 2) 0) > 0) := by
      intro i hi
      interval_cases i <;> norm_num
    have hscan := scanLoop_segmentStart 128
      (fun i : Nat => if i < 2 then (1 : ℚ) / 2 else -1 / 2) 2 (by norm_num) (by decide) hrun
      (Or.inr (by norm_num))
    rw [ht.2.1]
    simp only [updateParams, fresh, if_true, segmentStart, hscan, Finset.sum_range_succ,
      Finset.sum_range_zero]
    norm_num
  · simp only [preUpdate, hc, Finset.sum_range_succ, Finset.sum_range_zero, Lerp, Squaref]
    norm_num [Clamp01, abs_of_pos]

/-! ## Noise generator -/

/-- C5 (the code at a failing input): the generator state after 1033 draws
from the seed 12345 is 3533156270, and the next `RandomUnit` draw returns
`32768/32767`, which is larger than 1. -/
theorem RandomUnit_above_one :
    xorshift32^[1033] 12345 = 3533156270 ∧
    (RandomUnit 3533156270).2 = 32768 / 32767 ∧
    ¬ ((RandomUnit 3533156270).2 ≤ 1) := by
  refine ⟨xorshift32_draws_1033, ?_, ?_⟩
  · rw [RandomUnit_3533156270]
  · rw [RandomUnit_3533156270]
    norm_num

/-! ## Attack gating -/

theorem segmentStart_attackParam (B : Nat) (s : NESPatch) (values : Nat → ℚ) :
    (segmentStart B s values).m_AttackParam = s.m_AttackParam := rfl

theorem inSegment_attackParam (s : NESPatch) :
    (inSegment s).m_AttackParam = s.m_AttackParam := by
  simp only [inSegment]
  split_ifs <;> rfl

/-- C6: attack gating.  Whenever the mapped attack amount `m_AttackParam` is 0,
`processSample` returns exactly the `m_Position` computed in that call, for
every window, every envelope content, every stale `m_AttackStrength` and every
random state. -/
theorem attack_gating (B : Nat) (s : NESPatch) (values : Nat → ℚ)
    (volume_values : Nat → Int) (update_volume : Bool) (h : s.m_AttackParam = 0) :
    (processSample B s values volume_values update_volume).2 =
      (processSample B s values volume_values update_volume).1.m_Position := by
  have ha : (if s.m_SamplesLeft = 0 then segmentStart B s values
      else inSegment s).m_AttackParam = 0 := by
    split_ifs
    · rw [segmentStart_attackParam, h]
    · rw [inSegment_attackParam, h]
  simp only [processSample, ha, lt_self_iff_false, false_and, if_false, mul_zero, Lerp,
    Clamp01_of_nonpos (le_refl (0 : ℚ)), add_zero, gt_iff_lt]

/-- Witness for C6: an instance with attack amount 0 but a stale attack
strength of 1, at a segment start. -/
theorem attack_gating_witness :
    ({ fresh 128 with m_AttackStrength := 1 } : NESPatch).m_AttackParam = 0 ∧
    (processSample 128 { fresh 128 with m_AttackStrength := 1 } (fun _ => 1 / 2)
        (fun _ => 100) true).2 =
      (processSample 128 { fresh 128 with m_AttackStrength := 1 } (fun _ => 1 / 2)
        (fun _ => 100) true).1.m_Position :=
  ⟨rfl, attack_gating 128 { fresh 128 with m_AttackStrength := 1 } (fun _ => 1 / 2)
    (fun _ => 100) true rfl⟩


/-! ## The history buffer -/

theorem arm_copy_within_length {α : Type} (zero : α) (src dst : Nat) :
    ∀ (count start : Nat) (buf : List α),
      (arm_copy_within zero src dst count start buf).length = buf.length := by
  intro count
  induction count with
  | zero => intro start buf; rfl
  | succ count ih =>
    intro start buf
    simp only [arm_copy_within, ih, List.length_set]

theorem arm_copy_from_length {α : Type} (pSrc : Nat → α) (dst : Nat) :
    ∀ (count start : Nat) (buf : List α),
      (arm_copy_from pSrc dst count start buf).length = buf.length := by
  intro count
  induction count with
  | zero => intro start buf; rfl
  | succ count ih =>
    intro start buf
    simp only [arm_copy_from, ih, List.length_set]

theorem arm_copy_from_getElem? {α : Type} (pSrc : Nat → α) (dst : Nat) (j : Nat) :
    ∀ (count start : Nat) (buf : List α), dst + start + count ≤ buf.length →
      (arm_copy_from pSrc dst count start buf)[j]? =
        if dst + start ≤ j ∧ j < dst + start + count then some (pSrc (j - dst)) else buf[j]? := by
  intro count
  induction count with
  | zero =>
    intro start buf _
    have : ¬ (dst + start ≤ j ∧ j < dst + start + 0) := by omega
    simp only [arm_copy_from, this, if_false]
  | succ count ih =>
    intro start buf hb
    rw [arm_copy_from, ih (start + 1) _ (by rw [List.length_set]; omega), List.getElem?_set]
    by_cases h1 : dst + (start + 1) ≤ j ∧ j < dst + (start + 1) + count
    · have h2 : dst + start ≤ j ∧ j < dst + start + (count + 1) := by omega
      rw [if_pos h1, if_pos h2]
    · rw [if_neg h1]
      by_cases h3 : dst + start = j
      · have h2 : dst + start ≤ j ∧ j < dst + start + (count + 1) := by omega
        have h4 : dst + start < buf.length := by omega
        have h5 : j - dst = start := by omega
        rw [if_pos h3, if_pos h4, if_pos h2, h5]
      · have h2 : ¬ (dst + start ≤ j ∧ j < dst + start + (count + 1)) := by omega
        rw [if_neg h3, if_neg h2]

theorem arm_copy_within_getElem? {α : Type} (zero : α) (src dst : Nat) (hsd : dst ≤ src)
    (j : Nat) :
    ∀ (count start : Nat) (buf : List α), src + start + count ≤ buf.length →
      (arm_copy_within zero src dst count start buf)[j]? =
        if dst + start ≤ j ∧ j < dst + start + count then buf[j - dst + src]? else buf[j]? := by
  intro count
  induction count with
  | zero =>
    intro start buf _
    have : ¬ (dst + start ≤ j ∧ j < dst + start + 0) := by omega
    simp only [arm_copy_within, this, if_false]
  | succ count ih =>
    intro start buf hb
    rw [arm_copy_within, ih (start + 1) _ (by rw [List.length_set]; omega)]
    by_cases h1 : dst + (start + 1) ≤ j ∧ j < dst + (start + 1) + count
    · have h2 : dst + start ≤ j ∧ j < dst + start + (count + 1) := by omega
      have h3 : ¬ (dst + start = j - dst + src) := by omega
      rw [if_pos h1, if_pos h2, List.getElem?_set, if_neg h3]
    · rw [if_neg h1, List.getElem?_set]
      by_cases h3 : dst + start = j
      · have h2 : dst + start ≤ j ∧ j < dst + start + (count + 1) := by omega
        have h4 : dst + start < buf.length := by omega
        have h5 : j - dst + src = src + start := by omega
        have h6 : src + start < buf.length := by omega
        rw [if_pos h3, if_pos h4, if_pos h2, h5, List.getD_eq_getElem?_getD,
          List.getElem?_eq_getElem h6, Option.getD_some]
      · have h2 : ¬ (dst + start ≤ j ∧ j < dst + start + (count + 1)) := by omega
        rw [if_neg h3, if_neg h2]

theorem processSample_buffers (B : Nat) (s : NESPatch) (values : Nat → ℚ)
    (volume_values : Nat → Int) (update_volume : Bool) :
    (processSample B s values volume_values update_volume).1.m_Buffer = s.m_Buffer ∧
    (processSample B s values volume_values update_volume).1.m_VolumeBuffer =
      s.m_VolumeBuffer := by
  simp only [processSample, segmentStart, inSegment]
  split_ifs <;> exact ⟨rfl, rfl⟩

theorem sampleLoop_buffers (B : Nat) (size : Nat) (s : NESPatch) :
    (sampleLoop B size s).1.m_Buffer = s.m_Buffer ∧
    (sampleLoop B size s).1.m_VolumeBuffer = s.m_VolumeBuffer := by
  unfold sampleLoop
  generalize ([] : List ℚ) = out
  induction size generalizing out with
  | zero => exact ⟨rfl, rfl⟩
  | succ n ih =>
    rw [List.range_succ, List.foldl_append]
    simp only [List.foldl_cons, List.foldl_nil]
    rw [(processSample_buffers B _ _ _ _).1, (processSample_buffers B _ _ _ _).2]
    exact ih out

/-- The history buffer after `processAudio`: the shift followed by the copy of
the block. -/
theorem processAudio_buffer (B : Nat) (s : NESPatch) (params : Nat → ℚ) (block : List ℚ) :
    (processAudio B s params block).1.m_Buffer =
      arm_copy_from (fun i => block.getD i 0) (DELAY_BUFFER_SIZE B) block.length 0
        (arm_copy_within 0 block.length 0 (DELAY_BUFFER_SIZE B) 0 s.m_Buffer) := by
  simp only [processAudio, (sampleLoop_buffers B _ _).1, updateParams]

theorem processAudio_buffer_length (B : Nat) (s : NESPatch) (params : Nat → ℚ)
    (block : List ℚ) :
    (processAudio B s params block).1.m_Buffer.length = s.m_Buffer.length := by
  rw [processAudio_buffer, arm_copy_from_length, arm_copy_within_length]

theorem processBlocks_buffer_length (B : Nat) (inputs : List ((Nat → ℚ) × List ℚ)) :
    ∀ s : NESPatch, (processBlocks B s inputs).m_Buffer.length = s.m_Buffer.length := by
  induction inputs with
  | nil => intro s; rfl
  | cons x xs ih =>
    intro s
    simp only [processBlocks, List.foldl_cons] at ih ⊢
    rw [ih, processAudio_buffer_length]

/-- Entry `j` of the history buffer after `processAudio` on a block of
`AUDIO_BLOCK_SIZE` samples. -/
theorem processAudio_buffer_getElem? (B : Nat) (s : NESPatch) (params : Nat → ℚ)
    (block : List ℚ) (hs : s.m_Buffer.length = bufferLength B) (hb : block.length = B)
    (j : Nat) :
    (processAudio B s params block).1.m_Buffer[j]? =
      if j < DELAY_BUFFER_SIZE B then s.m_Buffer[j + B]?
      else if j < DELAY_BUFFER_SIZE B + B then block[j - DELAY_BUFFER_SIZE B]?
      else s.m_Buffer[j]? := by
  unfold bufferLength at hs
  rw [processAudio_buffer, hb,
    arm_copy_from_getElem? _ _ _ _ _ _
      (by rw [arm_copy_within_length]; omega),
    arm_copy_within_getElem? 0 B 0 (Nat.zero_le _) j _ _ _ (by omega)]
  by_cases h1 : j < DELAY_BUFFER_SIZE B
  · have h2 : ¬ (DELAY_BUFFER_SIZE B + 0 ≤ j ∧ j < DELAY_BUFFER_SIZE B + 0 + B) := by omega
    have h3 : 0 + 0 ≤ j ∧ j < 0 + 0 + DELAY_BUFFER_SIZE B := by omega
    rw [if_neg h2, if_pos h3, if_pos h1, Nat.sub_zero]
  · by_cases h4 : j < DELAY_BUFFER_SIZE B + B
    · have h2 : DELAY_BUFFER_SIZE B + 0 ≤ j ∧ j < DELAY_BUFFER_SIZE B + 0 + B := by omega
      have h5 : j - DELAY_BUFFER_SIZE B < block.length := by omega
      rw [if_pos h2, if_neg h1, if_pos h4, List.getD_eq_getElem?_getD,
        List.getElem?_eq_getElem h5, Option.getD_some]
    · have h2 : ¬ (DELAY_BUFFER_SIZE B + 0 ≤ j ∧ j < DELAY_BUFFER_SIZE B + 0 + B) := by omega
      have h3 : ¬ (0 + 0 ≤ j ∧ j < 0 + 0 + DELAY_BUFFER_SIZE B) := by omega
      rw [if_neg h2, if_neg h3, if_neg h1, if_neg h4]


/-- C7 as stated fails: with `AUDIO_BLOCK_SIZE = 128`, after `processAudio` on
a block of 128 ones the last 128 entries of `m_Buffer` are not the block (the
array has one more element after the copied block, and it stays 0). -/
theorem last_entries_not_block :
    ¬ ((processAudio 128 (fresh 128) (fun _ => 0) (List.replicate 128 1)).1.m_Buffer.drop
        ((processAudio 128 (fresh 128) (fun _ => 0) (List.replicate 128 1)).1.m_Buffer.length
          - 128) = List.replicate 128 1) := by
  intro h
  have hl : (fresh 128).m_Buffer.length = bufferLength 128 := by
    simp only [fresh, List.length_replicate]
  have hb : (List.replicate 128 (1 : ℚ)).length = 128 := List.length_replicate _ _
  have hlen := processAudio_buffer_length 128 (fresh 128) (fun _ => 0) (List.replicate 128 1)
  have hget := processAudio_buffer_getElem? 128 (fresh 128) (fun _ => 0)
    (List.replicate 128 1) hl hb 480
  rw [hlen, hl] at h
  simp only [bufferLength, DELAY_BUFFER_SIZE_128] at h
  have h2 := congrArg (fun l => l[127]?) h
  simp only [List.getElem?_drop, List.getElem?_replicate] at h2
  rw [hget, DELAY_BUFFER_SIZE_128, if_neg (by norm_num), if_neg (by norm_num)] at h2
  simp only [fresh, List.getElem?_replicate, bufferLength, DELAY_BUFFER_SIZE_128] at h2
  rw [if_pos (by norm_num), if_pos (by norm_num)] at h2
  exact absurd (Option.some.inj h2) (by norm_num)

/-- C7, amended: after `processAudio` on a block of `AUDIO_BLOCK_SIZE` samples
the entries `DELAY_BUFFER_SIZE .. DELAY_BUFFER_SIZE + AUDIO_BLOCK_SIZE - 1` of
`m_Buffer` (the last `block_size` entries before the final element) are the
input block, the final element is left as it was, and the length of `m_Buffer`
is unchanged across any number of successive calls. -/
theorem buffer_shift (B : Nat) (s : NESPatch) (params : Nat → ℚ) (block : List ℚ)
    (hs : s.m_Buffer.length = bufferLength B) (hb : block.length = B) :
    ((processAudio B s params block).1.m_Buffer.drop (DELAY_BUFFER_SIZE B)).take B = block ∧
    (processAudio B s params block).1.m_Buffer[DELAY_BUFFER_SIZE B + B]? =
      s.m_Buffer[DELAY_BUFFER_SIZE B + B]? ∧
    ∀ inputs : List ((Nat → ℚ) × List ℚ),
      (processBlocks B s inputs).m_Buffer.length = s.m_Buffer.length := by
  refine ⟨?_, ?_, fun inputs => processBlocks_buffer_length B inputs s⟩
  · apply List.ext_getElem?
    intro j
    rw [List.getElem?_take, List.getElem?_drop,
      processAudio_buffer_getElem? B s params block hs hb]
    by_cases hj : j < B
    · have h1 : ¬ (DELAY_BUFFER_SIZE B + j < DELAY_BUFFER_SIZE B) := by omega
      have h2 : DELAY_BUFFER_SIZE B + j < DELAY_BUFFER_SIZE B + B := by omega
      rw [if_pos hj, if_neg h1, if_pos h2, Nat.add_sub_cancel_left]
    · rw [if_neg hj, List.getElem?_eq_none (by omega)]
  · rw [processAudio_buffer_getElem? B s params block hs hb]
    have h1 : ¬ (DELAY_BUFFER_SIZE B + B < DELAY_BUFFER_SIZE B) := by omega
    have h2 : ¬ (DELAY_BUFFER_SIZE B + B < DELAY_BUFFER_SIZE B + B) := by omega
    rw [if_neg h1, if_neg h2]

/-- Witness for C7 (amended): a fresh instance with `AUDIO_BLOCK_SIZE = 128`
and a block of 128 ones. -/
theorem buffer_shift_witness :
    ((fresh 128).m_Buffer.length = bufferLength 128 ∧
      (List.replicate 128 (1 : ℚ)).length = 128) ∧
    ((processAudio 128 (fresh 128) (fun _ => 0) (List.replicate 128 1)).1.m_Buffer.drop
        (DELAY_BUFFER_SIZE 128)).take 128 = List.replicate 128 1 :=
  ⟨⟨by simp only [fresh, List.length_replicate], List.length_replicate _ _⟩,
    (buffer_shift 128 (fresh 128) (fun _ => 0) (List.replicate 128 1)
      (by simp only [fresh, List.length_replicate]) (List.length_replicate _ _)).1⟩

theorem history_step (B : Nat) (s : NESPatch) (params : Nat → ℚ) (block st : List ℚ)
    (hs : s.m_Buffer.length = bufferLength B) (hb : block.length = B)
    (hst : DELAY_BUFFER_SIZE B + B ≤ st.length)
    (hinv : s.m_Buffer.take (DELAY_BUFFER_SIZE B + B) =
      st.drop (st.length - (DELAY_BUFFER_SIZE B + B))) :
    (processAudio B s params block).1.m_Buffer.take (DELAY_BUFFER_SIZE B + B) =
      (st ++ block).drop ((st ++ block).length - (DELAY_BUFFER_SIZE B + B)) := by
  apply List.ext_getElem?
  intro j
  rw [List.getElem?_take, List.getElem?_drop, List.length_append, hb,
    processAudio_buffer_getElem? B s params block hs hb]
  have hold : ∀ i, i < DELAY_BUFFER_SIZE B + B →
      s.m_Buffer[i]? = st[st.length - (DELAY_BUFFER_SIZE B + B) + i]? := by
    intro i hi
    have := congrArg (fun l => l[i]?) hinv
    simp only [List.getElem?_take, if_pos hi, List.getElem?_drop] at this
    exact this
  by_cases h1 : j < DELAY_BUFFER_SIZE B
  · have h2 : j < DELAY_BUFFER_SIZE B + B := by omega
    have h3 : st.length + B - (DELAY_BUFFER_SIZE B + B) + j < st.length := by omega
    have h4 : st.length + B - (DELAY_BUFFER_SIZE B + B) + j =
        st.length - (DELAY_BUFFER_SIZE B + B) + (j + B) := by omega
    rw [if_pos h2, if_pos h1, hold (j + B) (by omega), List.getElem?_append_left h3, h4]
  · by_cases h2 : j < DELAY_BUFFER_SIZE B + B
    · have h3 : st.length ≤ st.length + B - (DELAY_BUFFER_SIZE B + B) + j := by omega
      have h4 : st.length + B - (DELAY_BUFFER_SIZE B + B) + j - st.length =
          j - DELAY_BUFFER_SIZE B := by omega
      rw [if_pos h2, if_neg h1, if_pos h2, List.getElem?_append_right h3, h4]
    · rw [if_neg h2, List.getElem?_eq_none]
      rw [List.length_append, hb]
      omega

theorem foldl_append_length (B : Nat) (inputs : List ((Nat → ℚ) × List ℚ))
    (hlen : ∀ x ∈ inputs, x.2.length = B) :
    ∀ st : List ℚ, (inputs.foldl (fun acc x => acc ++ x.2) st).length =
      st.length + inputs.length * B := by
  induction inputs with
  | nil => intro st; simp
  | cons x xs ih =>
    intro st
    have hx : x.2.length = B := hlen x (List.mem_cons_self _ _)
    rw [List.foldl_cons, ih (fun y hy => hlen y (List.mem_cons_of_mem _ hy)),
      List.length_append, hx, List.length_cons]
    ring

theorem history_run (B : Nat) (inputs : List ((Nat → ℚ) × List ℚ))
    (hlen : ∀ x ∈ inputs, x.2.length = B) :
    ∀ (s : NESPatch) (st : List ℚ), s.m_Buffer.length = bufferLength B →
      DELAY_BUFFER_SIZE B + B ≤ st.length →
      s.m_Buffer.take (DELAY_BUFFER_SIZE B + B) =
        st.drop (st.length - (DELAY_BUFFER_SIZE B + B)) →
      (processBlocks B s inputs).m_Buffer.take (DELAY_BUFFER_SIZE B + B) =
        (inputs.foldl (fun acc x => acc ++ x.2) st).drop
          ((inputs.foldl (fun acc x => acc ++ x.2) st).length - (DELAY_BUFFER_SIZE B + B)) := by
  induction inputs with
  | nil => intro s st _ _ h; exact h
  | cons x xs ih =>
    intro s st hs hst hinv
    have hx : x.2.length = B := hlen x (List.mem_cons_self _ _)
    simp only [processBlocks, List.foldl_cons] at ih ⊢
    apply ih (fun y hy => hlen y (List.mem_cons_of_mem _ hy))
    · rw [processAudio_buffer_length, hs]
    · rw [List.length_append]; omega
    · exact history_step B s x.1 x.2 st hs hx hst hinv

/-- C8: history invariant.  After any sequence of blocks of `AUDIO_BLOCK_SIZE`
samples processed on a fresh instance, entries
`[0, DELAY_BUFFER_SIZE + AUDIO_BLOCK_SIZE)` of `m_Buffer` are the most recent
`DELAY_BUFFER_SIZE + AUDIO_BLOCK_SIZE` samples of the stream (zeros followed by
the blocks), oldest first; and each call sets `new[i] = old[i + block_size]`
for `i < DELAY_BUFFER_SIZE` and `new[DELAY_BUFFER_SIZE + j] = block[j]`. -/
theorem history_invariant (B : Nat) (inputs : List ((Nat → ℚ) × List ℚ))
    (hlen : ∀ x ∈ inputs, x.2.length = B) :
    (processBlocks B (fresh B) inputs).m_Buffer.take (DELAY_BUFFER_SIZE B + B) =
      (history B inputs).drop ((history B inputs).length - (DELAY_BUFFER_SIZE B + B)) ∧
    (history B inputs).length = DELAY_BUFFER_SIZE B + B + inputs.length * B ∧
    ∀ (s : NESPatch) (params : Nat → ℚ) (block : List ℚ),
      s.m_Buffer.length = bufferLength B → block.length = B →
      (∀ i, i < DELAY_BUFFER_SIZE B →
        (processAudio B s params block).1.m_Buffer[i]? = s.m_Buffer[i + B]?) ∧
      (∀ j, j < B →
        (processAudio B s params block).1.m_Buffer[DELAY_BUFFER_SIZE B + j]? = block[j]?) := by
  refine ⟨?_, ?_, ?_⟩
  · apply history_run B inputs hlen (fresh B) _
    · simp only [fresh, List.length_replicate]
    · rw [List.length_replicate]
    · simp only [fresh, bufferLength, List.length_replicate, Nat.sub_self, List.drop_zero]
      apply List.ext_getElem?
      intro j
      simp only [List.getElem?_take, List.getElem?_replicate]
      split_ifs <;> first | rfl | omega
  · unfold history
    rw [foldl_append_length B inputs hlen, List.length_replicate]
  · intro s params block hs hb
    refine ⟨fun i hi => ?_, fun j hj => ?_⟩
    · rw [processAudio_buffer_getElem? B s params block hs hb, if_pos hi]
    · have h1 : ¬ (DELAY_BUFFER_SIZE B + j < DELAY_BUFFER_SIZE B) := by omega
      have h2 : DELAY_BUFFER_SIZE B + j < DELAY_BUFFER_SIZE B + B := by omega
      rw [processAudio_buffer_getElem? B s params block hs hb, if_neg h1, if_pos h2,
        Nat.add_sub_cancel_left]


/-- Witness for C8: one block of 128 ones with `AUDIO_BLOCK_SIZE = 128`. -/
theorem history_invariant_witness :
    (∀ x ∈ exampleInputs, x.2.length = 128) ∧
    (processBlocks 128 (fresh 128) exampleInputs).m_Buffer.take (DELAY_BUFFER_SIZE 128 + 128) =
      (history 128 exampleInputs).drop
        ((history 128 exampleInputs).length - (DELAY_BUFFER_SIZE 128 + 128)) :=
  have h : ∀ x ∈ exampleInputs, x.2.length = 128 := by
    intro x hx
    simp only [exampleInputs, List.mem_singleton] at hx
    rw [hx, List.length_replicate]
  ⟨h, (history_invariant 128 exampleInputs h).1⟩

/-! ## Segment start shaping -/

theorem scanLoop_bounds (values : Nat → ℚ) (positive : Bool) :
    ∀ (room n : Nat) (area : ℚ),
      n ≤ (scanLoop values positive room n area).1 ∧
      (scanLoop values positive room n area).1 ≤ n + room := by
  intro room
  induction room with
  | zero => intro n area; simp [scanLoop]
  | succ room ih =>
    intro n area
    simp only [scanLoop]
    split_ifs
    · simp
    · have := ih (n + 1) (area + values n)
      omega

theorem segmentStart_samplesLeft_pos (B : Nat) (s : NESPatch) (values : Nat → ℚ) :
    1 ≤ (segmentStart B s values).m_SamplesLeft :=
  (scanLoop_bounds values _ _ 1 _).1

/-- C9: segment start shaping.  On a call with `m_SamplesLeft = 0`, triangle
shape `s` in `[0,1]` and any skew `k` (in particular `k` in `[1/2,1]`), with `T` the target and `N` the
run length set by the call: `position = T*(1-s)` (so `s = 0` starts at `T` and
`s = 1` starts at 0), the fraction is `f = k` if `T > position` and `1-k`
otherwise, `velocity = (T - position)/max(1, N*f)` and
`next_velocity = (position - T)/max(1, N*(1-f))`; and for a window starting
with a run of exactly `N` samples on one side of zero, `T` is the run mean and
`N` the run length. -/
theorem segment_start_shaping (B : Nat) (s : NESPatch) (values : Nat → ℚ)
    (volume_values : Nat → Int) (update_volume : Bool)
    (h0 : s.m_SamplesLeft = 0)
    (hs0 : 0 ≤ s.m_TriangleParam) (hs1 : s.m_TriangleParam ≤ 1) :
    let r := (processSample B s values volume_values update_volume).1
    let T := r.m_TargetPosition
    let f := if T > r.m_Position then s.m_SawParam else 1 - s.m_SawParam
    r.m_Position = T * (1 - s.m_TriangleParam) ∧
    (s.m_TriangleParam = 0 → r.m_Position = T) ∧
    (s.m_TriangleParam = 1 → r.m_Position = 0) ∧
    r.m_Velocity = (T - r.m_Position) / max 1 ((r.m_SamplesLeft : ℚ) * f) ∧
    r.m_NextVelocity = (r.m_Position - T) / max 1 ((r.m_SamplesLeft : ℚ) * (1 - f)) ∧
    (∀ N : Nat, 1 ≤ N → N ≤ DELAY_BUFFER_SIZE B →
      (∀ i, i < N → (values i > 0 ↔ values 0 > 0)) →
      (N = DELAY_BUFFER_SIZE B ∨ ¬ (values N > 0 ↔ values 0 > 0)) →
      T = (∑ i in Finset.range N, values i) / (N : ℚ) ∧ r.m_SamplesLeft = N) := by
  intro r T f
  have ht := processSample_tracker B s values volume_values update_volume
  simp only [h0, if_true] at ht
  obtain ⟨hN, hT, hP, hV, hNV⟩ := ht
  have hpos : r.m_Position = T * (1 - s.m_TriangleParam) := by
    simp only [r, T, hP, hT, segmentStart, Lerp, Clamp01_of_mem hs0 hs1]
    ring
  refine ⟨hpos, ?_, ?_, ?_, ?_, ?_⟩
  · intro h; rw [hpos, h]; ring
  · intro h; rw [hpos, h]; ring
  · simp only [r, T, f, hV, hP, hT, hN, segmentStart]
  · simp only [r, T, f, hNV, hP, hT, hN, segmentStart]
  · intro N hN1 hND hrun hend
    simp only [r, T, hT, hN, segmentStart, scanLoop_segmentStart B values N hN1 hND hrun hend]
    exact ⟨trivial, trivial⟩

/-- Witness for C9: the example instance (raw parameters `1/2`) on the window
`1, 3, -1, 0, ...`. -/
theorem segment_start_shaping_witness :
    (exampleState.m_SamplesLeft = 0 ∧
      0 ≤ exampleState.m_TriangleParam ∧ exampleState.m_TriangleParam ≤ 1 ∧
      1 ≤ 2 ∧ 2 ≤ DELAY_BUFFER_SIZE 128 ∧
      (∀ i, i < 2 → (exampleWindow i > 0 ↔ exampleWindow 0 > 0)) ∧
      (2 = DELAY_BUFFER_SIZE 128 ∨ ¬ (exampleWindow 2 > 0 ↔ exampleWindow 0 > 0))) ∧
    (processSample 128 exampleState exampleWindow (fun _ => 0) true).1.m_Position =
      (processSample 128 exampleState exampleWindow (fun _ => 0) true).1.m_TargetPosition *
        (1 - exampleState.m_TriangleParam) ∧
    (processSample 128 exampleState exampleWindow (fun _ => 0) true).1.m_TargetPosition =
      (∑ i in Finset.range 2, exampleWindow i) / ((2 : Nat) : ℚ) ∧
    (processSample 128 exampleState exampleWindow (fun _ => 0) true).1.m_SamplesLeft = 2 :=
  have h := segment_start_shaping 128 exampleState exampleWindow (fun _ => 0) true rfl
    exampleState_triangle.1 exampleState_triangle.2
  ⟨⟨rfl, exampleState_triangle.1, exampleState_triangle.2, by norm_num, by decide,
      exampleWindow_run.1, exampleWindow_run.2⟩,
    h.1, h.2.2.2.2.2 2 (by norm_num) (by decide) exampleWindow_run.1 exampleWindow_run.2⟩


/-! ## Ramp completion -/

theorem inSegment_no_trigger (a : NESPatch)
    (h : ¬ ((a.m_Velocity > 0 ∧ a.m_Position + a.m_Velocity ≥ a.m_TargetPosition) ∨
      (a.m_Velocity < 0 ∧ a.m_Position + a.m_Velocity ≤ a.m_TargetPosition))) :
    (inSegment a).m_SamplesLeft = a.m_SamplesLeft - 1 ∧
    (inSegment a).m_Position = a.m_Position + a.m_Velocity ∧
    (inSegment a).m_TargetPosition = a.m_TargetPosition ∧
    (inSegment a).m_Velocity = a.m_Velocity ∧
    (inSegment a).m_NextVelocity = a.m_NextVelocity := by
  simp only [inSegment, if_neg h]
  exact ⟨trivial, trivial, trivial, trivial, trivial⟩

theorem inSegment_trigger (a : NESPatch)
    (h : (a.m_Velocity > 0 ∧ a.m_Position + a.m_Velocity ≥ a.m_TargetPosition) ∨
      (a.m_Velocity < 0 ∧ a.m_Position + a.m_Velocity ≤ a.m_TargetPosition)) :
    (inSegment a).m_SamplesLeft = a.m_SamplesLeft - 1 ∧
    (inSegment a).m_Position = a.m_TargetPosition ∧
    (inSegment a).m_TargetPosition = 0 ∧
    (inSegment a).m_Velocity = a.m_NextVelocity ∧
    (inSegment a).m_NextVelocity = 0 := by
  simp only [inSegment, if_pos h]
  exact ⟨trivial, trivial, trivial, trivial, trivial⟩

theorem processSamples_snoc (B : Nat) (s : NESPatch)
    (calls : List ((Nat → ℚ) × (Nat → Int) × Bool)) (c : (Nat → ℚ) × (Nat → Int) × Bool) :
    processSamples B s (calls ++ [c]) =
      (processSample B (processSamples B s calls) c.1 c.2.1 c.2.2).1 := by
  simp only [processSamples, List.foldl_append, List.foldl_cons, List.foldl_nil]

/-- While fewer than `up` steps have been taken, the first leg advances by
`m_Velocity` per call and nothing else in the tracker changes. -/
theorem first_leg (B : Nat) (r : NESPatch) (up : ℚ)
    (hup : r.m_TargetPosition - r.m_Position = r.m_Velocity * up) :
    ∀ calls : List ((Nat → ℚ) × (Nat → Int) × Bool),
      (calls.length : ℚ) < up → calls.length ≤ r.m_SamplesLeft →
      (processSamples B r calls).m_SamplesLeft = r.m_SamplesLeft - calls.length ∧
      (processSamples B r calls).m_Position =
        r.m_Position + (calls.length : ℚ) * r.m_Velocity ∧
      (processSamples B r calls).m_TargetPosition = r.m_TargetPosition ∧
      (processSamples B r calls).m_Velocity = r.m_Velocity ∧
      (processSamples B r calls).m_NextVelocity = r.m_NextVelocity := by
  intro calls
  induction calls using List.reverseRecOn with
  | nil =>
    intro _ _
    simp [processSamples]
  | append_singleton calls c ih =>
    intro hlt hle
    rw [List.length_append, List.length_singleton] at hlt hle
    push_cast at hlt
    obtain ⟨i1, i2, i3, i4, i5⟩ := ih (by linarith) (by omega)
    have hm : (processSamples B r calls).m_SamplesLeft ≠ 0 := by omega
    have ht := processSample_tracker B (processSamples B r calls) c.1 c.2.1 c.2.2
    simp only [if_neg hm] at ht
    have hno : ¬ (((processSamples B r calls).m_Velocity > 0 ∧
        (processSamples B r calls).m_Position + (processSamples B r calls).m_Velocity ≥
          (processSamples B r calls).m_TargetPosition) ∨
        ((processSamples B r calls).m_Velocity < 0 ∧
        (processSamples B r calls).m_Position + (processSamples B r calls).m_Velocity ≤
          (processSamples B r calls).m_TargetPosition)) := by
      rw [i2, i3, i4]
      have hd : r.m_TargetPosition - (r.m_Position + (calls.length : ℚ) * r.m_Velocity
          + r.m_Velocity) = r.m_Velocity * (up - ((calls.length : ℚ) + 1)) := by
        linear_combination hup
      rintro (⟨hpos, hge⟩ | ⟨hneg, hle'⟩)
      · have := mul_pos hpos (sub_pos.mpr hlt)
        linarith
      · have := mul_neg_of_neg_of_pos hneg (sub_pos.mpr hlt)
        linarith
    obtain ⟨j1, j2, j3, j4, j5⟩ := inSegment_no_trigger _ hno
    rw [processSamples_snoc, ht.1, ht.2.1, ht.2.2.1, ht.2.2.2.1, ht.2.2.2.2, j1, j2, j3, j4, j5,
      i1, i2, i3, i4, i5, List.length_append, List.length_singleton]
    refine ⟨by omega, ?_, rfl, rfl, rfl⟩
    push_cast
    ring

/-- The call that takes the step count to `up` or beyond snaps the position to
the target and switches to the second leg. -/
theorem leg_switch (B : Nat) (r : NESPatch) (up : ℚ) (hv : r.m_Velocity ≠ 0)
    (hup : r.m_TargetPosition - r.m_Position = r.m_Velocity * up)
    (calls : List ((Nat → ℚ) × (Nat → Int) × Bool)) (c : (Nat → ℚ) × (Nat → Int) × Bool)
    (hlt : (calls.length : ℚ) < up) (hge : up ≤ (calls.length : ℚ) + 1)
    (hle : calls.length < r.m_SamplesLeft) :
    (processSample B (processSamples B r calls) c.1 c.2.1 c.2.2).1.m_Position =
      r.m_TargetPosition ∧
    (processSample B (processSamples B r calls) c.1 c.2.1 c.2.2).1.m_Velocity =
      r.m_NextVelocity ∧
    |(processSample B (processSamples B r calls) c.1 c.2.1 c.2.2).1.m_Position -
      (processSamples B r calls).m_Position| ≤ |r.m_Velocity| := by
  obtain ⟨i1, i2, i3, i4, i5⟩ := first_leg B r up hup calls hlt (by omega)
  have hm : (processSamples B r calls).m_SamplesLeft ≠ 0 := by omega
  have ht := processSample_tracker B (processSamples B r calls) c.1 c.2.1 c.2.2
  simp only [if_neg hm] at ht
  have hd : r.m_TargetPosition - (r.m_Position + (calls.length : ℚ) * r.m_Velocity
      + r.m_Velocity) = r.m_Velocity * (up - ((calls.length : ℚ) + 1)) := by
    linear_combination hup
  have htrig : ((processSamples B r calls).m_Velocity > 0 ∧
      (processSamples B r calls).m_Position + (processSamples B r calls).m_Velocity ≥
        (processSamples B r calls).m_TargetPosition) ∨
      ((processSamples B r calls).m_Velocity < 0 ∧
      (processSamples B r calls).m_Position + (processSamples B r calls).m_Velocity ≤
        (processSamples B r calls).m_TargetPosition) := by
    rw [i2, i3, i4]
    rcases lt_or_gt_of_ne hv with hneg | hpos
    · right
      refine ⟨hneg, ?_⟩
      have := mul_nonneg_of_nonpos_of_nonpos hneg.le (sub_nonpos.mpr hge)
      linarith
    · left
      refine ⟨hpos, ?_⟩
      have := mul_nonpos_of_nonneg_of_nonpos hpos.le (sub_nonpos.mpr hge)
      linarith
  obtain ⟨_, j2, _, j4, _⟩ := inSegment_trigger _ htrig
  rw [ht.2.2.1, ht.2.2.2.1, j2, j4, i2, i3, i5]
  refine ⟨rfl, rfl, ?_⟩
  have he : r.m_TargetPosition - (r.m_Position + (calls.length : ℚ) * r.m_Velocity) =
      r.m_Velocity * (up - (calls.length : ℚ)) := by
    linear_combination hup
  rw [he, abs_mul, abs_of_pos (sub_pos.mpr hlt)]
  have h1 : up - (calls.length : ℚ) ≤ 1 := by linarith
  have := mul_le_mul_of_nonneg_left h1 (abs_nonneg r.m_Velocity)
  linarith

theorem segmentStart_velocity (B : Nat) (s : NESPatch) (values : Nat → ℚ)
    (volume_values : Nat → Int) (update_volume : Bool) (h0 : s.m_SamplesLeft = 0) :
    let r := (processSample B s values volume_values update_volume).1
    let f := if r.m_TargetPosition > r.m_Position then s.m_SawParam else 1 - s.m_SawParam
    1 ≤ r.m_SamplesLeft ∧
    r.m_Velocity =
      (r.m_TargetPosition - r.m_Position) / max 1 ((r.m_SamplesLeft : ℚ) * f) ∧
    r.m_NextVelocity =
      (r.m_Position - r.m_TargetPosition) / max 1 ((r.m_SamplesLeft : ℚ) * (1 - f)) := by
  intro r f
  have ht := processSample_tracker B s values volume_values update_volume
  simp only [h0, if_true] at ht
  obtain ⟨hN, hT, hP, hV, hNV⟩ := ht
  refine ⟨?_, ?_, ?_⟩
  · simp only [r, hN]
    exact segmentStart_samplesLeft_pos B s values
  · simp only [r, f, hV, hP, hT, hN, segmentStart]
  · simp only [r, f, hNV, hP, hT, hN, segmentStart]

/-- Ramp completion with exact arithmetic.  In the rational-valued embedding
(no rounding in the division by `up_samples` or in `m_Position += m_Velocity`),
for a segment started with `position ≠ target_position` (skew in `[1/2,1]`), with
`up_samples = max(1, N*fraction)` and `n` its value rounded up to a whole
number: `1 ≤ n ≤ N`; after fewer than `n` further calls the next call still
takes the `IN_SEGMENT` branch (`m_SamplesLeft ≠ 0`), the position is not yet the
segment target and the velocity is unchanged; the `n`-th call sets the
position to the segment target and the velocity to `next_velocity`, and the
position change made by that call is at most `|velocity|`. -/
theorem ramp_completion (B : Nat) (s : NESPatch) (values : Nat → ℚ)
    (volume_values : Nat → Int) (update_volume : Bool)
    (h0 : s.m_SamplesLeft = 0)
    (hk0 : 1 / 2 ≤ s.m_SawParam) (hk1 : s.m_SawParam ≤ 1)
    (hne : (processSample B s values volume_values update_volume).1.m_Position ≠
      (processSample B s values volume_values update_volume).1.m_TargetPosition) :
    let r := (processSample B s values volume_values update_volume).1
    let f := if r.m_TargetPosition > r.m_Position then s.m_SawParam else 1 - s.m_SawParam
    let n := ⌈max 1 ((r.m_SamplesLeft : ℚ) * f)⌉₊
    1 ≤ n ∧ n ≤ r.m_SamplesLeft ∧
    (∀ calls : List ((Nat → ℚ) × (Nat → Int) × Bool), calls.length < n →
      (processSamples B r calls).m_SamplesLeft ≠ 0 ∧
      (processSamples B r calls).m_Position ≠ r.m_TargetPosition ∧
      (processSamples B r calls).m_Velocity = r.m_Velocity) ∧
    (∀ (calls : List ((Nat → ℚ) × (Nat → Int) × Bool)) (c : (Nat → ℚ) × (Nat → Int) × Bool),
      calls.length + 1 = n →
      (processSample B (processSamples B r calls) c.1 c.2.1 c.2.2).1.m_Position =
        r.m_TargetPosition ∧
      (processSample B (processSamples B r calls) c.1 c.2.1 c.2.2).1.m_Velocity =
        r.m_NextVelocity ∧
      |(processSample B (processSamples B r calls) c.1 c.2.1 c.2.2).1.m_Position -
        (processSamples B r calls).m_Position| ≤ |r.m_Velocity|) := by
  intro r f n
  obtain ⟨hN1, hV, _⟩ := segmentStart_velocity B s values volume_values update_volume h0
  have hf1 : f ≤ 1 := by
    simp only [f]
    split_ifs <;> linarith
  have hNq : (1 : ℚ) ≤ (r.m_SamplesLeft : ℚ) := by exact_mod_cast hN1
  have hup1 : (1 : ℚ) ≤ max 1 ((r.m_SamplesLeft : ℚ) * f) := le_max_left _ _
  have hupN : max 1 ((r.m_SamplesLeft : ℚ) * f) ≤ (r.m_SamplesLeft : ℚ) := by
    apply max_le hNq
    nlinarith
  have hup : r.m_TargetPosition - r.m_Position =
      r.m_Velocity * max 1 ((r.m_SamplesLeft : ℚ) * f) := by
    rw [show r.m_Velocity = _ from hV, div_mul_cancel₀]
    linarith
  have hv : r.m_Velocity ≠ 0 := by
    intro hz
    rw [hz, zero_mul] at hup
    exact hne (by linarith)
  have hnN : n ≤ r.m_SamplesLeft := Nat.ceil_le.mpr hupN
  refine ⟨Nat.ceil_pos.mpr (by linarith), hnN, ?_, ?_⟩
  · intro calls hlt
    have hlt' : (calls.length : ℚ) < max 1 ((r.m_SamplesLeft : ℚ) * f) := Nat.lt_ceil.mp hlt
    obtain ⟨i1, i2, i3, i4, _⟩ := first_leg B r _ hup calls hlt' (by omega)
    refine ⟨by omega, ?_, i4⟩
    intro heq
    have he : r.m_TargetPosition - (r.m_Position + (calls.length : ℚ) * r.m_Velocity) =
        r.m_Velocity * (max 1 ((r.m_SamplesLeft : ℚ) * f) - (calls.length : ℚ)) := by
      linear_combination hup
    rw [i2] at heq
    rw [heq, sub_self] at he
    rcases mul_eq_zero.mp he.symm with h | h
    · exact hv h
    · linarith
  · intro calls c hlen
    have hlt' : (calls.length : ℚ) < max 1 ((r.m_SamplesLeft : ℚ) * f) :=
      Nat.lt_ceil.mp (by omega)
    have hge : max 1 ((r.m_SamplesLeft : ℚ) * f) ≤ (calls.length : ℚ) + 1 := by
      have := Nat.le_ceil (max 1 ((r.m_SamplesLeft : ℚ) * f))
      have hc : ((n : Nat) : ℚ) = (calls.length : ℚ) + 1 := by
        rw [← hlen]; push_cast; ring
      linarith
    exact leg_switch B r _ hv hup calls c hlt' hge (by omega)



theorem exampleState_params :
    exampleState.m_TriangleParam = 1 / 2 ∧ exampleState.m_SawParam = 3 / 4 := by
  constructor <;> norm_num [exampleState, updateParams, MapParam, Lerp, Clamp01]

theorem exampleSegment_tracker :
    exampleSegment.m_SamplesLeft = 2 ∧ exampleSegment.m_TargetPosition = 2 ∧
      exampleSegment.m_Position = 1 := by
  have ht := processSample_tracker 128 exampleState exampleWindow (fun _ => 0) true
  have h0 : exampleState.m_SamplesLeft = 0 := rfl
  simp only [h0, if_true] at ht
  unfold exampleSegment
  rw [ht.1, ht.2.1, ht.2.2.1]
  simp only [segmentStart, exampleState_params.1,
    scanLoop_segmentStart 128 exampleWindow 2 (by norm_num) (by decide) exampleWindow_run.1
      exampleWindow_run.2, Finset.sum_range_succ, Finset.sum_range_zero]
  norm_num [exampleWindow, Lerp, Clamp01]

theorem exampleSegment_steps :
    ⌈max 1 ((exampleSegment.m_SamplesLeft : ℚ) *
      (if exampleSegment.m_TargetPosition > exampleSegment.m_Position
        then exampleState.m_SawParam else 1 - exampleState.m_SawParam))⌉₊ = 2 := by
  rw [exampleSegment_tracker.1, exampleSegment_tracker.2.1, exampleSegment_tracker.2.2,
    exampleState_params.2, if_pos (by norm_num), Nat.ceil_eq_iff (by norm_num)]
  norm_num

/-- With exact arithmetic the example segment (target 2, start position 1, run
length 2, skew 3/4, hence `up_samples = 3/2`) reaches its target at the second
call and not at the first. -/
theorem ramp_completion_witness :
    (exampleState.m_SamplesLeft = 0 ∧ 1 / 2 ≤ exampleState.m_SawParam ∧
      exampleState.m_SawParam ≤ 1 ∧
      exampleSegment.m_Position ≠ exampleSegment.m_TargetPosition) ∧
    (processSamples 128 exampleSegment [exampleCall]).m_Position ≠
      exampleSegment.m_TargetPosition ∧
    (processSample 128 (processSamples 128 exampleSegment [exampleCall])
      exampleCall.1 exampleCall.2.1 exampleCall.2.2).1.m_Position =
        exampleSegment.m_TargetPosition := by
  have hk0 : 1 / 2 ≤ exampleState.m_SawParam := by rw [exampleState_params.2]; norm_num
  have hk1 : exampleState.m_SawParam ≤ 1 := by rw [exampleState_params.2]; norm_num
  have hne : exampleSegment.m_Position ≠ exampleSegment.m_TargetPosition := by
    rw [exampleSegment_tracker.2.1, exampleSegment_tracker.2.2]; norm_num
  have h := ramp_completion 128 exampleState exampleWindow (fun _ => 0) true rfl hk0 hk1 hne
  have hn := exampleSegment_steps
  refine ⟨⟨rfl, hk0, hk1, hne⟩, ?_, ?_⟩
  · exact (h.2.2.1 [exampleCall]
      (lt_of_lt_of_eq (by simp : [exampleCall].length < 2) hn.symm)).2.1
  · exact (h.2.2.2 [exampleCall] exampleCall
      (Eq.trans (by simp : [exampleCall].length + 1 = 2) hn.symm)).1

set_option maxRecDepth 100000 in
/-- C10: ramp completion fails in binary32.  A fresh instance with raw triangle
parameter `1.0` and raw saw parameter `0.0` has shape `1` and skew `1/2`.  Its
first call, on a window of 24 samples `1.0` followed by `-1.0`, starts a segment
with `N = 24`, target `1`, position `0`, `up_samples = 12` and velocity
`11184811 * 2^-27`, the binary32 value nearest to `1/12`.  After 12
further calls (13 calls in all) the position is `16777214 * 2^-24`, below the
target, and the velocity is still the one set by the segment start; only the
13th further call sets the position to the target and the velocity to
`next_velocity`. -/
theorem ramp_late_in_binary32 :
    F32.eq rampTracker.m_TriangleParam ⟨1, 0⟩ = true ∧
    F32.eq rampTracker.m_SawParam ⟨1, -1⟩ = true ∧
    ((fun t => trackerStepF32 128 t rampWindow)^[1] rampTracker).m_SamplesLeft = 24 ∧
    F32.eq ((fun t => trackerStepF32 128 t rampWindow)^[1] rampTracker).m_TargetPosition
      ⟨1, 0⟩ = true ∧
    F32.eq ((fun t => trackerStepF32 128 t rampWindow)^[1] rampTracker).m_Position
      ⟨0, 0⟩ = true ∧
    F32.eq (F32.max ⟨1, 0⟩ (F32.mul (F32.ofNat 24) ⟨1, -1⟩)) ⟨12, 0⟩ = true ∧
    F32.eq ((fun t => trackerStepF32 128 t rampWindow)^[1] rampTracker).m_Velocity
      ⟨11184811, -27⟩ = true ∧
    F32.eq ((fun t => trackerStepF32 128 t rampWindow)^[13] rampTracker).m_Position
      ⟨16777214, -24⟩ = true ∧
    F32.lt ((fun t => trackerStepF32 128 t rampWindow)^[13] rampTracker).m_Position
      ((fun t => trackerStepF32 128 t rampWindow)^[1] rampTracker).m_TargetPosition = true ∧
    ((fun t => trackerStepF32 128 t rampWindow)^[13] rampTracker).m_Velocity =
      ((fun t => trackerStepF32 128 t rampWindow)^[1] rampTracker).m_Velocity ∧
    F32.eq ((fun t => trackerStepF32 128 t rampWindow)^[14] rampTracker).m_Position
      ⟨1, 0⟩ = true ∧
    ((fun t => trackerStepF32 128 t rampWindow)^[14] rampTracker).m_Velocity =
      ((fun t => trackerStepF32 128 t rampWindow)^[1] rampTracker).m_NextVelocity := by
  decide

/-! ## The sample loop -/

theorem processAudio_eq (B : Nat) (s : NESPatch) (params : Nat → ℚ) (block : List ℚ) :
    processAudio B s params block = sampleLoop B block.length (loopState B s params block) :=
  rfl

theorem sampleLoop_zero (B : Nat) (s : NESPatch) : sampleLoop B 0 s = (s, []) := rfl

/-- One more iteration of the sample loop: sample `n` is processed on the
windows `m_Buffer + n` and `m_VolumeBuffer + n/4`. -/
theorem sampleLoop_succ (B : Nat) (n : Nat) (s : NESPatch) :
    sampleLoop B (n + 1) s =
      ((processSample B (sampleLoop B n s).1 (fun i => s.m_Buffer.getD (n + i) 0)
          (fun i => s.m_VolumeBuffer.getD (n / VOLUME_BUFFER_RESOLUTION + i) 0)
          (n % VOLUME_BUFFER_RESOLUTION == 0)).1,
        (sampleLoop B n s).2 ++
          [(processSample B (sampleLoop B n s).1 (fun i => s.m_Buffer.getD (n + i) 0)
            (fun i => s.m_VolumeBuffer.getD (n / VOLUME_BUFFER_RESOLUTION + i) 0)
            (n % VOLUME_BUFFER_RESOLUTION == 0)).2]) := by
  have hb := sampleLoop_buffers B n s
  unfold sampleLoop at hb ⊢
  rw [List.range_succ, List.foldl_append]
  simp only [List.foldl_cons, List.foldl_nil]
  rw [hb.1, hb.2]

theorem sampleLoop_length (B : Nat) (n : Nat) (s : NESPatch) :
    (sampleLoop B n s).2.length = n := by
  induction n with
  | zero => rfl
  | succ n ih => rw [sampleLoop_succ, List.length_append, ih, List.length_singleton]

/-! ## Noise generator: the state never becomes zero -/

theorem xorshift32_ne_zero_of_ne_zero (x : Nat) (hx : x ≠ 0) : xorshift32 x ≠ 0 := by
  have h1 : x ^^^ ((x <<< 13) % 2 ^ 32) ≠ 0 := by
    intro h
    have h' := Nat.xor_eq_zero.mp h
    rw [Nat.shiftLeft_eq] at h'
    norm_num at h'
    omega
  have h2 : ∀ y : Nat, y ≠ 0 → y ^^^ (y >>> 17) ≠ 0 := by
    intro y hy h
    have h' := Nat.xor_eq_zero.mp h
    rw [Nat.shiftRight_eq_div_pow] at h'
    norm_num at h'
    omega
  have h3 : ∀ y : Nat, y ≠ 0 → y ^^^ ((y <<< 5) % 2 ^ 32) ≠ 0 := by
    intro y hy h
    have h' := Nat.xor_eq_zero.mp h
    rw [Nat.shiftLeft_eq] at h'
    norm_num at h'
    omega
  exact h3 _ (h2 _ h1)

theorem xorshift32_lt (x : Nat) (hx : x < 2 ^ 32) : xorshift32 x < 2 ^ 32 := by
  have h1 : x ^^^ ((x <<< 13) % 2 ^ 32) < 2 ^ 32 :=
    Nat.xor_lt_two_pow hx (Nat.mod_lt _ (by norm_num))
  have h2 : ∀ y : Nat, y < 2 ^ 32 → y ^^^ (y >>> 17) < 2 ^ 32 := by
    intro y hy
    apply Nat.xor_lt_two_pow hy
    rw [Nat.shiftRight_eq_div_pow]
    exact lt_of_le_of_lt (Nat.div_le_self _ _) hy
  have h3 : ∀ y : Nat, y < 2 ^ 32 → y ^^^ ((y <<< 5) % 2 ^ 32) < 2 ^ 32 :=
    fun y hy => Nat.xor_lt_two_pow hy (Nat.mod_lt _ (by norm_num))
  exact h3 _ (h2 _ h1)

theorem iterate_xorshift32_ne_zero (x : Nat) (hx : x ≠ 0) :
    ∀ n : Nat, xorshift32^[n] x ≠ 0 := by
  intro n
  induction n with
  | zero => exact hx
  | succ n ih =>
    rw [Function.iterate_succ_apply']
    exact xorshift32_ne_zero_of_ne_zero _ ih

theorem processSample_randomState (B : Nat) (s : NESPatch) (values : Nat → ℚ)
    (volume_values : Nat → Int) (update_volume : Bool) :
    (processSample B s values volume_values update_volume).1.m_RandomState =
      xorshift32 s.m_RandomState := by
  simp only [processSample, segmentStart, inSegment, RandomUnit]
  split_ifs <;> rfl

theorem sampleLoop_randomState (B : Nat) (n : Nat) (s : NESPatch) :
    (sampleLoop B n s).1.m_RandomState = xorshift32^[n] s.m_RandomState := by
  induction n with
  | zero => rfl
  | succ n ih =>
    rw [sampleLoop_succ, processSample_randomState, ih, Function.iterate_succ_apply']

theorem processBlocks_randomState_ne_zero (B : Nat) (inputs : List ((Nat → ℚ) × List ℚ)) :
    ∀ s : NESPatch, s.m_RandomState ≠ 0 → (processBlocks B s inputs).m_RandomState ≠ 0 := by
  induction inputs with
  | nil => intro s hs; exact hs
  | cons x xs ih =>
    intro s hs
    simp only [processBlocks, List.foldl_cons] at ih ⊢
    apply ih
    rw [processAudio_eq, sampleLoop_randomState]
    exact iterate_xorshift32_ne_zero _ hs _

/-- C12: `xorshift32` never produces the all-zero state from a non-zero state:
for every 32-bit `x ≠ 0` the updated state is a non-zero 32-bit word, and it is
the value `RandomUnit` stores back as the new state; hence `m_RandomState`,
seeded with 12345, is non-zero after any number of draws, of `processSample`
calls and of `processAudio` calls. -/
theorem xorshift32_never_zero (x : Nat) (hx : x ≠ 0) (h32 : x < 2 ^ 32) :
    (xorshift32 x ≠ 0 ∧ xorshift32 x < 2 ^ 32) ∧
    (RandomUnit x).1 = xorshift32 x ∧
    (∀ n : Nat, xorshift32^[n] 12345 ≠ 0) ∧
    (∀ (B : Nat) (s : NESPatch) (values : Nat → ℚ) (volume_values : Nat → Int)
      (update_volume : Bool),
      (processSample B s values volume_values update_volume).1.m_RandomState =
        xorshift32 s.m_RandomState) ∧
    (∀ (B : Nat) (inputs : List ((Nat → ℚ) × List ℚ)),
      (processBlocks B (fresh B) inputs).m_RandomState ≠ 0) :=
  ⟨⟨xorshift32_ne_zero_of_ne_zero x hx, xorshift32_lt x h32⟩, rfl,
    iterate_xorshift32_ne_zero 12345 (by norm_num),
    fun B s values volume_values update_volume =>
      processSample_randomState B s values volume_values update_volume,
    fun B inputs => processBlocks_randomState_ne_zero B inputs (fresh B)
      (by simp only [fresh]; norm_num)⟩

/-- Witness for C12: the seed 12345. -/
theorem xorshift32_never_zero_witness :
    ((12345 : Nat) ≠ 0 ∧ (12345 : Nat) < 2 ^ 32) ∧ xorshift32 12345 ≠ 0 :=
  ⟨⟨by norm_num, by norm_num⟩,
    (xorshift32_never_zero 12345 (by norm_num) (by norm_num)).1.1⟩

/-! ## Compressor -/

/-- C16: compressor definition.  For every value `v` and amount `a`,
`preUpdate` returns `v + (c(v) - v) * clamp01(a)` with
`c(v) = (1 - (1 - |v|)^16) * 0.20` carrying the sign of `v`; amount 0 returns
`v` unchanged and amount 1 returns `c(v)`. -/
theorem preUpdate_spec (s : NESPatch) (v a : ℚ) :
    preUpdate { s with m_CompressionParam := a } v =
      v + (compressedSpec v - v) * Clamp01 a ∧
    preUpdate { s with m_CompressionParam := 0 } v = v ∧
    preUpdate { s with m_CompressionParam := 1 } v = compressedSpec v := by
  have h : ∀ b : ℚ, preUpdate { s with m_CompressionParam := b } v =
      v + (compressedSpec v - v) * Clamp01 b := by
    intro b
    simp only [preUpdate, Lerp, Squaref, compressedSpec]
    split_ifs <;> ring
  refine ⟨h a, ?_, ?_⟩
  · rw [h, Clamp01_of_nonpos le_rfl]; ring
  · rw [h, Clamp01_of_one_le le_rfl]; ring

/-! ## Attack detector -/

theorem foldl_max_spec (p : Nat → Int) :
    ∀ m : Nat,
      (∃ i, i < m + 1 ∧ p i =
        (List.range m).foldl (fun out i => if out < p (i + 1) then p (i + 1) else out) (p 0)) ∧
      ∀ i, i < m + 1 →
        p i ≤ (List.range m).foldl
          (fun out i => if out < p (i + 1) then p (i + 1) else out) (p 0) := by
  intro m
  induction m with
  | zero =>
    refine ⟨⟨0, by omega, rfl⟩, ?_⟩
    intro i hi
    have : i = 0 := by omega
    subst this
    exact le_rfl
  | succ m ih =>
    rw [List.range_succ, List.foldl_append]
    simp only [List.foldl_cons, List.foldl_nil]
    obtain ⟨⟨i0, hi0, he⟩, hle⟩ := ih
    split_ifs with hlt
    · refine ⟨⟨m + 1, by omega, rfl⟩, ?_⟩
      intro i hi
      rcases Nat.lt_or_ge i (m + 1) with h | h
      · exact le_trans (hle i h) (le_of_lt hlt)
      · have : i = m + 1 := by omega
        subst this
        exact le_rfl
    · refine ⟨⟨i0, by omega, he⟩, ?_⟩
      intro i hi
      rcases Nat.lt_or_ge i (m + 1) with h | h
      · exact hle i h
      · have : i = m + 1 := by omega
        subst this
        exact not_lt.mp hlt

/-- `arm_max_q7` on a non-empty range returns the largest element of it. -/
theorem arm_max_q7_spec (pSrc : Nat → Int) (blockSize : Nat) (h : 1 ≤ blockSize) :
    (∃ i, i < blockSize ∧ pSrc i = arm_max_q7 pSrc blockSize) ∧
    ∀ i, i < blockSize → pSrc i ≤ arm_max_q7 pSrc blockSize := by
  have := foldl_max_spec pSrc (blockSize - 1)
  rw [Nat.sub_add_cancel h] at this
  exact this

theorem arm_max_q7_pair (a d : Int) :
    arm_max_q7 (fun i => [a, d].getD i 0) 2 = if a < d then d else a := by
  simp [arm_max_q7, List.range_succ]

theorem attackStrength_eq (B : Nat) (volume_values : Nat → Int) :
    attackStrength B volume_values =
      max 0
        (((arm_max_q7 (fun i => volume_values (DELAY_WINDOW B + i)) (ATTACK_WINDOW B) : Int) : ℚ)
            / 128 -
          ((arm_max_q7 (fun i => volume_values i) (DELAY_WINDOW B) : Int) : ℚ) / 128) := by
  have hAW : ATTACK_WINDOW B ≤ USE_VOLUME_BUFFER_SIZE B := Nat.div_le_self _ _
  have h1 : USE_VOLUME_BUFFER_SIZE B - (ATTACK_WINDOW B + DELAY_WINDOW B) = 0 := by
    unfold DELAY_WINDOW; omega
  have h2 : USE_VOLUME_BUFFER_SIZE B - ATTACK_WINDOW B = DELAY_WINDOW B := rfl
  simp only [attackStrength, h1, h2, Nat.zero_add, arm_max_q7_pair, arm_q7_to_float]
  split_ifs with hlt
  · have hq : ((arm_max_q7 (fun i => volume_values (DELAY_WINDOW B + i)) (ATTACK_WINDOW B) : Int)
        : ℚ) < ((arm_max_q7 (fun i => volume_values i) (DELAY_WINDOW B) : Int) : ℚ) := by
      exact_mod_cast hlt
    rw [sub_self, max_self, max_eq_left]
    linarith
  · rfl

theorem processSample_attackStrength (B : Nat) (s : NESPatch) (values : Nat → ℚ)
    (volume_values : Nat → Int) (hA : s.m_AttackParam > 0) :
    (processSample B s values volume_values true).1.m_AttackStrength =
      attackStrength B volume_values := by
  have ha : (if s.m_SamplesLeft = 0 then segmentStart B s values
      else inSegment s).m_AttackParam > 0 := by
    split_ifs
    · rw [segmentStart_attackParam]; exact hA
    · rw [inSegment_attackParam]; exact hA
  simp only [processSample, ha, and_self, if_true]

/-- C11: attack detector.  Whenever `processSample` runs with attack amount
`> 0` and `update_volume` true (and a non-empty attack window), it sets
`m_AttackStrength = max(0, A/128 - D/128)`, where `D` is the largest envelope
entry over the delay window `[0, DELAY_WINDOW)` and `A` the largest over the
attack window `[DELAY_WINDOW, USE_VOLUME_BUFFER_SIZE)` of the span passed;
`ATTACK_WINDOW = USE_VOLUME_BUFFER_SIZE/6`, and the two windows are adjacent
and disjoint, the attack window being the later one. -/
theorem attack_detector (B : Nat) (s : NESPatch) (values : Nat → ℚ)
    (volume_values : Nat → Int) (hA : s.m_AttackParam > 0) (hW : 1 ≤ ATTACK_WINDOW B) :
    ∃ A D : Int,
      ((∃ i, DELAY_WINDOW B ≤ i ∧ i < USE_VOLUME_BUFFER_SIZE B ∧ volume_values i = A) ∧
        ∀ i, DELAY_WINDOW B ≤ i → i < USE_VOLUME_BUFFER_SIZE B → volume_values i ≤ A) ∧
      ((∃ i, i < DELAY_WINDOW B ∧ volume_values i = D) ∧
        ∀ i, i < DELAY_WINDOW B → volume_values i ≤ D) ∧
      (processSample B s values volume_values true).1.m_AttackStrength =
        max 0 ((A : ℚ) / 128 - (D : ℚ) / 128) ∧
      ATTACK_WINDOW B = USE_VOLUME_BUFFER_SIZE B / 6 ∧
      DELAY_WINDOW B + ATTACK_WINDOW B = USE_VOLUME_BUFFER_SIZE B := by
  have hAW : ATTACK_WINDOW B ≤ USE_VOLUME_BUFFER_SIZE B := Nat.div_le_self _ _
  have hsum : DELAY_WINDOW B + ATTACK_WINDOW B = USE_VOLUME_BUFFER_SIZE B := by
    unfold DELAY_WINDOW; omega
  have hUSE : 6 ≤ USE_VOLUME_BUFFER_SIZE B := by
    unfold ATTACK_WINDOW at hW; omega
  have hDW : 1 ≤ DELAY_WINDOW B := by
    unfold DELAY_WINDOW ATTACK_WINDOW; omega
  obtain ⟨⟨ia, hia, hea⟩, hla⟩ :=
    arm_max_q7_spec (fun i => volume_values (DELAY_WINDOW B + i)) (ATTACK_WINDOW B) hW
  obtain ⟨⟨id, hid, hed⟩, hld⟩ :=
    arm_max_q7_spec (fun i => volume_values i) (DELAY_WINDOW B) hDW
  refine ⟨arm_max_q7 (fun i => volume_values (DELAY_WINDOW B + i)) (ATTACK_WINDOW B),
    arm_max_q7 (fun i => volume_values i) (DELAY_WINDOW B),
    ⟨⟨DELAY_WINDOW B + ia, by omega, by omega, hea⟩, ?_⟩, ⟨⟨id, hid, hed⟩, hld⟩, ?_, rfl, hsum⟩
  · intro i h1 h2
    have := hla (i - DELAY_WINDOW B) (by omega)
    simp only [Nat.add_sub_cancel' h1] at this
    exact this
  · rw [processSample_attackStrength B s values volume_values hA, attackStrength_eq]

/-- Witness for C11: `AUDIO_BLOCK_SIZE = 128` (attack window of 33 entries) and
an instance with attack amount 1. -/
theorem attack_detector_witness :
    (exampleState.m_AttackParam > 0 ∧ 1 ≤ ATTACK_WINDOW 128) ∧
    ∃ A D : Int,
      ((∃ i, DELAY_WINDOW 128 ≤ i ∧ i < USE_VOLUME_BUFFER_SIZE 128 ∧
          (fun j : Nat => (j : Int)) i = A) ∧
        ∀ i, DELAY_WINDOW 128 ≤ i → i < USE_VOLUME_BUFFER_SIZE 128 →
          (fun j : Nat => (j : Int)) i ≤ A) ∧
      ((∃ i, i < DELAY_WINDOW 128 ∧ (fun j : Nat => (j : Int)) i = D) ∧
        ∀ i, i < DELAY_WINDOW 128 → (fun j : Nat => (j : Int)) i ≤ D) ∧
      (processSample 128 exampleState exampleWindow (fun j : Nat => (j : Int))
          true).1.m_AttackStrength = max 0 ((A : ℚ) / 128 - (D : ℚ) / 128) ∧
      ATTACK_WINDOW 128 = USE_VOLUME_BUFFER_SIZE 128 / 6 ∧
      DELAY_WINDOW 128 + ATTACK_WINDOW 128 = USE_VOLUME_BUFFER_SIZE 128 :=
  have hA : exampleState.m_AttackParam > 0 := by
    norm_num [exampleState, updateParams, MapParam, Lerp, Clamp01]
  have hW : 1 ≤ ATTACK_WINDOW 128 := by decide
  ⟨⟨hA, hW⟩, attack_detector 128 exampleState exampleWindow (fun j : Nat => (j : Int)) hA hW⟩

/-! ## The scan is capped and in bounds -/

theorem scanLoop_congr (v w : Nat → ℚ) (positive : Bool) :
    ∀ (room n : Nat) (area : ℚ), (∀ i, n ≤ i → i < n + room → w i = v i) →
      scanLoop w positive room n area = scanLoop v positive room n area := by
  intro room
  induction room with
  | zero => intro n area _; rfl
  | succ room ih =>
    intro n area h
    simp only [scanLoop, h n le_rfl (by omega)]
    rw [ih (n + 1) (area + v n) (fun i h1 h2 => h i (by omega) (by omega))]

theorem segmentStart_congr (B : Nat) (s : NESPatch) (v w : Nat → ℚ)
    (h : ∀ i, i < max 1 (DELAY_BUFFER_SIZE B) → w i = v i) :
    segmentStart B s w = segmentStart B s v := by
  have h0 : w 0 = v 0 := h 0 (by simp)
  have hs : scanLoop w (decide (v 0 > 0)) (DELAY_BUFFER_SIZE B - 1) 1 (v 0) =
      scanLoop v (decide (v 0 > 0)) (DELAY_BUFFER_SIZE B - 1) 1 (v 0) :=
    scanLoop_congr v w _ _ 1 _ (fun i h1 h2 => h i (by
      rcases Nat.lt_or_ge (DELAY_BUFFER_SIZE B) 1 with h3 | h3
      · omega
      · rw [max_eq_right h3]; omega))
  simp only [segmentStart, h0, hs]

theorem processSample_congr (B : Nat) (s : NESPatch) (v w : Nat → ℚ)
    (volume_values : Nat → Int) (update_volume : Bool)
    (h : ∀ i, i < max 1 (DELAY_BUFFER_SIZE B) → w i = v i) :
    processSample B s w volume_values update_volume =
      processSample B s v volume_values update_volume := by
  simp only [processSample, segmentStart_congr B s v w h]

/-- C17: the constant-sign scan is capped and in bounds (for a configuration
with `DELAY_BUFFER_SIZE ≥ 1`).  A call with `m_SamplesLeft = 0` ends with
`1 ≤ m_SamplesLeft ≤ DELAY_BUFFER_SIZE`, and a window without sign change
gives `m_SamplesLeft = DELAY_BUFFER_SIZE`; the call depends on the window only
through the entries `0 .. DELAY_BUFFER_SIZE - 1`, which for the window
`m_Buffer + n` of sample `n < AUDIO_BLOCK_SIZE` are the indices
`n .. n + DELAY_BUFFER_SIZE - 1`, all inside `m_Buffer`; and the divisors
`count`, `up_samples` and `down_samples` are all at least 1. -/
theorem scan_capped (B : Nat) (s : NESPatch) (values : Nat → ℚ)
    (volume_values : Nat → Int) (update_volume : Bool)
    (h0 : s.m_SamplesLeft = 0) (hD : 1 ≤ DELAY_BUFFER_SIZE B) :
    let r := (processSample B s values volume_values update_volume).1
    let f := if r.m_TargetPosition > r.m_Position then s.m_SawParam else 1 - s.m_SawParam
    (1 ≤ r.m_SamplesLeft ∧ r.m_SamplesLeft ≤ DELAY_BUFFER_SIZE B) ∧
    ((∀ i, i < DELAY_BUFFER_SIZE B → (values i > 0 ↔ values 0 > 0)) →
      r.m_SamplesLeft = DELAY_BUFFER_SIZE B) ∧
    (∀ w : Nat → ℚ, (∀ i, i < DELAY_BUFFER_SIZE B → w i = values i) →
      processSample B s w volume_values update_volume =
        processSample B s values volume_values update_volume) ∧
    (∀ n i, n < B → i < DELAY_BUFFER_SIZE B → n + i < bufferLength B) ∧
    ((1 : ℚ) ≤ (r.m_SamplesLeft : ℚ) ∧
      1 ≤ max 1 ((r.m_SamplesLeft : ℚ) * f) ∧
      1 ≤ max 1 ((r.m_SamplesLeft : ℚ) * (1 - f)) ∧
      r.m_TargetPosition * (r.m_SamplesLeft : ℚ) =
        (scanLoop values (decide (values 0 > 0)) (DELAY_BUFFER_SIZE B - 1) 1 (values 0)).2 ∧
      r.m_Velocity * max 1 ((r.m_SamplesLeft : ℚ) * f) =
        r.m_TargetPosition - r.m_Position ∧
      r.m_NextVelocity * max 1 ((r.m_SamplesLeft : ℚ) * (1 - f)) =
        r.m_Position - r.m_TargetPosition) := by
  intro r f
  have ht := processSample_tracker B s values volume_values update_volume
  simp only [h0, if_true] at ht
  obtain ⟨hN, hT, _, _, _⟩ := ht
  obtain ⟨hN1, hV, hNV⟩ := segmentStart_velocity B s values volume_values update_volume h0
  have hb := scanLoop_bounds values (decide (values 0 > 0)) (DELAY_BUFFER_SIZE B - 1) 1 (values 0)
  have hNq : (1 : ℚ) ≤ (r.m_SamplesLeft : ℚ) := by exact_mod_cast hN1
  have hup : (1 : ℚ) ≤ max 1 ((r.m_SamplesLeft : ℚ) * f) := le_max_left _ _
  have hdown : (1 : ℚ) ≤ max 1 ((r.m_SamplesLeft : ℚ) * (1 - f)) := le_max_left _ _
  refine ⟨⟨hN1, ?_⟩, ?_, ?_, ?_, hNq, hup, hdown, ?_, ?_, ?_⟩
  · simp only [r, hN, segmentStart]
    omega
  · intro hrun
    simp only [r, hN, segmentStart,
      scanLoop_segmentStart B values (DELAY_BUFFER_SIZE B) hD le_rfl hrun (Or.inl rfl)]
  · intro w hw
    exact processSample_congr B s values w volume_values update_volume
      (fun i hi => hw i (by rwa [max_eq_right hD] at hi))
  · intro n i hn hi
    unfold bufferLength
    omega
  · simp only [r, hT, hN, segmentStart]
    rw [div_mul_cancel₀]
    have : (1 : ℚ) ≤ ((scanLoop values (decide (values 0 > 0)) (DELAY_BUFFER_SIZE B - 1) 1
        (values 0)).1 : ℚ) := by exact_mod_cast hb.1
    linarith
  · rw [show r.m_Velocity = _ from hV, div_mul_cancel₀]
    linarith
  · rw [show r.m_NextVelocity = _ from hNV, div_mul_cancel₀]
    linarith

/-- Witness for C17: the example instance and window with
`AUDIO_BLOCK_SIZE = 128`. -/
theorem scan_capped_witness :
    (exampleState.m_SamplesLeft = 0 ∧ 1 ≤ DELAY_BUFFER_SIZE 128) ∧
    1 ≤ (processSample 128 exampleState exampleWindow (fun _ => 0) true).1.m_SamplesLeft ∧
    (processSample 128 exampleState exampleWindow (fun _ => 0) true).1.m_SamplesLeft ≤
      DELAY_BUFFER_SIZE 128 :=
  ⟨⟨rfl, by decide⟩,
    (scan_capped 128 exampleState exampleWindow (fun _ => 0) true rfl (by decide)).1⟩

/-! ## Segment length and position bounds -/

theorem inSegment_samplesLeft (a : NESPatch) :
    (inSegment a).m_SamplesLeft = a.m_SamplesLeft - 1 := by
  simp only [inSegment]
  split_ifs <;> rfl

/-- After a segment start, every further call counts `m_SamplesLeft` down by
one until it is 0. -/
theorem samplesLeft_countdown (B : Nat) (r : NESPatch) :
    ∀ calls : List ((Nat → ℚ) × (Nat → Int) × Bool), calls.length ≤ r.m_SamplesLeft →
      (processSamples B r calls).m_SamplesLeft = r.m_SamplesLeft - calls.length := by
  intro calls
  induction calls using List.reverseRecOn with
  | nil => intro _; simp [processSamples]
  | append_singleton calls c ih =>
    intro hle
    rw [List.length_append, List.length_singleton] at hle
    have i1 := ih (by omega)
    have hm : (processSamples B r calls).m_SamplesLeft ≠ 0 := by omega
    have ht := processSample_tracker B (processSamples B r calls) c.1 c.2.1 c.2.2
    simp only [if_neg hm] at ht
    rw [processSamples_snoc, ht.1, inSegment_samplesLeft, i1, List.length_append,
      List.length_singleton]
    omega

theorem processSample_attackParam (B : Nat) (s : NESPatch) (values : Nat → ℚ)
    (volume_values : Nat → Int) (update_volume : Bool) :
    (processSample B s values volume_values update_volume).1.m_AttackParam =
      s.m_AttackParam := by
  simp only [processSample, segmentStart, inSegment]
  split_ifs <;> rfl

theorem processSamples_attackParam (B : Nat) (r : NESPatch) :
    ∀ calls : List ((Nat → ℚ) × (Nat → Int) × Bool),
      (processSamples B r calls).m_AttackParam = r.m_AttackParam := by
  intro calls
  induction calls using List.reverseRecOn with
  | nil => rfl
  | append_singleton calls c ih => rw [processSamples_snoc, processSample_attackParam, ih]

/-- With attack amount 0 the value returned is the position. -/
theorem output_eq_position (B : Nat) (s : NESPatch) (values : Nat → ℚ)
    (volume_values : Nat → Int) (update_volume : Bool) (h : s.m_AttackParam = 0) :
    (processSample B s values volume_values update_volume).2 =
      (processSample B s values volume_values update_volume).1.m_Position := by
  have ha : (if s.m_SamplesLeft = 0 then segmentStart B s values
      else inSegment s).m_AttackParam = 0 := by
    split_ifs
    · rw [segmentStart_attackParam, h]
    · rw [inSegment_attackParam, h]
  simp only [processSample, ha, lt_self_iff_false, false_and, if_false, mul_zero, Lerp,
    Clamp01_of_nonpos (le_refl (0 : ℚ)), add_zero, gt_iff_lt]

/-- The position stays between 0 and a non-negative amplitude `T` across an
`IN_SEGMENT` step: either the first leg runs upward to the target `T`, or the
second leg runs downward to the target 0. -/
theorem inSegment_between_nonneg (a : NESPatch) (T : ℚ) (h : rampNonneg a T) :
    rampNonneg (inSegment a) T := by
  unfold rampNonneg at h ⊢
  obtain ⟨h1, h2, h3⟩ := h
  by_cases htrig : (a.m_Velocity > 0 ∧ a.m_Position + a.m_Velocity ≥ a.m_TargetPosition) ∨
      (a.m_Velocity < 0 ∧ a.m_Position + a.m_Velocity ≤ a.m_TargetPosition)
  · obtain ⟨_, j2, j3, j4, j5⟩ := inSegment_trigger a htrig
    rw [j2, j3, j4, j5]
    rcases h3 with ⟨t1, t2, t3⟩ | ⟨t1, t2, t3⟩
    · rw [t1]
      exact ⟨by linarith, le_rfl, Or.inr ⟨rfl, t3, rfl⟩⟩
    · rw [t1, t3]
      exact ⟨le_rfl, by linarith, Or.inr ⟨rfl, le_rfl, rfl⟩⟩
  · obtain ⟨_, j2, j3, j4, j5⟩ := inSegment_no_trigger a htrig
    rw [j2, j3, j4, j5]
    rw [not_or, not_and_or, not_and_or] at htrig
    obtain ⟨n1, n2⟩ := htrig
    rcases h3 with ⟨t1, t2, t3⟩ | ⟨t1, t2, t3⟩
    · refine ⟨by linarith, ?_, Or.inl ⟨t1, t2, t3⟩⟩
      rcases n1 with n1 | n1
      · have : a.m_Velocity = 0 := le_antisymm (not_lt.mp n1) t2
        linarith
      · rw [t1] at n1
        linarith
    · refine ⟨?_, by linarith, Or.inr ⟨t1, t2, t3⟩⟩
      rcases n2 with n2 | n2
      · have : a.m_Velocity = 0 := le_antisymm t2 (not_lt.mp n2)
        linarith
      · rw [t1] at n2
        linarith

/-- The mirror image of `inSegment_between_nonneg` for a non-positive
amplitude `T`. -/
theorem inSegment_between_nonpos (a : NESPatch) (T : ℚ) (h : rampNonpos a T) :
    rampNonpos (inSegment a) T := by
  unfold rampNonpos at h ⊢
  obtain ⟨h1, h2, h3⟩ := h
  by_cases htrig : (a.m_Velocity > 0 ∧ a.m_Position + a.m_Velocity ≥ a.m_TargetPosition) ∨
      (a.m_Velocity < 0 ∧ a.m_Position + a.m_Velocity ≤ a.m_TargetPosition)
  · obtain ⟨_, j2, j3, j4, j5⟩ := inSegment_trigger a htrig
    rw [j2, j3, j4, j5]
    rcases h3 with ⟨t1, t2, t3⟩ | ⟨t1, t2, t3⟩
    · rw [t1]
      exact ⟨le_rfl, by linarith, Or.inr ⟨rfl, t3, rfl⟩⟩
    · rw [t1, t3]
      exact ⟨by linarith, le_rfl, Or.inr ⟨rfl, le_rfl, rfl⟩⟩
  · obtain ⟨_, j2, j3, j4, j5⟩ := inSegment_no_trigger a htrig
    rw [j2, j3, j4, j5]
    rw [not_or, not_and_or, not_and_or] at htrig
    obtain ⟨n1, n2⟩ := htrig
    rcases h3 with ⟨t1, t2, t3⟩ | ⟨t1, t2, t3⟩
    · refine ⟨?_, by linarith, Or.inl ⟨t1, t2, t3⟩⟩
      rcases n2 with n2 | n2
      · have : a.m_Velocity = 0 := le_antisymm t2 (not_lt.mp n2)
        linarith
      · rw [t1] at n2
        linarith
    · refine ⟨by linarith, ?_, Or.inr ⟨t1, t2, t3⟩⟩
      rcases n1 with n1 | n1
      · have : a.m_Velocity = 0 := le_antisymm (not_lt.mp n1) t2
        linarith
      · rw [t1] at n1
        linarith

theorem processSample_between_nonneg (B : Nat) (a : NESPatch) (T : ℚ)
    (c : (Nat → ℚ) × (Nat → Int) × Bool) (hm : a.m_SamplesLeft ≠ 0) (h : rampNonneg a T) :
    rampNonneg (processSample B a c.1 c.2.1 c.2.2).1 T := by
  have ht := processSample_tracker B a c.1 c.2.1 c.2.2
  simp only [if_neg hm] at ht
  have := inSegment_between_nonneg a T h
  unfold rampNonneg at this ⊢
  rw [ht.2.1, ht.2.2.1, ht.2.2.2.1, ht.2.2.2.2]
  exact this

theorem processSample_between_nonpos (B : Nat) (a : NESPatch) (T : ℚ)
    (c : (Nat → ℚ) × (Nat → Int) × Bool) (hm : a.m_SamplesLeft ≠ 0) (h : rampNonpos a T) :
    rampNonpos (processSample B a c.1 c.2.1 c.2.2).1 T := by
  have ht := processSample_tracker B a c.1 c.2.1 c.2.2
  simp only [if_neg hm] at ht
  have := inSegment_between_nonpos a T h
  unfold rampNonpos at this ⊢
  rw [ht.2.1, ht.2.2.1, ht.2.2.2.1, ht.2.2.2.2]
  exact this

theorem processSamples_between_nonneg (B : Nat) (r : NESPatch) (T : ℚ)
    (h : rampNonneg r T) :
    ∀ calls : List ((Nat → ℚ) × (Nat → Int) × Bool), calls.length ≤ r.m_SamplesLeft →
      rampNonneg (processSamples B r calls) T := by
  intro calls
  induction calls using List.reverseRecOn with
  | nil => intro _; exact h
  | append_singleton calls c ih =>
    intro hle
    rw [List.length_append, List.length_singleton] at hle
    have hm : (processSamples B r calls).m_SamplesLeft ≠ 0 := by
      rw [samplesLeft_countdown B r calls (by omega)]; omega
    rw [processSamples_snoc]
    exact processSample_between_nonneg B _ T c hm (ih (by omega))

theorem processSamples_between_nonpos (B : Nat) (r : NESPatch) (T : ℚ)
    (h : rampNonpos r T) :
    ∀ calls : List ((Nat → ℚ) × (Nat → Int) × Bool), calls.length ≤ r.m_SamplesLeft →
      rampNonpos (processSamples B r calls) T := by
  intro calls
  induction calls using List.reverseRecOn with
  | nil => intro _; exact h
  | append_singleton calls c ih =>
    intro hle
    rw [List.length_append, List.length_singleton] at hle
    have hm : (processSamples B r calls).m_SamplesLeft ≠ 0 := by
      rw [samplesLeft_countdown B r calls (by omega)]; omega
    rw [processSamples_snoc]
    exact processSample_between_nonpos B _ T c hm (ih (by omega))

theorem segmentStart_position (B : Nat) (s : NESPatch) (values : Nat → ℚ)
    (volume_values : Nat → Int) (update_volume : Bool) (h0 : s.m_SamplesLeft = 0) :
    (processSample B s values volume_values update_volume).1.m_Position =
      (processSample B s values volume_values update_volume).1.m_TargetPosition *
        (1 - Clamp01 s.m_TriangleParam) := by
  have ht := processSample_tracker B s values volume_values update_volume
  simp only [h0, if_true] at ht
  rw [ht.2.1, ht.2.2.1]
  simp only [segmentStart, Lerp]
  ring

/-- Right after a segment start the tracker satisfies the invariant of its
amplitude. -/
theorem segmentStart_between (B : Nat) (s : NESPatch) (values : Nat → ℚ)
    (volume_values : Nat → Int) (update_volume : Bool) (h0 : s.m_SamplesLeft = 0) :
    (0 ≤ (processSample B s values volume_values update_volume).1.m_TargetPosition →
      rampNonneg (processSample B s values volume_values update_volume).1
        (processSample B s values volume_values update_volume).1.m_TargetPosition) ∧
    ((processSample B s values volume_values update_volume).1.m_TargetPosition ≤ 0 →
      rampNonpos (processSample B s values volume_values update_volume).1
        (processSample B s values volume_values update_volume).1.m_TargetPosition) := by
  obtain ⟨_, hV, hNV⟩ := segmentStart_velocity B s values volume_values update_volume h0
  have hP := segmentStart_position B s values volume_values update_volume h0
  have c0 := Clamp01_nonneg s.m_TriangleParam
  have c1 := Clamp01_le_one s.m_TriangleParam
  generalize (processSample B s values volume_values update_volume).1 = r at hV hNV hP ⊢
  have hup : (0 : ℚ) < max 1 ((r.m_SamplesLeft : ℚ) *
      (if r.m_TargetPosition > r.m_Position then s.m_SawParam else 1 - s.m_SawParam)) :=
    lt_of_lt_of_le one_pos (le_max_left _ _)
  have hdown : (0 : ℚ) < max 1 ((r.m_SamplesLeft : ℚ) *
      (1 - (if r.m_TargetPosition > r.m_Position then s.m_SawParam
        else 1 - s.m_SawParam))) :=
    lt_of_lt_of_le one_pos (le_max_left _ _)
  constructor
  · intro hT
    have h1 : 0 ≤ r.m_Position := by rw [hP]; exact mul_nonneg hT (by linarith)
    have h2 : r.m_Position ≤ r.m_TargetPosition := by rw [hP]; nlinarith
    refine ⟨h1, h2, Or.inl ⟨rfl, ?_, ?_⟩⟩
    · rw [hV]; exact div_nonneg (by linarith) hup.le
    · rw [hNV]; exact div_nonpos_of_nonpos_of_nonneg (by linarith) hdown.le
  · intro hT
    have h1 : r.m_Position ≤ 0 := by
      rw [hP]; exact mul_nonpos_of_nonpos_of_nonneg hT (by linarith)
    have h2 : r.m_TargetPosition ≤ r.m_Position := by rw [hP]; nlinarith
    refine ⟨h2, h1, Or.inl ⟨rfl, ?_, ?_⟩⟩
    · rw [hV]; exact div_nonpos_of_nonpos_of_nonneg (by linarith) hup.le
    · rw [hNV]; exact div_nonneg (by linarith) hdown.le

/-- The position of the tracker after a segment start and any number
`k ≤ N` of further calls lies between 0 and the segment target. -/
theorem position_between (B : Nat) (s : NESPatch) (values : Nat → ℚ)
    (volume_values : Nat → Int) (update_volume : Bool) (h0 : s.m_SamplesLeft = 0)
    (calls : List ((Nat → ℚ) × (Nat → Int) × Bool))
    (hle : calls.length ≤
      (processSample B s values volume_values update_volume).1.m_SamplesLeft) :
    min 0 (processSample B s values volume_values update_volume).1.m_TargetPosition ≤
        (processSamples B (processSample B s values volume_values update_volume).1
          calls).m_Position ∧
      (processSamples B (processSample B s values volume_values update_volume).1
          calls).m_Position ≤
        max 0 (processSample B s values volume_values update_volume).1.m_TargetPosition := by
  have hb := segmentStart_between B s values volume_values update_volume h0
  rcases le_total 0 (processSample B s values volume_values update_volume).1.m_TargetPosition
    with hT | hT
  · have := processSamples_between_nonneg B _ _ (hb.1 hT) calls hle
    rw [min_eq_left hT, max_eq_right hT]
    exact ⟨this.1, this.2.1⟩
  · have := processSamples_between_nonpos B _ _ (hb.2 hT) calls hle
    rw [min_eq_right hT, max_eq_left hT]
    exact ⟨this.1, this.2.1⟩

theorem abs_le_of_between {x T : ℚ} (h : min 0 T ≤ x ∧ x ≤ max 0 T) : |x| ≤ |T| := by
  rcases le_total 0 T with hT | hT
  · rw [min_eq_left hT, max_eq_right hT] at h
    rw [abs_of_nonneg h.1, abs_of_nonneg hT]
    exact h.2
  · rw [min_eq_right hT, max_eq_left hT] at h
    rw [abs_of_nonpos h.2, abs_of_nonpos hT]
    linarith [h.1]

theorem exampleState_attack : exampleState.m_AttackParam = 1 := by
  norm_num [exampleState, updateParams, MapParam, Lerp, Clamp01]

/-! ## The second leg and the start position, with exact arithmetic -/

theorem inSegment_legNonneg (a : NESPatch) (P0 T v0 nv0 up down : ℚ) (N : Nat)
    (hP0 : 0 ≤ P0) (hPT : P0 ≤ T) (hv0 : 0 ≤ v0) (hnv0 : nv0 ≤ 0)
    (hup : v0 * up = T - P0) (hdown : nv0 * down = P0 - T)
    (hlegs : (N : ℚ) - up ≤ down)
    (hm : a.m_SamplesLeft ≠ 0) (h : legNonneg a P0 T v0 nv0 N) :
    legNonneg (inSegment a) P0 T v0 nv0 N := by
  have hm1 : (1 : ℚ) ≤ (a.m_SamplesLeft : ℚ) := by
    exact_mod_cast Nat.one_le_iff_ne_zero.mpr hm
  have hcast : ((a.m_SamplesLeft - 1 : Nat) : ℚ) = (a.m_SamplesLeft : ℚ) - 1 := by
    rw [Nat.cast_sub (Nat.one_le_iff_ne_zero.mpr hm)]; simp
  unfold legNonneg at h ⊢
  by_cases htrig : (a.m_Velocity > 0 ∧ a.m_Position + a.m_Velocity ≥ a.m_TargetPosition) ∨
      (a.m_Velocity < 0 ∧ a.m_Position + a.m_Velocity ≤ a.m_TargetPosition)
  · obtain ⟨j1, j2, j3, j4, j5⟩ := inSegment_trigger a htrig
    rw [j1, j2, j3, j4, j5, hcast]
    rcases h with ⟨t1, t2, t3, t4, t5⟩ | ⟨t1, t2, t3, t4, t5⟩
    · right
      rw [t1, t3]
      refine ⟨rfl, rfl, hnv0, ?_, le_rfl⟩
      rcases htrig with ⟨g1, g2⟩ | ⟨g1, _⟩
      · rw [t2] at g1
        rw [t1, t2, t4] at g2
        have hk : up ≤ (N : ℚ) - (a.m_SamplesLeft : ℚ) + 1 := by
          by_contra hc
          push_neg at hc
          have := mul_lt_mul_of_pos_left hc g1
          nlinarith
        have hle : (a.m_SamplesLeft : ℚ) - 1 ≤ down := by linarith
        have := mul_le_mul_of_nonpos_right hle hnv0
        linarith
      · rw [t2] at g1
        linarith
    · right
      rw [t1, t2]
      refine ⟨rfl, rfl, le_rfl, ?_, by linarith⟩
      rcases htrig with ⟨g1, _⟩ | ⟨g1, g2⟩
      · linarith
      · rw [t1] at g2
        have : ((a.m_SamplesLeft : ℚ) - 1) * a.m_Velocity ≤ 0 :=
          mul_nonpos_of_nonneg_of_nonpos (by linarith) t3
        nlinarith
  · obtain ⟨j1, j2, j3, j4, j5⟩ := inSegment_no_trigger a htrig
    rw [j1, j2, j3, j4, j5, hcast]
    rw [not_or, not_and_or, not_and_or] at htrig
    obtain ⟨n1, n2⟩ := htrig
    rcases h with ⟨t1, t2, t3, t4, t5⟩ | ⟨t1, t2, t3, t4, t5⟩
    · left
      refine ⟨t1, t2, t3, ?_, ?_⟩
      · rw [t4, t2]; ring
      · rcases n1 with n1 | n1
        · have : a.m_Velocity = 0 := le_antisymm (not_lt.mp n1) (by rw [t2]; exact hv0)
          linarith
        · rw [t1] at n1
          linarith
    · right
      refine ⟨t1, t2, t3, ?_, by linarith⟩
      nlinarith

theorem inSegment_legNonpos (a : NESPatch) (P0 T v0 nv0 up down : ℚ) (N : Nat)
    (hP0 : P0 ≤ 0) (hPT : T ≤ P0) (hv0 : v0 ≤ 0) (hnv0 : 0 ≤ nv0)
    (hup : v0 * up = T - P0) (hdown : nv0 * down = P0 - T)
    (hlegs : (N : ℚ) - up ≤ down)
    (hm : a.m_SamplesLeft ≠ 0) (h : legNonpos a P0 T v0 nv0 N) :
    legNonpos (inSegment a) P0 T v0 nv0 N := by
  have hm1 : (1 : ℚ) ≤ (a.m_SamplesLeft : ℚ) := by
    exact_mod_cast Nat.one_le_iff_ne_zero.mpr hm
  have hcast : ((a.m_SamplesLeft - 1 : Nat) : ℚ) = (a.m_SamplesLeft : ℚ) - 1 := by
    rw [Nat.cast_sub (Nat.one_le_iff_ne_zero.mpr hm)]; simp
  unfold legNonpos at h ⊢
  by_cases htrig : (a.m_Velocity > 0 ∧ a.m_Position + a.m_Velocity ≥ a.m_TargetPosition) ∨
      (a.m_Velocity < 0 ∧ a.m_Position + a.m_Velocity ≤ a.m_TargetPosition)
  · obtain ⟨j1, j2, j3, j4, j5⟩ := inSegment_trigger a htrig
    rw [j1, j2, j3, j4, j5, hcast]
    rcases h with ⟨t1, t2, t3, t4, t5⟩ | ⟨t1, t2, t3, t4, t5⟩
    · right
      rw [t1, t3]
      refine ⟨rfl, rfl, hnv0, ?_, le_rfl⟩
      rcases htrig with ⟨g1, _⟩ | ⟨g1, g2⟩
      · rw [t2] at g1
        linarith
      · rw [t2] at g1
        rw [t1, t2, t4] at g2
        have hk : up ≤ (N : ℚ) - (a.m_SamplesLeft : ℚ) + 1 := by
          by_contra hc
          push_neg at hc
          have := mul_lt_mul_of_neg_left hc g1
          nlinarith
        have hle : (a.m_SamplesLeft : ℚ) - 1 ≤ down := by linarith
        have := mul_le_mul_of_nonneg_right hle hnv0
        linarith
    · right
      rw [t1, t2]
      refine ⟨rfl, rfl, le_rfl, ?_, by linarith⟩
      rcases htrig with ⟨g1, g2⟩ | ⟨g1, _⟩
      · rw [t1] at g2
        have : 0 ≤ ((a.m_SamplesLeft : ℚ) - 1) * a.m_Velocity :=
          mul_nonneg (by linarith) t3
        nlinarith
      · linarith
  · obtain ⟨j1, j2, j3, j4, j5⟩ := inSegment_no_trigger a htrig
    rw [j1, j2, j3, j4, j5, hcast]
    rw [not_or, not_and_or, not_and_or] at htrig
    obtain ⟨n1, n2⟩ := htrig
    rcases h with ⟨t1, t2, t3, t4, t5⟩ | ⟨t1, t2, t3, t4, t5⟩
    · left
      refine ⟨t1, t2, t3, ?_, ?_⟩
      · rw [t4, t2]; ring
      · rcases n2 with n2 | n2
        · have : a.m_Velocity = 0 := le_antisymm (by rw [t2]; exact hv0) (not_lt.mp n2)
          linarith
        · rw [t1] at n2
          linarith
    · right
      refine ⟨t1, t2, t3, ?_, by linarith⟩
      nlinarith

theorem processSamples_legNonneg (B : Nat) (r : NESPatch) (P0 T v0 nv0 up down : ℚ)
    (hP0 : 0 ≤ P0) (hPT : P0 ≤ T) (hv0 : 0 ≤ v0) (hnv0 : nv0 ≤ 0)
    (hup : v0 * up = T - P0) (hdown : nv0 * down = P0 - T)
    (hlegs : (r.m_SamplesLeft : ℚ) - up ≤ down)
    (h : legNonneg r P0 T v0 nv0 r.m_SamplesLeft) :
    ∀ calls : List ((Nat → ℚ) × (Nat → Int) × Bool), calls.length ≤ r.m_SamplesLeft →
      legNonneg (processSamples B r calls) P0 T v0 nv0 r.m_SamplesLeft := by
  intro calls
  induction calls using List.reverseRecOn with
  | nil => intro _; exact h
  | append_singleton calls c ih =>
    intro hle
    rw [List.length_append, List.length_singleton] at hle
    have hm : (processSamples B r calls).m_SamplesLeft ≠ 0 := by
      rw [samplesLeft_countdown B r calls (by omega)]; omega
    have ht := processSample_tracker B (processSamples B r calls) c.1 c.2.1 c.2.2
    simp only [if_neg hm] at ht
    have := inSegment_legNonneg _ P0 T v0 nv0 up down r.m_SamplesLeft hP0 hPT hv0 hnv0 hup
      hdown hlegs hm (ih (by omega))
    rw [processSamples_snoc]
    unfold legNonneg at this ⊢
    rw [ht.1, ht.2.1, ht.2.2.1, ht.2.2.2.1, ht.2.2.2.2]
    exact this

theorem processSamples_legNonpos (B : Nat) (r : NESPatch) (P0 T v0 nv0 up down : ℚ)
    (hP0 : P0 ≤ 0) (hPT : T ≤ P0) (hv0 : v0 ≤ 0) (hnv0 : 0 ≤ nv0)
    (hup : v0 * up = T - P0) (hdown : nv0 * down = P0 - T)
    (hlegs : (r.m_SamplesLeft : ℚ) - up ≤ down)
    (h : legNonpos r P0 T v0 nv0 r.m_SamplesLeft) :
    ∀ calls : List ((Nat → ℚ) × (Nat → Int) × Bool), calls.length ≤ r.m_SamplesLeft →
      legNonpos (processSamples B r calls) P0 T v0 nv0 r.m_SamplesLeft := by
  intro calls
  induction calls using List.reverseRecOn with
  | nil => intro _; exact h
  | append_singleton calls c ih =>
    intro hle
    rw [List.length_append, List.length_singleton] at hle
    have hm : (processSamples B r calls).m_SamplesLeft ≠ 0 := by
      rw [samplesLeft_countdown B r calls (by omega)]; omega
    have ht := processSample_tracker B (processSamples B r calls) c.1 c.2.1 c.2.2
    simp only [if_neg hm] at ht
    have := inSegment_legNonpos _ P0 T v0 nv0 up down r.m_SamplesLeft hP0 hPT hv0 hnv0 hup
      hdown hlegs hm (ih (by omega))
    rw [processSamples_snoc]
    unfold legNonpos at this ⊢
    rw [ht.1, ht.2.1, ht.2.2.1, ht.2.2.2.1, ht.2.2.2.2]
    exact this

theorem legNonneg_bounds (a : NESPatch) (P0 T v0 nv0 : ℚ) (N : Nat) (hv0 : 0 ≤ v0)
    (hN : a.m_SamplesLeft ≤ N) (h : legNonneg a P0 T v0 nv0 N) :
    P0 ≤ a.m_Position ∧ a.m_Position ≤ T := by
  have hq : (a.m_SamplesLeft : ℚ) ≤ (N : ℚ) := by exact_mod_cast hN
  have hq0 : (0 : ℚ) ≤ (a.m_SamplesLeft : ℚ) := Nat.cast_nonneg _
  rcases h with ⟨_, _, _, t4, t5⟩ | ⟨_, _, t3, t4, t5⟩
  · refine ⟨?_, t5⟩
    have := mul_nonneg (sub_nonneg.mpr hq) hv0
    linarith
  · refine ⟨?_, t5⟩
    have := mul_nonpos_of_nonneg_of_nonpos hq0 t3
    linarith

theorem legNonpos_bounds (a : NESPatch) (P0 T v0 nv0 : ℚ) (N : Nat) (hv0 : v0 ≤ 0)
    (hN : a.m_SamplesLeft ≤ N) (h : legNonpos a P0 T v0 nv0 N) :
    T ≤ a.m_Position ∧ a.m_Position ≤ P0 := by
  have hq : (a.m_SamplesLeft : ℚ) ≤ (N : ℚ) := by exact_mod_cast hN
  have hq0 : (0 : ℚ) ≤ (a.m_SamplesLeft : ℚ) := Nat.cast_nonneg _
  rcases h with ⟨_, _, _, t4, t5⟩ | ⟨_, _, t3, t4, t5⟩
  · refine ⟨t5, ?_⟩
    have := mul_nonpos_of_nonneg_of_nonpos (sub_nonneg.mpr hq) hv0
    linarith
  · refine ⟨t5, ?_⟩
    have := mul_nonneg hq0 t3
    linarith

/-- With exact arithmetic, after a segment start and any number `k ≤ N` of
further calls the position lies between the start position and the segment
target: the second leg does not pass the start position. -/
theorem position_between_start (B : Nat) (s : NESPatch) (values : Nat → ℚ)
    (volume_values : Nat → Int) (update_volume : Bool) (h0 : s.m_SamplesLeft = 0)
    (calls : List ((Nat → ℚ) × (Nat → Int) × Bool))
    (hle : calls.length ≤
      (processSample B s values volume_values update_volume).1.m_SamplesLeft) :
    min (processSample B s values volume_values update_volume).1.m_Position
        (processSample B s values volume_values update_volume).1.m_TargetPosition ≤
        (processSamples B (processSample B s values volume_values update_volume).1
          calls).m_Position ∧
      (processSamples B (processSample B s values volume_values update_volume).1
          calls).m_Position ≤
        max (processSample B s values volume_values update_volume).1.m_Position
          (processSample B s values volume_values update_volume).1.m_TargetPosition := by
  obtain ⟨_, hV, hNV⟩ := segmentStart_velocity B s values volume_values update_volume h0
  have hP := segmentStart_position B s values volume_values update_volume h0
  have c0 := Clamp01_nonneg s.m_TriangleParam
  have c1 := Clamp01_le_one s.m_TriangleParam
  generalize (processSample B s values volume_values update_volume).1 = r at hV hNV hP hle ⊢
  have hupv : (1 : ℚ) ≤ max 1 ((r.m_SamplesLeft : ℚ) *
      (if r.m_TargetPosition > r.m_Position then s.m_SawParam else 1 - s.m_SawParam)) :=
    le_max_left _ _
  have hdownv : (1 : ℚ) ≤ max 1 ((r.m_SamplesLeft : ℚ) *
      (1 - (if r.m_TargetPosition > r.m_Position then s.m_SawParam
        else 1 - s.m_SawParam))) := le_max_left _ _
  have hup : r.m_Velocity * max 1 ((r.m_SamplesLeft : ℚ) *
      (if r.m_TargetPosition > r.m_Position then s.m_SawParam else 1 - s.m_SawParam)) =
      r.m_TargetPosition - r.m_Position := by
    rw [hV, div_mul_cancel₀]; linarith
  have hdown : r.m_NextVelocity * max 1 ((r.m_SamplesLeft : ℚ) *
      (1 - (if r.m_TargetPosition > r.m_Position then s.m_SawParam
        else 1 - s.m_SawParam))) = r.m_Position - r.m_TargetPosition := by
    rw [hNV, div_mul_cancel₀]; linarith
  have hlegs : (r.m_SamplesLeft : ℚ) - max 1 ((r.m_SamplesLeft : ℚ) *
      (if r.m_TargetPosition > r.m_Position then s.m_SawParam else 1 - s.m_SawParam)) ≤
      max 1 ((r.m_SamplesLeft : ℚ) *
      (1 - (if r.m_TargetPosition > r.m_Position then s.m_SawParam
        else 1 - s.m_SawParam))) := by
    have h1 := le_max_right (1 : ℚ) ((r.m_SamplesLeft : ℚ) *
      (if r.m_TargetPosition > r.m_Position then s.m_SawParam else 1 - s.m_SawParam))
    have h2 := le_max_right (1 : ℚ) ((r.m_SamplesLeft : ℚ) *
      (1 - (if r.m_TargetPosition > r.m_Position then s.m_SawParam
        else 1 - s.m_SawParam)))
    linarith
  have hcd : (processSamples B r calls).m_SamplesLeft ≤ r.m_SamplesLeft := by
    rw [samplesLeft_countdown B r calls hle]; omega
  rcases le_total 0 r.m_TargetPosition with hT | hT
  · have hP0 : 0 ≤ r.m_Position := by rw [hP]; exact mul_nonneg hT (by linarith)
    have hPT : r.m_Position ≤ r.m_TargetPosition := by rw [hP]; nlinarith
    have hv0 : 0 ≤ r.m_Velocity := by
      rw [hV]; exact div_nonneg (by linarith) (by linarith)
    have hnv0 : r.m_NextVelocity ≤ 0 := by
      rw [hNV]; exact div_nonpos_of_nonpos_of_nonneg (by linarith) (by linarith)
    have hinit : legNonneg r r.m_Position r.m_TargetPosition r.m_Velocity r.m_NextVelocity
        r.m_SamplesLeft := Or.inl ⟨rfl, rfl, rfl, by ring, hPT⟩
    have := legNonneg_bounds _ _ _ _ _ _ hv0 hcd
      (processSamples_legNonneg B r _ _ _ _ _ _ hP0 hPT hv0 hnv0 hup hdown hlegs hinit
        calls hle)
    rw [min_eq_left hPT, max_eq_right hPT]
    exact this
  · have hP0 : r.m_Position ≤ 0 := by
      rw [hP]; exact mul_nonpos_of_nonpos_of_nonneg hT (by linarith)
    have hPT : r.m_TargetPosition ≤ r.m_Position := by rw [hP]; nlinarith
    have hv0 : r.m_Velocity ≤ 0 := by
      rw [hV]; exact div_nonpos_of_nonpos_of_nonneg (by linarith) (by linarith)
    have hnv0 : 0 ≤ r.m_NextVelocity := by
      rw [hNV]; exact div_nonneg (by linarith) (by linarith)
    have hinit : legNonpos r r.m_Position r.m_TargetPosition r.m_Velocity r.m_NextVelocity
        r.m_SamplesLeft := Or.inl ⟨rfl, rfl, rfl, by ring, hPT⟩
    have := legNonpos_bounds _ _ _ _ _ _ hv0 hcd
      (processSamples_legNonpos B r _ _ _ _ _ _ hP0 hPT hv0 hnv0 hup hdown hlegs hinit
        calls hle)
    rw [min_eq_right hPT, max_eq_left hPT]
    exact this

/-! ## The amplitude bound with binary32 rounding -/

theorem bitLengthAux_spec : ∀ (fuel n : Nat), n ≤ fuel →
    n < 2 ^ F32.bitLengthAux fuel n ∧ (n ≠ 0 → 2 ^ (F32.bitLengthAux fuel n - 1) ≤ n) := by
  intro fuel
  induction fuel with
  | zero =>
    intro n hn
    have : n = 0 := by omega
    subst this
    simp [F32.bitLengthAux]
  | succ fuel ih =>
    intro n hn
    by_cases h0 : n = 0
    · subst h0
      simp [F32.bitLengthAux]
    · have hh : n / 2 ≤ fuel := by omega
      obtain ⟨i1, i2⟩ := ih (n / 2) hh
      simp only [F32.bitLengthAux, if_neg h0, Nat.add_sub_cancel]
      refine ⟨?_, fun _ => ?_⟩
      · rw [pow_succ]
        omega
      · by_cases h2 : n / 2 = 0
        · have hk : F32.bitLengthAux fuel (n / 2) = 0 := by
            rw [h2]
            cases fuel <;> simp [F32.bitLengthAux]
          rw [hk]
          simp
          omega
        · have i3 := i2 h2
          have hk : 1 ≤ F32.bitLengthAux fuel (n / 2) := by
            by_contra hc
            have : F32.bitLengthAux fuel (n / 2) = 0 := by omega
            rw [this] at i1
            simp at i1
            exact h2 i1
          have : 2 ^ F32.bitLengthAux fuel (n / 2) =
              2 * 2 ^ (F32.bitLengthAux fuel (n / 2) - 1) := by
            rw [← pow_succ', Nat.sub_add_cancel hk]
          omega

theorem bitLength_spec (n : Nat) :
    n < 2 ^ F32.bitLength n ∧ (n ≠ 0 → 2 ^ (F32.bitLength n - 1) ≤ n) :=
  bitLengthAux_spec n n (Nat.le_refl n)

theorem grid_upper (g x y : ℚ) (q q' : Nat) (hg : 0 < g) (hq : (2 : ℚ) ^ 23 ≤ (q : ℚ))
    (hx : (q : ℚ) * g ≤ x)
    (hq' : q' = q ∨ (q' = q + 1 ∧ (q : ℚ) * g < x))
    (hy : (∃ K : Int, y = (K : ℚ) * g) ∨ |y| ≤ (2 : ℚ) ^ 23 * g)
    (hxy : x ≤ y) : (q' : ℚ) * g ≤ y := by
  rcases hq' with h | ⟨h, hlt⟩
  · rw [h]; linarith
  · rw [h]
    rcases hy with ⟨K, hK⟩ | hy
    · have h1 : (q : ℚ) * g < (K : ℚ) * g := by rw [← hK]; linarith
      have h2 : (q : ℚ) < (K : ℚ) := lt_of_mul_lt_mul_right h1 hg.le
      have h3 : (q : Int) < K := by exact_mod_cast h2
      have h4 : (q : Int) + 1 ≤ K := by omega
      have h5 : ((q : ℚ) + 1) ≤ (K : ℚ) := by exact_mod_cast h4
      rw [hK]; push_cast
      exact mul_le_mul_of_nonneg_right h5 hg.le
    · exfalso
      have h1 : y ≤ (2 : ℚ) ^ 23 * g := le_trans (le_abs_self y) hy
      have h2 : (2 : ℚ) ^ 23 * g ≤ (q : ℚ) * g := mul_le_mul_of_nonneg_right hq hg.le
      linarith

theorem grid_lower (g x y : ℚ) (q q' : Nat) (hg : 0 < g) (hq : (2 : ℚ) ^ 23 ≤ (q : ℚ))
    (hx : x < ((q : ℚ) + 1) * g)
    (hq' : q' = q ∨ (q' = q + 1 ∧ (q : ℚ) * g < x))
    (hy : (∃ K : Int, y = (K : ℚ) * g) ∨ |y| ≤ (2 : ℚ) ^ 23 * g)
    (hxy : y ≤ x) : y ≤ (q' : ℚ) * g := by
  rcases hq' with h | ⟨h, _⟩
  · rw [h]
    rcases hy with ⟨K, hK⟩ | hy
    · have h1 : (K : ℚ) * g < ((q : ℚ) + 1) * g := by rw [← hK]; linarith
      have h2 : (K : ℚ) < (q : ℚ) + 1 := lt_of_mul_lt_mul_right h1 hg.le
      have h3 : K < (q : Int) + 1 := by exact_mod_cast h2
      have h4 : K ≤ (q : Int) := by omega
      have h5 : (K : ℚ) ≤ (q : ℚ) := by exact_mod_cast h4
      rw [hK]
      exact mul_le_mul_of_nonneg_right h5 hg.le
    · have h1 : y ≤ (2 : ℚ) ^ 23 * g := le_trans (le_abs_self y) hy
      have h2 : (2 : ℚ) ^ 23 * g ≤ (q : ℚ) * g := mul_le_mul_of_nonneg_right hq hg.le
      linarith
  · rw [h]; push_cast; linarith

theorem representable_grid (y : ℚ) (hy : Representable y) (e : Int) (s : Nat) :
    (∃ K : Int, y = (K : ℚ) * ((2 : ℚ) ^ e * (2 : ℚ) ^ s)) ∨
      |y| ≤ (2 : ℚ) ^ 23 * ((2 : ℚ) ^ e * (2 : ℚ) ^ s) := by
  obtain ⟨M, E, hM, rfl⟩ := hy
  have h2 : (0 : ℚ) < 2 := by norm_num
  by_cases hE : e + (s : Int) ≤ E
  · left
    obtain ⟨n, hn⟩ := Int.eq_ofNat_of_zero_le (sub_nonneg.mpr hE)
    refine ⟨M * 2 ^ n, ?_⟩
    have : E = e + (s : Int) + (n : Int) := by omega
    rw [this, zpow_add₀ h2.ne', zpow_add₀ h2.ne', zpow_natCast, zpow_natCast]
    push_cast
    ring
  · right
    have hE' : E ≤ e + (s : Int) - 1 := by omega
    have hpow : (2 : ℚ) ^ E ≤ (2 : ℚ) ^ (e + (s : Int) - 1) :=
      zpow_le_zpow_right₀ (by norm_num) hE'
    have hsplit : (2 : ℚ) ^ (e + (s : Int) - 1) = (2 : ℚ) ^ e * (2 : ℚ) ^ s / 2 := by
      rw [zpow_sub₀ h2.ne', zpow_add₀ h2.ne', zpow_natCast, zpow_one]
    have hMq : |(M : ℚ)| ≤ (2 : ℚ) ^ 24 := by
      rw [← Int.cast_abs, Int.abs_eq_natAbs]
      exact_mod_cast hM
    rw [abs_mul, abs_of_pos (zpow_pos h2 E)]
    calc |(M : ℚ)| * (2 : ℚ) ^ E ≤ (2 : ℚ) ^ 24 * (2 : ℚ) ^ (e + (s : Int) - 1) :=
          mul_le_mul hMq hpow (zpow_pos h2 E).le (by norm_num)
      _ = (2 : ℚ) ^ 23 * ((2 : ℚ) ^ e * (2 : ℚ) ^ s) := by rw [hsplit]; ring

theorem representable_neg (y : ℚ) (hy : Representable y) : Representable (-y) := by
  obtain ⟨M, E, hM, rfl⟩ := hy
  exact ⟨-M, E, by rw [Int.natAbs_neg]; exact hM, by push_cast; ring⟩

theorem representable_zero : Representable 0 :=
  ⟨0, 0, by simp, by simp⟩

theorem roundBits_small (m e : Int) (h : F32.bitLength m.natAbs ≤ 24) :
    F32.roundBits m e = ⟨m, e⟩ := by
  simp only [F32.roundBits, if_pos h]

theorem roundBits_big (m e : Int) (h : ¬ F32.bitLength m.natAbs ≤ 24) :
    ∃ q q' s : Nat,
      F32.roundBits m e = ⟨if m < 0 then -(q' : Int) else (q' : Int), e + (s : Int)⟩ ∧
      2 ^ 23 ≤ q ∧ q < 2 ^ 24 ∧ q * 2 ^ s ≤ m.natAbs ∧ m.natAbs < (q + 1) * 2 ^ s ∧
      (q' = q ∨ (q' = q + 1 ∧ q * 2 ^ s < m.natAbs)) := by
  obtain ⟨hlt, hge⟩ := bitLength_spec m.natAbs
  have ha : m.natAbs ≠ 0 := by
    intro h0
    apply h
    rw [h0]
    decide
  have hge := hge ha
  have hL : F32.bitLength m.natAbs = (F32.bitLength m.natAbs - 24) + 24 := by omega
  have hpos : 0 < 2 ^ (F32.bitLength m.natAbs - 24) := Nat.pow_pos (by norm_num)
  have hdm := Nat.div_add_mod m.natAbs (2 ^ (F32.bitLength m.natAbs - 24))
  have hmod := Nat.mod_lt m.natAbs hpos
  have hq1 : m.natAbs / 2 ^ (F32.bitLength m.natAbs - 24) * 2 ^ (F32.bitLength m.natAbs - 24) ≤
      m.natAbs := Nat.div_mul_le_self _ _
  have hq2 : m.natAbs <
      (m.natAbs / 2 ^ (F32.bitLength m.natAbs - 24) + 1) *
        2 ^ (F32.bitLength m.natAbs - 24) := by
    rw [Nat.add_mul, Nat.one_mul, Nat.mul_comm]
    omega
  refine ⟨m.natAbs / 2 ^ (F32.bitLength m.natAbs - 24),
    (if m.natAbs % 2 ^ (F32.bitLength m.natAbs - 24) >
          2 ^ (F32.bitLength m.natAbs - 24 - 1) ∨
        (m.natAbs % 2 ^ (F32.bitLength m.natAbs - 24) =
            2 ^ (F32.bitLength m.natAbs - 24 - 1) ∧
          m.natAbs / 2 ^ (F32.bitLength m.natAbs - 24) % 2 = 1)
      then m.natAbs / 2 ^ (F32.bitLength m.natAbs - 24) + 1
      else m.natAbs / 2 ^ (F32.bitLength m.natAbs - 24)),
    F32.bitLength m.natAbs - 24, ?_, ?_, ?_, hq1, hq2, ?_⟩
  · simp only [F32.roundBits, if_neg h]
  · rw [Nat.le_div_iff_mul_le hpos, ← pow_add]
    have : 23 + (F32.bitLength m.natAbs - 24) = F32.bitLength m.natAbs - 1 := by omega
    rw [this]
    exact hge
  · rw [Nat.div_lt_iff_lt_mul hpos, ← pow_add]
    have : 24 + (F32.bitLength m.natAbs - 24) = F32.bitLength m.natAbs := by omega
    rw [this]
    exact hlt
  · split_ifs with hc
    · right
      refine ⟨rfl, ?_⟩
      have hhalf : 0 < 2 ^ (F32.bitLength m.natAbs - 24 - 1) := Nat.pow_pos (by norm_num)
      have hr : 0 < m.natAbs % 2 ^ (F32.bitLength m.natAbs - 24) := by
        rcases hc with hc | ⟨hc, _⟩ <;> omega
      rw [Nat.mul_comm]
      omega
    · left; rfl

theorem roundBits_cases (m e : Int) :
    F32.roundBits m e = ⟨m, e⟩ ∧ m.natAbs < 2 ^ 24 ∨
    ∃ q q' s : Nat,
      F32.roundBits m e = ⟨if m < 0 then -(q' : Int) else (q' : Int), e + (s : Int)⟩ ∧
      m ≠ 0 ∧ (2 : ℚ) ^ 23 ≤ (q : ℚ) ∧ q < 2 ^ 24 ∧
      (q : ℚ) * ((2 : ℚ) ^ e * (2 : ℚ) ^ s) ≤ (m.natAbs : ℚ) * (2 : ℚ) ^ e ∧
      (m.natAbs : ℚ) * (2 : ℚ) ^ e < ((q : ℚ) + 1) * ((2 : ℚ) ^ e * (2 : ℚ) ^ s) ∧
      (q' = q ∨ (q' = q + 1 ∧
        (q : ℚ) * ((2 : ℚ) ^ e * (2 : ℚ) ^ s) < (m.natAbs : ℚ) * (2 : ℚ) ^ e)) := by
  by_cases h : F32.bitLength m.natAbs ≤ 24
  · left
    refine ⟨roundBits_small m e h, ?_⟩
    exact lt_of_lt_of_le (bitLength_spec m.natAbs).1 (Nat.pow_le_pow_right (by norm_num) h)
  · right
    obtain ⟨q, q', s, h1, h2, h3, h4, h5, h6⟩ := roundBits_big m e h
    have he : (0 : ℚ) < (2 : ℚ) ^ e := zpow_pos (by norm_num) e
    have hm : m ≠ 0 := by
      intro h0
      apply h
      rw [h0]
      decide
    refine ⟨q, q', s, h1, hm, by exact_mod_cast h2, h3, ?_, ?_, ?_⟩
    · have : ((q * 2 ^ s : Nat) : ℚ) ≤ (m.natAbs : ℚ) := by exact_mod_cast h4
      push_cast at this
      nlinarith
    · have : (m.natAbs : ℚ) < (((q + 1) * 2 ^ s : Nat) : ℚ) := by exact_mod_cast h5
      push_cast at this
      nlinarith
    · rcases h6 with h6 | ⟨h6, h7⟩
      · left; exact h6
      · right
        refine ⟨h6, ?_⟩
        have : ((q * 2 ^ s : Nat) : ℚ) < (m.natAbs : ℚ) := by exact_mod_cast h7
        push_cast at this
        nlinarith

theorem natAbs_cast_of_nonneg (m : Int) (h : ¬ m < 0) : ((m.natAbs : Nat) : ℚ) = (m : ℚ) := by
  rw [Nat.cast_natAbs, abs_of_nonneg (by omega)]

theorem natAbs_cast_of_neg (m : Int) (h : m < 0) : ((m.natAbs : Nat) : ℚ) = -(m : ℚ) := by
  rw [Nat.cast_natAbs, abs_of_neg h, Int.cast_neg]

theorem toRat_mk_add (M e : Int) (s : Nat) :
    F32.toRat ⟨M, e + (s : Int)⟩ = (M : ℚ) * ((2 : ℚ) ^ e * (2 : ℚ) ^ s) := by
  simp only [F32.toRat]
  rw [zpow_add₀ (by norm_num : (2 : ℚ) ≠ 0), zpow_natCast]

/-- Rounding does not pass a representable upper bound. -/
theorem roundBits_le (m e : Int) (y : ℚ) (hy : Representable y)
    (h : (m : ℚ) * (2 : ℚ) ^ e ≤ y) : (F32.roundBits m e).toRat ≤ y := by
  rcases roundBits_cases m e with ⟨h1, _⟩ | ⟨q, q', s, h1, _, h2, _, h4, h5, h6⟩
  · rw [h1]; exact h
  · have hg : (0 : ℚ) < (2 : ℚ) ^ e * (2 : ℚ) ^ s :=
      mul_pos (zpow_pos (by norm_num) e) (pow_pos (by norm_num) s)
    rw [h1, toRat_mk_add]
    by_cases hneg : m < 0
    · rw [if_pos hneg]
      rw [natAbs_cast_of_neg m hneg] at h4 h5 h6
      have := grid_lower _ (-(m : ℚ) * (2 : ℚ) ^ e) (-y) q q' hg h2 h5 h6
        (representable_grid _ (representable_neg y hy) e s) (by linarith)
      push_cast
      linarith
    · rw [if_neg hneg]
      rw [natAbs_cast_of_nonneg m hneg] at h4 h5 h6
      have := grid_upper _ ((m : ℚ) * (2 : ℚ) ^ e) y q q' hg h2 h4 h6
        (representable_grid _ hy e s) h
      push_cast
      exact this

/-- Rounding does not pass a representable lower bound. -/
theorem le_roundBits (m e : Int) (y : ℚ) (hy : Representable y)
    (h : y ≤ (m : ℚ) * (2 : ℚ) ^ e) : y ≤ (F32.roundBits m e).toRat := by
  rcases roundBits_cases m e with ⟨h1, _⟩ | ⟨q, q', s, h1, _, h2, _, h4, h5, h6⟩
  · rw [h1]; exact h
  · have hg : (0 : ℚ) < (2 : ℚ) ^ e * (2 : ℚ) ^ s :=
      mul_pos (zpow_pos (by norm_num) e) (pow_pos (by norm_num) s)
    rw [h1, toRat_mk_add]
    by_cases hneg : m < 0
    · rw [if_pos hneg]
      rw [natAbs_cast_of_neg m hneg] at h4 h5 h6
      have := grid_upper _ (-(m : ℚ) * (2 : ℚ) ^ e) (-y) q q' hg h2 h4 h6
        (representable_grid _ (representable_neg y hy) e s) (by linarith)
      push_cast
      linarith
    · rw [if_neg hneg]
      rw [natAbs_cast_of_nonneg m hneg] at h4 h5 h6
      have := grid_lower _ ((m : ℚ) * (2 : ℚ) ^ e) y q q' hg h2 h5 h6
        (representable_grid _ hy e s) h
      push_cast
      exact this

/-- A rounded value is representable. -/
theorem roundBits_representable (m e : Int) : Representable (F32.roundBits m e).toRat := by
  rcases roundBits_cases m e with ⟨h1, h2⟩ | ⟨q, q', s, h1, _, _, h3, _, _, h6⟩
  · rw [h1]
    exact ⟨m, e, h2.le, rfl⟩
  · rw [h1]
    refine ⟨if m < 0 then -(q' : Int) else (q' : Int), e + (s : Int), ?_, rfl⟩
    have hq' : q' ≤ 2 ^ 24 := by
      rcases h6 with h6 | ⟨h6, _⟩ <;> omega
    split_ifs
    · rw [Int.natAbs_neg, Int.natAbs_ofNat]; exact hq'
    · rw [Int.natAbs_ofNat]; exact hq'

theorem mantissaAt_toRat (x : F32) (e : Int) (h : e ≤ x.e) :
    ((F32.mantissaAt x e : Int) : ℚ) * (2 : ℚ) ^ e = x.toRat := by
  obtain ⟨n, hn⟩ := Int.eq_ofNat_of_zero_le (sub_nonneg.mpr h)
  have hx : x.e = e + (n : Int) := by omega
  simp only [F32.mantissaAt, F32.toRat, hn, Int.toNat_ofNat]
  rw [hx, zpow_add₀ (by norm_num : (2 : ℚ) ≠ 0), zpow_natCast]
  push_cast
  ring

theorem F32_lt_iff (x y : F32) : F32.lt x y = true ↔ x.toRat < y.toRat := by
  have hp : (0 : ℚ) < (2 : ℚ) ^ (min x.e y.e) := zpow_pos (by norm_num) _
  rw [← mantissaAt_toRat x (min x.e y.e) (min_le_left _ _),
    ← mantissaAt_toRat y (min x.e y.e) (min_le_right _ _)]
  simp only [F32.lt, decide_eq_true_eq]
  rw [mul_lt_mul_right hp]
  exact Int.cast_lt.symm

theorem F32_le_iff (x y : F32) : F32.le x y = true ↔ x.toRat ≤ y.toRat := by
  have hp : (0 : ℚ) < (2 : ℚ) ^ (min x.e y.e) := zpow_pos (by norm_num) _
  rw [← mantissaAt_toRat x (min x.e y.e) (min_le_left _ _),
    ← mantissaAt_toRat y (min x.e y.e) (min_le_right _ _)]
  simp only [F32.le, decide_eq_true_eq]
  rw [mul_le_mul_right hp]
  exact Int.cast_le.symm

theorem F32_add_exact (x y : F32) :
    ((F32.mantissaAt x (min x.e y.e) + F32.mantissaAt y (min x.e y.e) : Int) : ℚ) *
      (2 : ℚ) ^ (min x.e y.e) = x.toRat + y.toRat := by
  rw [← mantissaAt_toRat x (min x.e y.e) (min_le_left _ _),
    ← mantissaAt_toRat y (min x.e y.e) (min_le_right _ _)]
  push_cast
  ring

theorem F32_sub_exact (x y : F32) :
    ((F32.mantissaAt x (min x.e y.e) - F32.mantissaAt y (min x.e y.e) : Int) : ℚ) *
      (2 : ℚ) ^ (min x.e y.e) = x.toRat - y.toRat := by
  rw [← mantissaAt_toRat x (min x.e y.e) (min_le_left _ _),
    ← mantissaAt_toRat y (min x.e y.e) (min_le_right _ _)]
  push_cast
  ring

theorem F32_mul_exact (x y : F32) :
    ((x.m * y.m : Int) : ℚ) * (2 : ℚ) ^ (x.e + y.e) = x.toRat * y.toRat := by
  simp only [F32.toRat]
  rw [zpow_add₀ (by norm_num : (2 : ℚ) ≠ 0)]
  push_cast
  ring

theorem F32_add_le (x y : F32) (b : ℚ) (hb : Representable b) (h : x.toRat + y.toRat ≤ b) :
    (F32.add x y).toRat ≤ b :=
  roundBits_le _ _ b hb (by rw [F32_add_exact]; exact h)

theorem F32_le_add (x y : F32) (b : ℚ) (hb : Representable b) (h : b ≤ x.toRat + y.toRat) :
    b ≤ (F32.add x y).toRat :=
  le_roundBits _ _ b hb (by rw [F32_add_exact]; exact h)

theorem F32_sub_le (x y : F32) (b : ℚ) (hb : Representable b) (h : x.toRat - y.toRat ≤ b) :
    (F32.sub x y).toRat ≤ b :=
  roundBits_le _ _ b hb (by rw [F32_sub_exact]; exact h)

theorem F32_le_sub (x y : F32) (b : ℚ) (hb : Representable b) (h : b ≤ x.toRat - y.toRat) :
    b ≤ (F32.sub x y).toRat :=
  le_roundBits _ _ b hb (by rw [F32_sub_exact]; exact h)

theorem F32_mul_le (x y : F32) (b : ℚ) (hb : Representable b) (h : x.toRat * y.toRat ≤ b) :
    (F32.mul x y).toRat ≤ b :=
  roundBits_le _ _ b hb (by rw [F32_mul_exact]; exact h)

theorem F32_le_mul (x y : F32) (b : ℚ) (hb : Representable b) (h : b ≤ x.toRat * y.toRat) :
    b ≤ (F32.mul x y).toRat :=
  le_roundBits _ _ b hb (by rw [F32_mul_exact]; exact h)

theorem toRat_nonneg_iff (x : F32) : 0 ≤ x.toRat ↔ 0 ≤ x.m := by
  have hp : (0 : ℚ) < (2 : ℚ) ^ x.e := zpow_pos (by norm_num) _
  simp only [F32.toRat]
  constructor
  · intro h
    have : (0 : ℚ) ≤ (x.m : ℚ) := nonneg_of_mul_nonneg_left h hp
    exact_mod_cast this
  · intro h
    exact mul_nonneg (by exact_mod_cast h) hp.le

theorem toRat_pos_iff (x : F32) : 0 < x.toRat ↔ 0 < x.m := by
  have hp : (0 : ℚ) < (2 : ℚ) ^ x.e := zpow_pos (by norm_num) _
  simp only [F32.toRat]
  constructor
  · intro h
    have : (0 : ℚ) < (x.m : ℚ) := pos_of_mul_pos_left h hp.le
    exact_mod_cast this
  · intro h
    exact mul_pos (by exact_mod_cast h) hp

theorem toRat_nonpos_iff (x : F32) : x.toRat ≤ 0 ↔ x.m ≤ 0 := by
  rw [← not_lt, ← not_lt, toRat_pos_iff]

/-- The quotient of a non-negative value by a positive one is non-negative. -/
theorem F32_div_nonneg (x y : F32) (hx : 0 ≤ x.toRat) (hy : 0 < y.toRat) :
    0 ≤ (F32.div x y).toRat := by
  rw [toRat_nonneg_iff] at hx
  rw [toRat_pos_iff] at hy
  have h1 : ¬ x.m < 0 := by omega
  have h2 : ¬ y.m < 0 := by omega
  simp only [F32.div, h1, h2, if_true]
  apply le_roundBits _ _ 0 representable_zero
  exact mul_nonneg (by exact_mod_cast Int.natCast_nonneg _) (zpow_pos (by norm_num) _).le

/-- The quotient of a non-positive value by a positive one is non-positive. -/
theorem F32_div_nonpos (x y : F32) (hx : x.toRat ≤ 0) (hy : 0 < y.toRat) :
    (F32.div x y).toRat ≤ 0 := by
  rw [toRat_nonpos_iff] at hx
  rw [toRat_pos_iff] at hy
  have h2 : ¬ y.m < 0 := by omega
  by_cases h1 : x.m < 0
  · simp only [F32.div, h1, h2]
    apply roundBits_le _ _ 0 representable_zero
    rw [if_neg (by simp)]
    apply mul_nonpos_of_nonpos_of_nonneg _ (zpow_pos (by norm_num) _).le
    push_cast
    have : (0 : ℚ) ≤ (((2 * (x.m.natAbs * 2 ^ (26 + F32.bitLength y.m.natAbs) / y.m.natAbs) +
        (if x.m.natAbs * 2 ^ (26 + F32.bitLength y.m.natAbs) % y.m.natAbs = 0 then 0 else 1) :
        Nat) : Int) : ℚ) := by exact_mod_cast Int.natCast_nonneg _
    push_cast at this
    linarith
  · have h0 : x.m = 0 := by omega
    simp only [F32.div, h0]
    apply roundBits_le _ _ 0 representable_zero
    simp

theorem F32_max_one_pos (b : F32) : 0 < (F32.max ⟨1, 0⟩ b).toRat := by
  unfold F32.max
  split_ifs with h
  · rw [F32_lt_iff] at h
    have : F32.toRat ⟨1, 0⟩ = 1 := by simp [F32.toRat]
    linarith
  · simp [F32.toRat]

theorem Clamp01F32_range (f : F32) :
    0 ≤ (Clamp01F32 f).toRat ∧ (Clamp01F32 f).toRat ≤ 1 := by
  have h1 : F32.toRat ⟨1, 0⟩ = 1 := by simp [F32.toRat]
  have h0 : F32.toRat ⟨0, 0⟩ = 0 := by simp [F32.toRat]
  unfold Clamp01F32
  split_ifs with a b
  · rw [h1]; norm_num
  · rw [h0]; norm_num
  · have a' : ¬ (F32.toRat ⟨1, 0⟩ < f.toRat) := fun h => a ((F32_lt_iff _ _).mpr h)
    have b' : ¬ (f.toRat < F32.toRat ⟨0, 0⟩) := fun h => b ((F32_lt_iff _ _).mpr h)
    rw [h1] at a'
    rw [h0] at b'
    exact ⟨not_lt.mp b', not_lt.mp a'⟩

theorem toRat_zero : F32.toRat ⟨0, 0⟩ = 0 := by simp [F32.toRat]

theorem toRat_one : F32.toRat ⟨1, 0⟩ = 1 := by simp [F32.toRat]

theorem inSegmentF32_trigger (a : TrackerF32)
    (h : (0 < a.m_Velocity.toRat ∧
        a.m_TargetPosition.toRat ≤ (F32.add a.m_Position a.m_Velocity).toRat) ∨
      (a.m_Velocity.toRat < 0 ∧
        (F32.add a.m_Position a.m_Velocity).toRat ≤ a.m_TargetPosition.toRat)) :
    (inSegmentF32 a).m_Position = a.m_TargetPosition ∧
    (inSegmentF32 a).m_Velocity = a.m_NextVelocity ∧
    (inSegmentF32 a).m_NextVelocity = ⟨0, 0⟩ ∧
    (inSegmentF32 a).m_TargetPosition = ⟨0, 0⟩ ∧
    (inSegmentF32 a).m_SamplesLeft = a.m_SamplesLeft - 1 := by
  have hc : ((F32.lt ⟨0, 0⟩ a.m_Velocity &&
        F32.le a.m_TargetPosition (F32.add a.m_Position a.m_Velocity)) ||
      (F32.lt a.m_Velocity ⟨0, 0⟩ &&
        F32.le (F32.add a.m_Position a.m_Velocity) a.m_TargetPosition)) = true := by
    simp only [Bool.or_eq_true, Bool.and_eq_true, F32_lt_iff, F32_le_iff, toRat_zero]
    exact h
  simp only [inSegmentF32, hc, if_true, and_self]

theorem inSegmentF32_no_trigger (a : TrackerF32)
    (h : ¬ ((0 < a.m_Velocity.toRat ∧
        a.m_TargetPosition.toRat ≤ (F32.add a.m_Position a.m_Velocity).toRat) ∨
      (a.m_Velocity.toRat < 0 ∧
        (F32.add a.m_Position a.m_Velocity).toRat ≤ a.m_TargetPosition.toRat))) :
    (inSegmentF32 a).m_Position = F32.add a.m_Position a.m_Velocity ∧
    (inSegmentF32 a).m_Velocity = a.m_Velocity ∧
    (inSegmentF32 a).m_NextVelocity = a.m_NextVelocity ∧
    (inSegmentF32 a).m_TargetPosition = a.m_TargetPosition ∧
    (inSegmentF32 a).m_SamplesLeft = a.m_SamplesLeft - 1 := by
  have hc : ¬ (((F32.lt ⟨0, 0⟩ a.m_Velocity &&
        F32.le a.m_TargetPosition (F32.add a.m_Position a.m_Velocity)) ||
      (F32.lt a.m_Velocity ⟨0, 0⟩ &&
        F32.le (F32.add a.m_Position a.m_Velocity) a.m_TargetPosition)) = true) := by
    simp only [Bool.or_eq_true, Bool.and_eq_true, F32_lt_iff, F32_le_iff, toRat_zero]
    exact h
  simp only [inSegmentF32, hc, Bool.false_eq_true, if_false, and_self]

theorem inSegmentF32_rampNonneg (a : TrackerF32) (T : ℚ) (hT : Representable T)
    (h : rampNonnegF32 a T) : rampNonnegF32 (inSegmentF32 a) T := by
  obtain ⟨p0, p1, hphase⟩ := h
  have hT0 : 0 ≤ T := le_trans p0 p1
  unfold rampNonnegF32
  by_cases htrig : (0 < a.m_Velocity.toRat ∧
        a.m_TargetPosition.toRat ≤ (F32.add a.m_Position a.m_Velocity).toRat) ∨
      (a.m_Velocity.toRat < 0 ∧
        (F32.add a.m_Position a.m_Velocity).toRat ≤ a.m_TargetPosition.toRat)
  · obtain ⟨j1, j2, j3, j4, _⟩ := inSegmentF32_trigger a htrig
    rw [j1, j2, j3, j4, toRat_zero]
    rcases hphase with ⟨t1, t2, t3⟩ | ⟨t1, t2, t3⟩
    · rw [t1]
      exact ⟨hT0, le_refl _, Or.inr ⟨rfl, t3, rfl⟩⟩
    · rw [t1, t3]
      exact ⟨le_refl _, hT0, Or.inr ⟨rfl, le_refl _, rfl⟩⟩
  · obtain ⟨j1, j2, j3, j4, _⟩ := inSegmentF32_no_trigger a htrig
    rw [j1, j2, j3, j4]
    rcases hphase with ⟨t1, t2, t3⟩ | ⟨t1, t2, t3⟩
    · refine ⟨F32_le_add _ _ 0 representable_zero (by linarith), ?_, Or.inl ⟨t1, t2, t3⟩⟩
      rcases lt_or_eq_of_le t2 with hv | hv
      · by_contra hc
        exact htrig (Or.inl ⟨hv, by rw [t1]; exact le_of_lt (not_le.mp hc)⟩)
      · exact F32_add_le _ _ T hT (by linarith)
    · refine ⟨?_, F32_add_le _ _ T hT (by linarith), Or.inr ⟨t1, t2, t3⟩⟩
      rcases lt_or_eq_of_le t2 with hv | hv
      · by_contra hc
        exact htrig (Or.inr ⟨hv, by rw [t1]; exact le_of_lt (not_le.mp hc)⟩)
      · exact F32_le_add _ _ 0 representable_zero (by linarith)

theorem inSegmentF32_rampNonpos (a : TrackerF32) (T : ℚ) (hT : Representable T)
    (h : rampNonposF32 a T) : rampNonposF32 (inSegmentF32 a) T := by
  obtain ⟨p0, p1, hphase⟩ := h
  have hT0 : T ≤ 0 := le_trans p0 p1
  unfold rampNonposF32
  by_cases htrig : (0 < a.m_Velocity.toRat ∧
        a.m_TargetPosition.toRat ≤ (F32.add a.m_Position a.m_Velocity).toRat) ∨
      (a.m_Velocity.toRat < 0 ∧
        (F32.add a.m_Position a.m_Velocity).toRat ≤ a.m_TargetPosition.toRat)
  · obtain ⟨j1, j2, j3, j4, _⟩ := inSegmentF32_trigger a htrig
    rw [j1, j2, j3, j4, toRat_zero]
    rcases hphase with ⟨t1, t2, t3⟩ | ⟨t1, t2, t3⟩
    · rw [t1]
      exact ⟨le_refl _, hT0, Or.inr ⟨rfl, t3, rfl⟩⟩
    · rw [t1, t3]
      exact ⟨hT0, le_refl _, Or.inr ⟨rfl, le_refl _, rfl⟩⟩
  · obtain ⟨j1, j2, j3, j4, _⟩ := inSegmentF32_no_trigger a htrig
    rw [j1, j2, j3, j4]
    rcases hphase with ⟨t1, t2, t3⟩ | ⟨t1, t2, t3⟩
    · refine ⟨?_, F32_add_le _ _ 0 representable_zero (by linarith), Or.inl ⟨t1, t2, t3⟩⟩
      rcases lt_or_eq_of_le t2 with hv | hv
      · by_contra hc
        exact htrig (Or.inr ⟨hv, by rw [t1]; exact le_of_lt (not_le.mp hc)⟩)
      · exact F32_le_add _ _ T hT (by linarith)
    · refine ⟨F32_le_add _ _ T hT (by linarith), ?_, Or.inr ⟨t1, t2, t3⟩⟩
      rcases lt_or_eq_of_le t2 with hv | hv
      · by_contra hc
        exact htrig (Or.inl ⟨hv, by rw [t1]; exact le_of_lt (not_le.mp hc)⟩)
      · exact F32_add_le _ _ 0 representable_zero (by linarith)

theorem F32_div_representable (x y : F32) : Representable (F32.div x y).toRat := by
  unfold F32.div
  exact roundBits_representable _ _

theorem LerpF32_zero_nonneg (f T : F32) (hT : Representable T.toRat) (h0 : 0 ≤ T.toRat) :
    0 ≤ (LerpF32 f T ⟨0, 0⟩).toRat ∧ (LerpF32 f T ⟨0, 0⟩).toRat ≤ T.toRat := by
  obtain ⟨c0, c1⟩ := Clamp01F32_range f
  have hneg := representable_neg _ hT
  have d1 : (F32.sub ⟨0, 0⟩ T).toRat ≤ 0 :=
    F32_sub_le _ _ 0 representable_zero (by rw [toRat_zero]; linarith)
  have d2 : -T.toRat ≤ (F32.sub ⟨0, 0⟩ T).toRat :=
    F32_le_sub _ _ _ hneg (by rw [toRat_zero]; linarith)
  have e1 : (F32.mul (F32.sub ⟨0, 0⟩ T) (Clamp01F32 f)).toRat ≤ 0 :=
    F32_mul_le _ _ 0 representable_zero (mul_nonpos_of_nonpos_of_nonneg d1 c0)
  have e2 : -T.toRat ≤ (F32.mul (F32.sub ⟨0, 0⟩ T) (Clamp01F32 f)).toRat :=
    F32_le_mul _ _ _ hneg (by nlinarith)
  unfold LerpF32
  exact ⟨F32_le_add _ _ 0 representable_zero (by linarith),
    F32_add_le _ _ _ hT (by linarith)⟩

theorem LerpF32_zero_nonpos (f T : F32) (hT : Representable T.toRat) (h0 : T.toRat ≤ 0) :
    T.toRat ≤ (LerpF32 f T ⟨0, 0⟩).toRat ∧ (LerpF32 f T ⟨0, 0⟩).toRat ≤ 0 := by
  obtain ⟨c0, c1⟩ := Clamp01F32_range f
  have hneg := representable_neg _ hT
  have d1 : 0 ≤ (F32.sub ⟨0, 0⟩ T).toRat :=
    F32_le_sub _ _ 0 representable_zero (by rw [toRat_zero]; linarith)
  have d2 : (F32.sub ⟨0, 0⟩ T).toRat ≤ -T.toRat :=
    F32_sub_le _ _ _ hneg (by rw [toRat_zero]; linarith)
  have e1 : 0 ≤ (F32.mul (F32.sub ⟨0, 0⟩ T) (Clamp01F32 f)).toRat :=
    F32_le_mul _ _ 0 representable_zero (mul_nonneg d1 c0)
  have e2 : (F32.mul (F32.sub ⟨0, 0⟩ T) (Clamp01F32 f)).toRat ≤ -T.toRat :=
    F32_mul_le _ _ _ hneg (by nlinarith)
  unfold LerpF32
  exact ⟨F32_le_add _ _ _ hT (by linarith),
    F32_add_le _ _ 0 representable_zero (by linarith)⟩

/-- The state left by a segment start in binary32 satisfies the ramp invariant
for its own target, which is a representable value. -/
theorem segmentStartF32_ramp (B : Nat) (s : TrackerF32) (values : Nat → F32) :
    Representable (segmentStartF32 B s values).m_TargetPosition.toRat ∧
    (0 ≤ (segmentStartF32 B s values).m_TargetPosition.toRat →
      rampNonnegF32 (segmentStartF32 B s values)
        (segmentStartF32 B s values).m_TargetPosition.toRat) ∧
    ((segmentStartF32 B s values).m_TargetPosition.toRat ≤ 0 →
      rampNonposF32 (segmentStartF32 B s values)
        (segmentStartF32 B s values).m_TargetPosition.toRat) := by
  simp only [segmentStartF32, rampNonnegF32, rampNonposF32]
  have hrep := F32_div_representable
    (scanLoopF32 values (F32.lt ⟨0, 0⟩ (values 0)) (DELAY_BUFFER_SIZE B - 1) 1 (values 0)).2
    (F32.ofNat
      (scanLoopF32 values (F32.lt ⟨0, 0⟩ (values 0)) (DELAY_BUFFER_SIZE B - 1) 1 (values 0)).1)
  generalize F32.div
    (scanLoopF32 values (F32.lt ⟨0, 0⟩ (values 0)) (DELAY_BUFFER_SIZE B - 1) 1 (values 0)).2
    (F32.ofNat
      (scanLoopF32 values (F32.lt ⟨0, 0⟩ (values 0)) (DELAY_BUFFER_SIZE B - 1) 1
        (values 0)).1) = T at hrep ⊢
  generalize (scanLoopF32 values (F32.lt ⟨0, 0⟩ (values 0)) (DELAY_BUFFER_SIZE B - 1) 1
    (values 0)).1 = n
  refine ⟨hrep, ?_, ?_⟩
  · intro hT
    obtain ⟨l1, l2⟩ := LerpF32_zero_nonneg s.m_TriangleParam T hrep hT
    refine ⟨l1, l2, Or.inl ⟨trivial, ?_, ?_⟩⟩
    · exact F32_div_nonneg _ _
        (F32_le_sub _ _ 0 representable_zero (by linarith)) (F32_max_one_pos _)
    · exact F32_div_nonpos _ _
        (F32_sub_le _ _ 0 representable_zero (by linarith)) (F32_max_one_pos _)
  · intro hT
    obtain ⟨l1, l2⟩ := LerpF32_zero_nonpos s.m_TriangleParam T hrep hT
    refine ⟨l1, l2, Or.inl ⟨trivial, ?_, ?_⟩⟩
    · exact F32_div_nonpos _ _
        (F32_sub_le _ _ 0 representable_zero (by linarith)) (F32_max_one_pos _)
    · exact F32_div_nonneg _ _
        (F32_le_sub _ _ 0 representable_zero (by linarith)) (F32_max_one_pos _)

theorem inSegmentF32_iterate_samplesLeft (a : TrackerF32) (k : Nat) :
    (inSegmentF32^[k] a).m_SamplesLeft = a.m_SamplesLeft - k := by
  induction k with
  | zero => rfl
  | succ k ih =>
    rw [Function.iterate_succ_apply']
    have : (inSegmentF32 (inSegmentF32^[k] a)).m_SamplesLeft =
        (inSegmentF32^[k] a).m_SamplesLeft - 1 := by
      by_cases h : (0 < (inSegmentF32^[k] a).m_Velocity.toRat ∧
          (inSegmentF32^[k] a).m_TargetPosition.toRat ≤
            (F32.add (inSegmentF32^[k] a).m_Position (inSegmentF32^[k] a).m_Velocity).toRat) ∨
        ((inSegmentF32^[k] a).m_Velocity.toRat < 0 ∧
          (F32.add (inSegmentF32^[k] a).m_Position (inSegmentF32^[k] a).m_Velocity).toRat ≤
            (inSegmentF32^[k] a).m_TargetPosition.toRat)
      · exact (inSegmentF32_trigger _ h).2.2.2.2
      · exact (inSegmentF32_no_trigger _ h).2.2.2.2
    rw [this, ih]
    omega

/-- While samples are left, the calls of `processSample` take the `else`
branch. -/
theorem trackerStepF32_iterate (B : Nat) (values : Nat → F32) (a : TrackerF32) :
    ∀ k : Nat, k ≤ a.m_SamplesLeft →
      (fun t => trackerStepF32 B t values)^[k] a = inSegmentF32^[k] a := by
  intro k
  induction k with
  | zero => intro _; rfl
  | succ k ih =>
    intro hk
    rw [Function.iterate_succ_apply', Function.iterate_succ_apply', ih (by omega)]
    have : (inSegmentF32^[k] a).m_SamplesLeft ≠ 0 := by
      rw [inSegmentF32_iterate_samplesLeft]; omega
    simp only [trackerStepF32, if_neg this]

theorem inSegmentF32_iterate_rampNonneg (a : TrackerF32) (T : ℚ) (hT : Representable T)
    (h : rampNonnegF32 a T) (k : Nat) : rampNonnegF32 (inSegmentF32^[k] a) T := by
  induction k with
  | zero => exact h
  | succ k ih =>
    rw [Function.iterate_succ_apply']
    exact inSegmentF32_rampNonneg _ T hT ih

theorem inSegmentF32_iterate_rampNonpos (a : TrackerF32) (T : ℚ) (hT : Representable T)
    (h : rampNonposF32 a T) (k : Nat) : rampNonposF32 (inSegmentF32^[k] a) T := by
  induction k with
  | zero => exact h
  | succ k ih =>
    rw [Function.iterate_succ_apply']
    exact inSegmentF32_rampNonpos _ T hT ih

theorem F32_add_representable (x y : F32) : Representable (F32.add x y).toRat := by
  unfold F32.add
  exact roundBits_representable _ _

theorem F32_mul_zero (x y : F32) (h : y.toRat = 0) : (F32.mul x y).toRat = 0 :=
  le_antisymm (F32_mul_le _ _ 0 representable_zero (by rw [h, mul_zero]))
    (F32_le_mul _ _ 0 representable_zero (by rw [h, mul_zero]))

theorem Clamp01F32_zero (f : F32) (h : f.toRat = 0) : (Clamp01F32 f).toRat = 0 := by
  have a : ¬ F32.lt ⟨1, 0⟩ f = true := by
    rw [F32_lt_iff, toRat_one, h]; norm_num
  have b : ¬ F32.lt f ⟨0, 0⟩ = true := by
    rw [F32_lt_iff, toRat_zero, h]; norm_num
  simp only [Clamp01F32, a, b, if_false]
  exact h

/-- With attack amount 0 the value returned in binary32 is the position. -/
theorem outputF32_eq_position (a : TrackerF32) (strength attack noise : F32)
    (hattack : attack.toRat = 0) (hrep : Representable a.m_Position.toRat) :
    (outputF32 a strength attack noise).toRat = a.m_Position.toRat := by
  have hz : (F32.mul (F32.sub noise a.m_Position)
      (Clamp01F32 (F32.mul strength attack))).toRat = 0 :=
    F32_mul_zero _ _ (Clamp01F32_zero _ (F32_mul_zero _ _ hattack))
  unfold outputF32 LerpF32
  exact le_antisymm (F32_add_le _ _ _ hrep (by rw [hz, add_zero]))
    (F32_le_add _ _ _ hrep (by rw [hz, add_zero]))

theorem inSegmentF32_representable (a : TrackerF32)
    (h : Representable a.m_Position.toRat ∧ Representable a.m_TargetPosition.toRat) :
    Representable (inSegmentF32 a).m_Position.toRat ∧
      Representable (inSegmentF32 a).m_TargetPosition.toRat := by
  by_cases htrig : (0 < a.m_Velocity.toRat ∧
        a.m_TargetPosition.toRat ≤ (F32.add a.m_Position a.m_Velocity).toRat) ∨
      (a.m_Velocity.toRat < 0 ∧
        (F32.add a.m_Position a.m_Velocity).toRat ≤ a.m_TargetPosition.toRat)
  · obtain ⟨j1, _, _, j4, _⟩ := inSegmentF32_trigger a htrig
    rw [j1, j4, toRat_zero]
    exact ⟨h.2, representable_zero⟩
  · obtain ⟨j1, _, _, j4, _⟩ := inSegmentF32_no_trigger a htrig
    rw [j1, j4]
    exact ⟨F32_add_representable _ _, h.2⟩

theorem inSegmentF32_iterate_representable (a : TrackerF32)
    (h : Representable a.m_Position.toRat ∧ Representable a.m_TargetPosition.toRat)
    (k : Nat) :
    Representable (inSegmentF32^[k] a).m_Position.toRat ∧
      Representable (inSegmentF32^[k] a).m_TargetPosition.toRat := by
  induction k with
  | zero => exact h
  | succ k ih =>
    rw [Function.iterate_succ_apply']
    exact inSegmentF32_representable _ ih

theorem segmentStartF32_representable (B : Nat) (s : TrackerF32) (values : Nat → F32) :
    Representable (segmentStartF32 B s values).m_Position.toRat ∧
      Representable (segmentStartF32 B s values).m_TargetPosition.toRat := by
  simp only [segmentStartF32]
  exact ⟨by unfold LerpF32; exact F32_add_representable _ _, F32_div_representable _ _⟩

/-- The amplitude bound with binary32 rounding.  For a call of `processSample`
that starts a segment (`m_SamplesLeft = 0`), with `T` the target and `N` the run
length it sets: the start position and the position after each of the
following `k ≤ N` calls lie between 0 and `T` inclusive, and with attack
amount 0 the value returned after them has magnitude at most `|T|`, whatever
the attack strength and the noise sample. -/
theorem amplitude_bound_binary32 (B : Nat) (s : TrackerF32) (values : Nat → F32)
    (h0 : s.m_SamplesLeft = 0) (k : Nat)
    (hk : k ≤ (trackerStepF32 B s values).m_SamplesLeft) :
    (min 0 (trackerStepF32 B s values).m_TargetPosition.toRat ≤
        ((fun t => trackerStepF32 B t values)^[k]
          (trackerStepF32 B s values)).m_Position.toRat ∧
      ((fun t => trackerStepF32 B t values)^[k]
          (trackerStepF32 B s values)).m_Position.toRat ≤
        max 0 (trackerStepF32 B s values).m_TargetPosition.toRat) ∧
    ∀ strength attack noise : F32, attack.toRat = 0 →
      |(outputF32 ((fun t => trackerStepF32 B t values)^[k] (trackerStepF32 B s values))
          strength attack noise).toRat| ≤
        |(trackerStepF32 B s values).m_TargetPosition.toRat| := by
  rw [trackerStepF32_iterate B values _ k hk]
  have hs : trackerStepF32 B s values = segmentStartF32 B s values := by
    simp only [trackerStepF32, h0, if_true]
  rw [hs]
  obtain ⟨hrep, hpos, hneg⟩ := segmentStartF32_ramp B s values
  have hb : min 0 (segmentStartF32 B s values).m_TargetPosition.toRat ≤
        (inSegmentF32^[k] (segmentStartF32 B s values)).m_Position.toRat ∧
      (inSegmentF32^[k] (segmentStartF32 B s values)).m_Position.toRat ≤
        max 0 (segmentStartF32 B s values).m_TargetPosition.toRat := by
    rcases le_total 0 (segmentStartF32 B s values).m_TargetPosition.toRat with hT | hT
    · have := inSegmentF32_iterate_rampNonneg _ _ hrep (hpos hT) k
      rw [min_eq_left hT, max_eq_right hT]
      exact ⟨this.1, this.2.1⟩
    · have := inSegmentF32_iterate_rampNonpos _ _ hrep (hneg hT) k
      rw [min_eq_right hT, max_eq_left hT]
      exact ⟨this.1, this.2.1⟩
  refine ⟨hb, fun strength attack noise hattack => ?_⟩
  rw [outputF32_eq_position _ strength attack noise hattack
    (inSegmentF32_iterate_representable _ (segmentStartF32_representable B s values) k).1]
  exact abs_le_of_between hb

/-- C18, amended: the position stays inside the segment's amplitude.  For every
segment start (any triangle shape and skew, in particular shape in `[0,1]` and
skew in `[1/2,1]`), with `T` the target and `N` the run length set by the call,
the start position and the position after each of the following `k ≤ N` calls
lie between 0 and `T` inclusive (the second leg never crosses zero); so with
attack amount 0 the value returned by the segment start and by each of the
following `N` calls has magnitude at most `|T|`.  The first two parts state
this with exact arithmetic, for the whole of `processSample`; the third states
it with binary32 rounding, for the tracker and the returned value.  Nothing is
said about the second leg and the start position, which is a matter of
rounding. -/
theorem position_within_amplitude (B : Nat) (s : NESPatch) (values : Nat → ℚ)
    (volume_values : Nat → Int) (update_volume : Bool) (h0 : s.m_SamplesLeft = 0) :
    let r := (processSample B s values volume_values update_volume).1
    let T := r.m_TargetPosition
    (∀ calls : List ((Nat → ℚ) × (Nat → Int) × Bool), calls.length ≤ r.m_SamplesLeft →
      min 0 T ≤ (processSamples B r calls).m_Position ∧
        (processSamples B r calls).m_Position ≤ max 0 T) ∧
    (s.m_AttackParam = 0 →
      |(processSample B s values volume_values update_volume).2| ≤ |T| ∧
      ∀ (calls : List ((Nat → ℚ) × (Nat → Int) × Bool)) (c : (Nat → ℚ) × (Nat → Int) × Bool),
        calls.length < r.m_SamplesLeft →
        |(processSample B (processSamples B r calls) c.1 c.2.1 c.2.2).2| ≤ |T|) ∧
    (∀ (t : TrackerF32) (window : Nat → F32) (k : Nat), t.m_SamplesLeft = 0 →
      k ≤ (trackerStepF32 B t window).m_SamplesLeft →
      (min 0 (trackerStepF32 B t window).m_TargetPosition.toRat ≤
          ((fun u => trackerStepF32 B u window)^[k]
            (trackerStepF32 B t window)).m_Position.toRat ∧
        ((fun u => trackerStepF32 B u window)^[k]
            (trackerStepF32 B t window)).m_Position.toRat ≤
          max 0 (trackerStepF32 B t window).m_TargetPosition.toRat) ∧
      ∀ strength attack noise : F32, attack.toRat = 0 →
        |(outputF32 ((fun u => trackerStepF32 B u window)^[k] (trackerStepF32 B t window))
            strength attack noise).toRat| ≤
          |(trackerStepF32 B t window).m_TargetPosition.toRat|) := by
  intro r T
  have hpos := position_between B s values volume_values update_volume h0
  refine ⟨fun calls hle => hpos calls hle, ?_,
    fun t window k ht hk => amplitude_bound_binary32 B t window ht k hk⟩
  intro hA
  constructor
  · rw [output_eq_position B s values volume_values update_volume hA]
    exact abs_le_of_between (hpos [] (Nat.zero_le _))
  · intro calls c hlt
    have hA' : (processSamples B r calls).m_AttackParam = 0 := by
      rw [processSamples_attackParam, processSample_attackParam, hA]
    rw [output_eq_position B _ c.1 c.2.1 c.2.2 hA', ← processSamples_snoc]
    exact abs_le_of_between (hpos (calls ++ [c]) (by
      rw [List.length_append, List.length_singleton]; exact hlt))

set_option maxRecDepth 100000 in
/-- Witness for C18: with exact arithmetic, the example segment (target 2,
start position 1, run length 2) after one further call; with binary32
rounding, the segment of 6 samples `1.0` at shape `1/2` and skew `1/2` after 6
further calls. -/
theorem position_within_amplitude_witness :
    ((exampleState.m_SamplesLeft = 0 ∧ [exampleCall].length ≤ exampleSegment.m_SamplesLeft) ∧
      min 0 exampleSegment.m_TargetPosition ≤
        (processSamples 128 exampleSegment [exampleCall]).m_Position ∧
      (processSamples 128 exampleSegment [exampleCall]).m_Position ≤
        max 0 exampleSegment.m_TargetPosition) ∧
    ((legTracker.m_SamplesLeft = 0 ∧
        6 ≤ (trackerStepF32 128 legTracker legWindow).m_SamplesLeft) ∧
      min 0 (trackerStepF32 128 legTracker legWindow).m_TargetPosition.toRat ≤
        ((fun u => trackerStepF32 128 u legWindow)^[6]
          (trackerStepF32 128 legTracker legWindow)).m_Position.toRat ∧
      ((fun u => trackerStepF32 128 u legWindow)^[6]
          (trackerStepF32 128 legTracker legWindow)).m_Position.toRat ≤
        max 0 (trackerStepF32 128 legTracker legWindow).m_TargetPosition.toRat) :=
  have hle : [exampleCall].length ≤ exampleSegment.m_SamplesLeft := by
    rw [exampleSegment_tracker.1]; simp
  have hk : 6 ≤ (trackerStepF32 128 legTracker legWindow).m_SamplesLeft := by decide
  ⟨⟨⟨rfl, hle⟩,
      (position_within_amplitude 128 exampleState exampleWindow (fun _ => 0) true rfl).1
        [exampleCall] hle⟩,
    ⟨⟨rfl, hk⟩,
      ((position_within_amplitude 128 exampleState exampleWindow (fun _ => 0) true rfl).2.2
        legTracker legWindow 6 rfl hk).1⟩⟩

set_option maxRecDepth 100000 in
/-- C18, as stated, fails in binary32: the second leg passes the start position.
A fresh instance with raw triangle parameter `0.5` and raw saw parameter `0.0`
has shape `1/2` and skew `1/2`.  Its first call, on a window of 6 samples `1.0`
followed by `-1.0`, starts a segment with `N = 6`, target `1` and start
position `1/2`.  The third further call reaches the target and switches to
`next_velocity`; after the sixth further call the position is
`8388607 * 2^-24`, below the start position, hence not between the start
position and the target. -/
theorem second_leg_passes_start_in_binary32 :
    F32.eq legTracker.m_TriangleParam ⟨1, -1⟩ = true ∧
    F32.eq legTracker.m_SawParam ⟨1, -1⟩ = true ∧
    ((fun t => trackerStepF32 128 t legWindow)^[1] legTracker).m_SamplesLeft = 6 ∧
    F32.eq ((fun t => trackerStepF32 128 t legWindow)^[1] legTracker).m_TargetPosition
      ⟨1, 0⟩ = true ∧
    F32.eq ((fun t => trackerStepF32 128 t legWindow)^[1] legTracker).m_Position
      ⟨1, -1⟩ = true ∧
    F32.eq ((fun t => trackerStepF32 128 t legWindow)^[4] legTracker).m_Position
      ⟨1, 0⟩ = true ∧
    ((fun t => trackerStepF32 128 t legWindow)^[4] legTracker).m_Velocity =
      ((fun t => trackerStepF32 128 t legWindow)^[1] legTracker).m_NextVelocity ∧
    ((fun t => trackerStepF32 128 t legWindow)^[7] legTracker).m_SamplesLeft = 0 ∧
    F32.eq ((fun t => trackerStepF32 128 t legWindow)^[7] legTracker).m_Position
      ⟨8388607, -24⟩ = true ∧
    F32.le ((fun t => trackerStepF32 128 t legWindow)^[1] legTracker).m_Position
      ((fun t => trackerStepF32 128 t legWindow)^[7] legTracker).m_Position = false := by
  decide

theorem sampleLoop_countdown (B : Nat) (t : NESPatch) (n : Nat) :
    ∀ j : Nat, j ≤ (sampleLoop B (n + 1) t).1.m_SamplesLeft →
      (sampleLoop B (n + 1 + j) t).1.m_SamplesLeft =
        (sampleLoop B (n + 1) t).1.m_SamplesLeft - j := by
  intro j
  induction j with
  | zero => intro _; rfl
  | succ j ih =>
    intro hle
    have i1 := ih (by omega)
    have hm : (sampleLoop B (n + 1 + j) t).1.m_SamplesLeft ≠ 0 := by omega
    have ht := processSample_tracker B (sampleLoop B (n + 1 + j) t).1
      (fun i => t.m_Buffer.getD (n + 1 + j + i) 0)
      (fun i => t.m_VolumeBuffer.getD ((n + 1 + j) / VOLUME_BUFFER_RESOLUTION + i) 0)
      ((n + 1 + j) % VOLUME_BUFFER_RESOLUTION == 0)
    simp only [if_neg hm] at ht
    rw [← Nat.add_assoc, sampleLoop_succ, ht.1, inSegment_samplesLeft, i1]
    omega

/-- C19: a `SEGMENT_START` call that sets `m_SamplesLeft = N` (`N ≥ 1`) is followed by
exactly `N` calls that take the `IN_SEGMENT` branch (`m_SamplesLeft ≠ 0` on
entry) before the next `SEGMENT_START` (`m_SamplesLeft = 0` on entry); in the
sample loop of `processAudio`, if sample `n` starts a segment with
`m_SamplesLeft = N`, samples `n+1 .. n+N` are inside it and sample `n+N+1`,
whose window is `m_Buffer + n + N + 1`, starts the next one. -/
theorem segment_occupies (B : Nat) (s : NESPatch) (values : Nat → ℚ)
    (volume_values : Nat → Int) (update_volume : Bool) (h0 : s.m_SamplesLeft = 0) :
    let r := (processSample B s values volume_values update_volume).1
    1 ≤ r.m_SamplesLeft ∧
    (∀ calls : List ((Nat → ℚ) × (Nat → Int) × Bool), calls.length < r.m_SamplesLeft →
      (processSamples B r calls).m_SamplesLeft ≠ 0) ∧
    (∀ calls : List ((Nat → ℚ) × (Nat → Int) × Bool), calls.length = r.m_SamplesLeft →
      (processSamples B r calls).m_SamplesLeft = 0) ∧
    (∀ (t : NESPatch) (n : Nat), (sampleLoop B n t).1.m_SamplesLeft = 0 →
      (∀ j, j < (sampleLoop B (n + 1) t).1.m_SamplesLeft →
        (sampleLoop B (n + 1 + j) t).1.m_SamplesLeft ≠ 0) ∧
      (sampleLoop B (n + 1 + (sampleLoop B (n + 1) t).1.m_SamplesLeft) t).1.m_SamplesLeft
        = 0) := by
  intro r
  refine ⟨(segmentStart_velocity B s values volume_values update_volume h0).1, ?_, ?_, ?_⟩
  · intro calls hlt
    rw [samplesLeft_countdown B r calls (by omega)]
    omega
  · intro calls heq
    rw [samplesLeft_countdown B r calls (by omega)]
    omega
  · intro t n _
    refine ⟨fun j hj => ?_, ?_⟩
    · rw [sampleLoop_countdown B t n j (by omega)]
      omega
    · rw [sampleLoop_countdown B t n _ le_rfl]
      omega

/-- Witness for C19: the example segment has `N = 2`; after one further call
the tracker is still inside the segment, after two it is due for the next
scan. -/
theorem segment_occupies_witness :
    (exampleState.m_SamplesLeft = 0 ∧
      [exampleCall].length < exampleSegment.m_SamplesLeft ∧
      [exampleCall, exampleCall].length = exampleSegment.m_SamplesLeft) ∧
    (processSamples 128 exampleSegment [exampleCall]).m_SamplesLeft ≠ 0 ∧
    (processSamples 128 exampleSegment [exampleCall, exampleCall]).m_SamplesLeft = 0 :=
  have h1 : [exampleCall].length < exampleSegment.m_SamplesLeft := by
    rw [exampleSegment_tracker.1]; simp
  have h2 : [exampleCall, exampleCall].length = exampleSegment.m_SamplesLeft := by
    rw [exampleSegment_tracker.1]; simp
  have h := segment_occupies 128 exampleState exampleWindow (fun _ => 0) true rfl
  ⟨⟨rfl, h1, h2⟩, h.2.1 [exampleCall] h1, h.2.2.1 [exampleCall, exampleCall] h2⟩

/-! ## Envelope buffer -/

theorem tdiv_num_den_of_nonneg (q : ℚ) (hq : 0 ≤ q) : Int.tdiv q.num (q.den : Int) = ⌊q⌋ := by
  rw [Int.tdiv_eq_ediv (Rat.num_nonneg.mpr hq) (Int.natCast_nonneg _), Rat.floor_def]

theorem tdiv_num_den_neg (q : ℚ) (hq : 0 ≤ q) :
    Int.tdiv (-q).num ((-q).den : Int) = -⌊q⌋ := by
  rw [Rat.neg_num, Rat.neg_den, Int.neg_tdiv, tdiv_num_den_of_nonneg q hq]

theorem floor_scaled_bounds (M : ℚ) (hM0 : 0 ≤ M) (hM1 : M ≤ 1) :
    0 ≤ ⌊M * 128⌋ ∧ ⌊M * 128⌋ ≤ 128 := by
  constructor
  · exact Int.floor_nonneg.mpr (by linarith)
  · have h : (⌊M * 128⌋ : ℚ) ≤ M * 128 := Int.floor_le _
    have h2 : (⌊M * 128⌋ : ℚ) ≤ 128 := by linarith
    exact_mod_cast h2

theorem arm_float_to_q7_of_magnitude (M : ℚ) (hM0 : 0 ≤ M) (hM1 : M ≤ 1) :
    arm_float_to_q7 M = if ⌊M * 128⌋ = 128 then 127 else ⌊M * 128⌋ := by
  obtain ⟨h0, h1⟩ := floor_scaled_bounds M hM0 hM1
  simp only [arm_float_to_q7, tdiv_num_den_of_nonneg (M * 128) (by linarith)]
  split_ifs <;> omega

/-- A sample of magnitude `M ≤ 1`, whatever its sign, has the quantised
magnitude of `M`. -/
theorem arm_abs_q7_of_magnitude (x M : ℚ) (hM0 : 0 ≤ M) (hM1 : M ≤ 1) (hx : |x| = M) :
    arm_abs_q7 (arm_float_to_q7 x) = arm_float_to_q7 M := by
  obtain ⟨h0, h1⟩ := floor_scaled_bounds M hM0 hM1
  rw [arm_float_to_q7_of_magnitude M hM0 hM1]
  rcases abs_eq hM0 |>.mp hx with h | h
  · rw [h, arm_float_to_q7_of_magnitude M hM0 hM1]
    simp only [arm_abs_q7]
    split_ifs <;> omega
  · have hq : x * 128 = -(M * 128) := by rw [h]; ring
    simp only [arm_float_to_q7, arm_abs_q7, hq, tdiv_num_den_neg (M * 128) (by linarith)]
    split_ifs <;> omega

theorem arm_q7_error (M : ℚ) (hM0 : 0 ≤ M) (hM1 : M ≤ 1) :
    |arm_q7_to_float (arm_float_to_q7 M) - M| ≤ 1 / 128 := by
  have hl : (⌊M * 128⌋ : ℚ) ≤ M * 128 := Int.floor_le _
  have hu : M * 128 < (⌊M * 128⌋ : ℚ) + 1 := Int.lt_floor_add_one _
  rw [arm_float_to_q7_of_magnitude M hM0 hM1, arm_q7_to_float, abs_le]
  split_ifs with hk
  · have hk' : (⌊M * 128⌋ : ℚ) = 128 := by exact_mod_cast hk
    push_cast
    constructor <;> linarith
  · constructor <;> linarith

theorem arm_max_q7_const (pSrc : Nat → Int) (blockSize : Nat) (c : Int) (h : 1 ≤ blockSize)
    (hc : ∀ i, i < blockSize → pSrc i = c) : arm_max_q7 pSrc blockSize = c := by
  obtain ⟨⟨i, hi, he⟩, _⟩ := arm_max_q7_spec pSrc blockSize h
  rw [← he, hc i hi]

theorem volumeLoop_length (B : Nat) (buf_c0 : Nat → ℚ) (size : Nat) (vol : List Int) :
    (volumeLoop B buf_c0 size vol).length = vol.length := by
  unfold volumeLoop
  generalize (size + (VOLUME_BUFFER_RESOLUTION - 1)) / VOLUME_BUFFER_RESOLUTION = count
  induction count with
  | zero => rfl
  | succ n ih => rw [List.range_succ, List.foldl_append, List.foldl_cons, List.foldl_nil,
      List.length_set, ih]

/-- Entry `j` of the envelope buffer after the envelope loop. -/
theorem volumeLoop_getElem? (B : Nat) (buf_c0 : Nat → ℚ) (size : Nat) (vol : List Int)
    (j : Nat) :
    (volumeLoop B buf_c0 size vol)[j]? =
      if VOLUME_BUFFER_SIZE B ≤ j ∧
          j < VOLUME_BUFFER_SIZE B +
            (size + (VOLUME_BUFFER_RESOLUTION - 1)) / VOLUME_BUFFER_RESOLUTION ∧
          j < vol.length
      then some (groupPeak buf_c0 (j - VOLUME_BUFFER_SIZE B)) else vol[j]? := by
  have hlen := volumeLoop_length B buf_c0
  unfold volumeLoop at hlen ⊢
  generalize (size + (VOLUME_BUFFER_RESOLUTION - 1)) / VOLUME_BUFFER_RESOLUTION = count
  induction count with
  | zero =>
    have : ¬ (VOLUME_BUFFER_SIZE B ≤ j ∧ j < VOLUME_BUFFER_SIZE B + 0 ∧ j < vol.length) := by
      omega
    rw [if_neg this]
    rfl
  | succ n ih =>
    rw [List.range_succ, List.foldl_append, List.foldl_cons, List.foldl_nil,
      List.getElem?_set, ih]
    have hl : (List.foldl (fun v g => v.set (VOLUME_BUFFER_SIZE B + g) (groupPeak buf_c0 g))
        vol (List.range n)).length = vol.length := by
      clear ih
      induction n with
      | zero => rfl
      | succ m ihm => rw [List.range_succ, List.foldl_append, List.foldl_cons, List.foldl_nil,
          List.length_set, ihm]
    rw [hl]
    by_cases h1 : VOLUME_BUFFER_SIZE B + n = j
    · rw [if_pos h1]
      by_cases h2 : VOLUME_BUFFER_SIZE B + n < vol.length
      · have h3 : VOLUME_BUFFER_SIZE B ≤ j ∧ j < VOLUME_BUFFER_SIZE B + (n + 1) ∧
            j < vol.length := by omega
        have h4 : j - VOLUME_BUFFER_SIZE B = n := by omega
        rw [if_pos h2, if_pos h3, h4]
      · have h3 : ¬ (VOLUME_BUFFER_SIZE B ≤ j ∧ j < VOLUME_BUFFER_SIZE B + (n + 1) ∧
            j < vol.length) := by omega
        rw [if_neg h2, if_neg h3, List.getElem?_eq_none (by omega)]
    · rw [if_neg h1]
      by_cases h3 : VOLUME_BUFFER_SIZE B ≤ j ∧ j < VOLUME_BUFFER_SIZE B + n ∧ j < vol.length
      · have h4 : VOLUME_BUFFER_SIZE B ≤ j ∧ j < VOLUME_BUFFER_SIZE B + (n + 1) ∧
            j < vol.length := by omega
        rw [if_pos h3, if_pos h4]
      · have h4 : ¬ (VOLUME_BUFFER_SIZE B ≤ j ∧ j < VOLUME_BUFFER_SIZE B + (n + 1) ∧
            j < vol.length) := by omega
        rw [if_neg h3, if_neg h4]

theorem processAudio_volumeBuffer (B : Nat) (s : NESPatch) (params : Nat → ℚ)
    (block : List ℚ) :
    (processAudio B s params block).1.m_VolumeBuffer =
      volumeLoop B (fun i => block.getD i 0) block.length
        (arm_copy_within 0 (block.length / VOLUME_BUFFER_RESOLUTION) 0 (VOLUME_BUFFER_SIZE B) 0
          s.m_VolumeBuffer) := by
  rw [processAudio_eq, (sampleLoop_buffers B _ _).2]
  rfl

theorem getD_mem_of_lt (block : List ℚ) (i : Nat) (h : i < block.length) :
    block.getD i 0 ∈ block := by
  rw [List.getD_eq_getElem?_getD, List.getElem?_eq_getElem h, Option.getD_some]
  exact List.getElem_mem h

/-- C13: envelope correctness.  When `processAudio` is given a block of
`AUDIO_BLOCK_SIZE` samples that all have magnitude `M` in `[0,1]` (any signs),
each of the `block_size/4` envelope entries written at indices
`VOLUME_BUFFER_SIZE + g` equals the q7 quantisation of `M`, which is the
maximum of `|q7(sample)|` over the group of 4, and its dequantised value
differs from `M` by at most `1/128`. -/
theorem envelope_constant_magnitude (B : Nat) (s : NESPatch) (params : Nat → ℚ)
    (block : List ℚ) (M : ℚ) (g : Nat)
    (hs : s.m_VolumeBuffer.length = volumeBufferLength B) (hb : block.length = B)
    (hM0 : 0 ≤ M) (hM1 : M ≤ 1) (hmag : ∀ x ∈ block, |x| = M)
    (hg : g < B / VOLUME_BUFFER_RESOLUTION) :
    (processAudio B s params block).1.m_VolumeBuffer[VOLUME_BUFFER_SIZE B + g]? =
      some (arm_float_to_q7 M) ∧
    groupPeak (fun i => block.getD i 0) g = arm_float_to_q7 M ∧
    |arm_q7_to_float (arm_float_to_q7 M) - M| ≤ 1 / 128 := by
  have hR : VOLUME_BUFFER_RESOLUTION = 4 := rfl
  rw [hR] at hg
  have hpeak : groupPeak (fun i => block.getD i 0) g = arm_float_to_q7 M := by
    unfold groupPeak
    apply arm_max_q7_const _ _ _ (by rw [hR]; norm_num)
    intro j hj
    rw [hR] at hj ⊢
    exact arm_abs_q7_of_magnitude _ M hM0 hM1
      (hmag _ (getD_mem_of_lt block (g * 4 + j) (by omega)))
  refine ⟨?_, hpeak, arm_q7_error M hM0 hM1⟩
  rw [processAudio_volumeBuffer, volumeLoop_getElem?, arm_copy_within_length, hs, hb,
    if_pos, Nat.add_sub_cancel_left, hpeak]
  unfold volumeBufferLength VOLUME_BUFFER_SIZE
  rw [hR]
  omega

/-- Witness for C13: a block of 128 samples of magnitude `1/2` with alternating
signs, on a fresh instance with `AUDIO_BLOCK_SIZE = 128`. -/
theorem envelope_constant_magnitude_witness :
    ((fresh 128).m_VolumeBuffer.length = volumeBufferLength 128 ∧
      (List.map (fun i : Nat => if i % 2 = 0 then (1 : ℚ) / 2 else -(1 / 2))
        (List.range 128)).length = 128 ∧
      (0 : ℚ) ≤ 1 / 2 ∧ (1 : ℚ) / 2 ≤ 1 ∧
      (∀ x ∈ List.map (fun i : Nat => if i % 2 = 0 then (1 : ℚ) / 2 else -(1 / 2))
        (List.range 128), |x| = 1 / 2) ∧
      3 < 128 / VOLUME_BUFFER_RESOLUTION) ∧
    (processAudio 128 (fresh 128) (fun _ => 0)
      (List.map (fun i : Nat => if i % 2 = 0 then (1 : ℚ) / 2 else -(1 / 2))
        (List.range 128))).1.m_VolumeBuffer[VOLUME_BUFFER_SIZE 128 + 3]? =
      some (arm_float_to_q7 (1 / 2)) := by
  have h1 : (fresh 128).m_VolumeBuffer.length = volumeBufferLength 128 := by
    simp only [fresh, List.length_replicate]
  have h2 : (List.map (fun i : Nat => if i % 2 = 0 then (1 : ℚ) / 2 else -(1 / 2))
      (List.range 128)).length = 128 := by
    rw [List.length_map, List.length_range]
  have h3 : ∀ x ∈ List.map (fun i : Nat => if i % 2 = 0 then (1 : ℚ) / 2 else -(1 / 2))
      (List.range 128), |x| = 1 / 2 := by
    intro x hx
    obtain ⟨i, _, rfl⟩ := List.mem_map.mp hx
    split_ifs
    · norm_num
    · rw [abs_neg]; norm_num
  have h4 : 3 < 128 / VOLUME_BUFFER_RESOLUTION := by decide
  exact ⟨⟨h1, h2, by norm_num, by norm_num, h3, h4⟩,
    (envelope_constant_magnitude 128 (fresh 128) (fun _ => 0) _ (1 / 2) 3 h1 h2
      (by norm_num) (by norm_num) h3 h4).1⟩

/-! ## The first block on a fresh instance -/

set_option maxRecDepth 100000 in
theorem land_mask_eq : ∀ x : Nat, x < 481 → x &&& 0xFFFFFFFC = x / 4 * 4 := by decide

theorem DELAY_BUFFER_SIZE_eq (B : Nat) : DELAY_BUFFER_SIZE B = (480 - B) / 4 * 4 :=
  land_mask_eq (480 - B) (by omega)

theorem getD_set_zero {α : Type} (zero : α) (buf : List α) (k : Nat)
    (h : ∀ j, buf.getD j zero = zero) : ∀ j, (buf.set k zero).getD j zero = zero := by
  intro j
  have hj := h j
  rw [List.getD_eq_getElem?_getD] at hj ⊢
  rw [List.getElem?_set]
  split_ifs
  · rfl
  · rfl
  · exact hj

theorem arm_copy_within_zero {α : Type} (zero : α) (src dst : Nat) :
    ∀ (count start : Nat) (buf : List α), (∀ j, buf.getD j zero = zero) →
      ∀ j, (arm_copy_within zero src dst count start buf).getD j zero = zero := by
  intro count
  induction count with
  | zero => intro start buf h; exact h
  | succ count ih =>
    intro start buf h
    rw [arm_copy_within, h (src + start)]
    exact ih (start + 1) _ (getD_set_zero zero buf _ h)

theorem arm_copy_from_zero {α : Type} (zero : α) (pSrc : Nat → α) (dst : Nat)
    (hp : ∀ i, pSrc i = zero) :
    ∀ (count start : Nat) (buf : List α), (∀ j, buf.getD j zero = zero) →
      ∀ j, (arm_copy_from pSrc dst count start buf).getD j zero = zero := by
  intro count
  induction count with
  | zero => intro start buf h; exact h
  | succ count ih =>
    intro start buf h
    rw [arm_copy_from, hp start]
    exact ih (start + 1) _ (getD_set_zero zero buf _ h)

theorem getD_replicate_zero {α : Type} (zero : α) (n j : Nat) :
    (List.replicate n zero).getD j zero = zero := by
  rw [List.getD_eq_getElem?_getD, List.getElem?_replicate]
  split_ifs <;> rfl

theorem loopState_fields (B : Nat) (s : NESPatch) (params : Nat → ℚ) (block : List ℚ) :
    (loopState B s params block).m_SamplesLeft = s.m_SamplesLeft ∧
    (loopState B s params block).m_AttackStrength = s.m_AttackStrength ∧
    (loopState B s params block).m_TriangleParam = MapParam (params 0) 0 1 ∧
    (loopState B s params block).m_SawParam = MapParam (params 1) (1 / 2) 1 ∧
    (loopState B s params block).m_AttackParam = MapParam (params 2) 0 2 ∧
    (loopState B s params block).m_Position = s.m_Position ∧
    (loopState B s params block).m_Velocity = s.m_Velocity :=
  ⟨rfl, rfl, rfl, rfl, rfl, rfl, rfl⟩

theorem loopState_buffer_getElem? (B : Nat) (s : NESPatch) (params : Nat → ℚ)
    (block : List ℚ) (hs : s.m_Buffer.length = bufferLength B) (hb : block.length = B)
    (j : Nat) :
    (loopState B s params block).m_Buffer[j]? =
      if j < DELAY_BUFFER_SIZE B then s.m_Buffer[j + B]?
      else if j < DELAY_BUFFER_SIZE B + B then block[j - DELAY_BUFFER_SIZE B]?
      else s.m_Buffer[j]? := by
  have h := processAudio_buffer_getElem? B s params block hs hb j
  rw [processAudio_eq, (sampleLoop_buffers B _ _).1] at h
  exact h

/-- On a fresh instance the envelope entries older than the new block are 0
when the sample loop starts. -/
theorem loopState_fresh_volume (B : Nat) (params : Nat → ℚ) (block : List ℚ) (j : Nat)
    (hj : j < VOLUME_BUFFER_SIZE B) :
    (loopState B (fresh B) params block).m_VolumeBuffer.getD j 0 = 0 := by
  have h0 := arm_copy_within_zero (0 : Int) (block.length / VOLUME_BUFFER_RESOLUTION) 0
    (VOLUME_BUFFER_SIZE B) 0 (fresh B).m_VolumeBuffer
    (fun k => getD_replicate_zero 0 _ k) j
  have h1 : (loopState B (fresh B) params block).m_VolumeBuffer =
      volumeLoop B (fun i => block.getD i 0) block.length
        (arm_copy_within 0 (block.length / VOLUME_BUFFER_RESOLUTION) 0 (VOLUME_BUFFER_SIZE B) 0
          (fresh B).m_VolumeBuffer) := rfl
  rw [h1, List.getD_eq_getElem?_getD, volumeLoop_getElem?, if_neg (by omega),
    ← List.getD_eq_getElem?_getD]
  exact h0

/-- On a fresh instance the first `DELAY_BUFFER_SIZE` entries of the history
are 0 when the sample loop starts. -/
theorem loopState_fresh_buffer (B : Nat) (params : Nat → ℚ) (block : List ℚ)
    (hb : block.length = B) (j : Nat) (hj : j < DELAY_BUFFER_SIZE B) :
    (loopState B (fresh B) params block).m_Buffer.getD j 0 = 0 := by
  have hs : (fresh B).m_Buffer.length = bufferLength B := by
    simp only [fresh, List.length_replicate]
  rw [List.getD_eq_getElem?_getD, loopState_buffer_getElem? B (fresh B) params block hs hb,
    if_pos hj, ← List.getD_eq_getElem?_getD]
  exact getD_replicate_zero 0 _ _

theorem processSample_strength (B : Nat) (a : NESPatch) (values : Nat → ℚ)
    (volume_values : Nat → Int) (update_volume : Bool) :
    (processSample B a values volume_values update_volume).1.m_AttackStrength =
      if a.m_AttackParam > 0 ∧ update_volume = true then attackStrength B volume_values
      else a.m_AttackStrength := by
  simp only [processSample, segmentStart, inSegment]
  split_ifs <;> rfl

theorem processSample_output (B : Nat) (a : NESPatch) (values : Nat → ℚ)
    (volume_values : Nat → Int) (update_volume : Bool) :
    (processSample B a values volume_values update_volume).2 =
      Lerp
        ((processSample B a values volume_values update_volume).1.m_AttackStrength *
          (processSample B a values volume_values update_volume).1.m_AttackParam)
        (processSample B a values volume_values update_volume).1.m_Position
        ((RandomUnit a.m_RandomState).2 *
          (processSample B a values volume_values update_volume).1.m_AttackStrength) := by
  simp only [processSample, segmentStart, inSegment]
  split_ifs <;> rfl

theorem processSample_shape (B : Nat) (a : NESPatch) (values : Nat → ℚ)
    (volume_values : Nat → Int) (update_volume : Bool) :
    (processSample B a values volume_values update_volume).1.m_TriangleParam =
        a.m_TriangleParam ∧
      (processSample B a values volume_values update_volume).1.m_SawParam = a.m_SawParam := by
  simp only [processSample, segmentStart, inSegment]
  split_ifs <;> exact ⟨rfl, rfl⟩

/-- With no attack strength the value returned is the position. -/
theorem output_of_strength_zero (B : Nat) (a : NESPatch) (values : Nat → ℚ)
    (volume_values : Nat → Int) (update_volume : Bool)
    (h : (processSample B a values volume_values update_volume).1.m_AttackStrength = 0) :
    (processSample B a values volume_values update_volume).2 =
      (processSample B a values volume_values update_volume).1.m_Position := by
  rw [processSample_output, h, zero_mul, mul_zero]
  simp only [Lerp, Clamp01_of_nonpos (le_refl (0 : ℚ)), mul_zero, add_zero]

/-- The attack detector returns 0 on a span whose entries are all 0. -/
theorem attackStrength_zero (B : Nat) (volume_values : Nat → Int)
    (hUSE : 6 ≤ USE_VOLUME_BUFFER_SIZE B)
    (hz : ∀ i, i < USE_VOLUME_BUFFER_SIZE B → volume_values i = 0) :
    attackStrength B volume_values = 0 := by
  have hAW : 1 ≤ ATTACK_WINDOW B := by unfold ATTACK_WINDOW; omega
  have hAW' : ATTACK_WINDOW B ≤ USE_VOLUME_BUFFER_SIZE B := Nat.div_le_self _ _
  have hDW : 1 ≤ DELAY_WINDOW B := by unfold DELAY_WINDOW ATTACK_WINDOW; omega
  have hsum : DELAY_WINDOW B + ATTACK_WINDOW B = USE_VOLUME_BUFFER_SIZE B := by
    unfold DELAY_WINDOW; omega
  rw [attackStrength_eq,
    arm_max_q7_const _ _ 0 hAW (fun i hi => hz _ (by omega)),
    arm_max_q7_const _ _ 0 hDW (fun i hi => hz _ (by omega))]
  norm_num

theorem scanLoop_zero_window (B : Nat) (w : Nat → ℚ) (hD : 1 ≤ DELAY_BUFFER_SIZE B)
    (hw : ∀ i, i < DELAY_BUFFER_SIZE B → w i = 0) :
    scanLoop w (decide (w 0 > 0)) (DELAY_BUFFER_SIZE B - 1) 1 (w 0) =
      (DELAY_BUFFER_SIZE B, 0) := by
  rw [scanLoop_segmentStart B w (DELAY_BUFFER_SIZE B) hD le_rfl
    (fun i hi => by rw [hw i hi, hw 0 (by omega)]) (Or.inl rfl)]
  congr 1
  exact Finset.sum_eq_zero (fun i hi => hw i (Finset.mem_range.mp hi))

/-- The first segment on a zero history.  If the sample loop starts with
`m_SamplesLeft = 0`, no attack strength, zeros in the first
`DELAY_BUFFER_SIZE` history entries and in the envelope entries older than the
new block, then the first scan covers `DELAY_BUFFER_SIZE` zeros and the first
`DELAY_BUFFER_SIZE + 1` output samples (as far as the block reaches) are 0. -/
theorem first_segment_zero (B : Nat) (s : NESPatch) (hs0 : s.m_SamplesLeft = 0)
    (hstr : s.m_AttackStrength = 0)
    (hbuf : ∀ i, i < DELAY_BUFFER_SIZE B → s.m_Buffer.getD i 0 = 0)
    (hvol : ∀ j, j < VOLUME_BUFFER_SIZE B → s.m_VolumeBuffer.getD j 0 = 0)
    (hUSE : 6 ≤ USE_VOLUME_BUFFER_SIZE B) (hD : 1 ≤ DELAY_BUFFER_SIZE B) :
    ∀ n : Nat, n ≤ DELAY_BUFFER_SIZE B + 1 → n ≤ B →
      (sampleLoop B n s).2 = List.replicate n 0 ∧
      (sampleLoop B n s).1.m_AttackStrength = 0 ∧
      (sampleLoop B n s).1.m_TriangleParam = s.m_TriangleParam ∧
      (sampleLoop B n s).1.m_SawParam = s.m_SawParam ∧
      (sampleLoop B n s).1.m_AttackParam = s.m_AttackParam ∧
      (n = 0 → (sampleLoop B n s).1.m_SamplesLeft = 0) ∧
      (1 ≤ n → (sampleLoop B n s).1.m_SamplesLeft + n = DELAY_BUFFER_SIZE B + 1 ∧
        (sampleLoop B n s).1.m_Position = 0 ∧ (sampleLoop B n s).1.m_Velocity = 0) := by
  intro n
  induction n with
  | zero =>
    intro _ _
    exact ⟨rfl, hstr, rfl, rfl, rfl, fun _ => hs0, fun h => absurd h (by omega)⟩
  | succ n ih =>
    intro h1 h2
    obtain ⟨iout, istr, itri, isaw, iatt, i0, i1⟩ := ih (by omega) (by omega)
    have hstr' : (processSample B (sampleLoop B n s).1 (fun i => s.m_Buffer.getD (n + i) 0)
        (fun i => s.m_VolumeBuffer.getD (n / VOLUME_BUFFER_RESOLUTION + i) 0)
        (n % VOLUME_BUFFER_RESOLUTION == 0)).1.m_AttackStrength = 0 := by
      rw [processSample_strength]
      split_ifs
      · apply attackStrength_zero B _ hUSE
        intro i hi
        apply hvol
        simp only [USE_VOLUME_BUFFER_SIZE, VOLUME_BUFFER_RESOLUTION] at hi hUSE ⊢
        omega
      · exact istr
    have ht := processSample_tracker B (sampleLoop B n s).1
      (fun i => s.m_Buffer.getD (n + i) 0)
      (fun i => s.m_VolumeBuffer.getD (n / VOLUME_BUFFER_RESOLUTION + i) 0)
      (n % VOLUME_BUFFER_RESOLUTION == 0)
    have hsh := processSample_shape B (sampleLoop B n s).1
      (fun i => s.m_Buffer.getD (n + i) 0)
      (fun i => s.m_VolumeBuffer.getD (n / VOLUME_BUFFER_RESOLUTION + i) 0)
      (n % VOLUME_BUFFER_RESOLUTION == 0)
    have htr : (processSample B (sampleLoop B n s).1 (fun i => s.m_Buffer.getD (n + i) 0)
        (fun i => s.m_VolumeBuffer.getD (n / VOLUME_BUFFER_RESOLUTION + i) 0)
        (n % VOLUME_BUFFER_RESOLUTION == 0)).1.m_SamplesLeft + (n + 1) =
          DELAY_BUFFER_SIZE B + 1 ∧
        (processSample B (sampleLoop B n s).1 (fun i => s.m_Buffer.getD (n + i) 0)
        (fun i => s.m_VolumeBuffer.getD (n / VOLUME_BUFFER_RESOLUTION + i) 0)
        (n % VOLUME_BUFFER_RESOLUTION == 0)).1.m_Position = 0 ∧
        (processSample B (sampleLoop B n s).1 (fun i => s.m_Buffer.getD (n + i) 0)
        (fun i => s.m_VolumeBuffer.getD (n / VOLUME_BUFFER_RESOLUTION + i) 0)
        (n % VOLUME_BUFFER_RESOLUTION == 0)).1.m_Velocity = 0 := by
      rcases Nat.eq_zero_or_pos n with hn | hn
      · subst hn
        simp only [i0 rfl, if_true] at ht
        rw [ht.1, ht.2.2.1, ht.2.2.2.1]
        simp only [segmentStart, Lerp,
          scanLoop_zero_window B (fun i => s.m_Buffer.getD (0 + i) 0) hD
            (fun i hi => by simp only [Nat.zero_add]; exact hbuf i hi)]
        refine ⟨trivial, ?_, ?_⟩ <;> simp
      · obtain ⟨j1, j2, j3⟩ := i1 hn
        have hm : (sampleLoop B n s).1.m_SamplesLeft ≠ 0 := by omega
        simp only [if_neg hm] at ht
        have hno : ¬ (((sampleLoop B n s).1.m_Velocity > 0 ∧
            (sampleLoop B n s).1.m_Position + (sampleLoop B n s).1.m_Velocity ≥
              (sampleLoop B n s).1.m_TargetPosition) ∨
            ((sampleLoop B n s).1.m_Velocity < 0 ∧
            (sampleLoop B n s).1.m_Position + (sampleLoop B n s).1.m_Velocity ≤
              (sampleLoop B n s).1.m_TargetPosition)) := by
          rw [j3]
          simp
        obtain ⟨k1, k2, _, k4, _⟩ := inSegment_no_trigger _ hno
        rw [ht.1, ht.2.2.1, ht.2.2.2.1, k1, k2, k4, j2, j3]
        refine ⟨by omega, by norm_num, rfl⟩
    rw [sampleLoop_succ]
    refine ⟨?_, hstr', hsh.1.trans itri, hsh.2.trans isaw,
      (processSample_attackParam B _ _ _ _).trans iatt, fun h => absurd h (by omega),
      fun _ => htr⟩
    rw [output_of_strength_zero B _ _ _ _ hstr', htr.2.1, iout, List.replicate_succ']

theorem first_block_zero (B : Nat) (params : Nat → ℚ) (block : List ℚ)
    (hb : block.length = B) (hBD : B ≤ DELAY_BUFFER_SIZE B + 1)
    (hUSE : 6 ≤ USE_VOLUME_BUFFER_SIZE B) (hD : 1 ≤ DELAY_BUFFER_SIZE B) :
    (processAudio B (fresh B) params block).2 = List.replicate B 0 := by
  rw [processAudio_eq, hb]
  exact (first_segment_zero B (loopState B (fresh B) params block) rfl rfl
    (fun i hi => loopState_fresh_buffer B params block hb i hi)
    (fun j hj => loopState_fresh_volume B params block j hj) hUSE hD B hBD le_rfl).1

theorem config_of_block_le_delay (B : Nat) (hBD : B ≤ DELAY_BUFFER_SIZE B) :
    6 ≤ USE_VOLUME_BUFFER_SIZE B ∧ 1 ≤ DELAY_BUFFER_SIZE B := by
  have hD := DELAY_BUFFER_SIZE_eq B
  simp only [USE_VOLUME_BUFFER_SIZE, VOLUME_BUFFER_SIZE, VOLUME_BUFFER_RESOLUTION]
  omega

/-- C20: first-block latency.  On a freshly constructed instance with
`AUDIO_BLOCK_SIZE ≤ DELAY_BUFFER_SIZE`, the first call to `processAudio`
overwrites the block with zeros, for every input block and every parameter
setting. -/
theorem first_block_latency (B : Nat) (params : Nat → ℚ) (block : List ℚ)
    (hb : block.length = B) (hBD : B ≤ DELAY_BUFFER_SIZE B) :
    (processAudio B (fresh B) params block).2 = List.replicate B 0 :=
  first_block_zero B params block hb (by omega) (config_of_block_le_delay B hBD).1
    (config_of_block_le_delay B hBD).2

/-- Witness for C20: `AUDIO_BLOCK_SIZE = 128` and a block of 128 ones. -/
theorem first_block_latency_witness :
    ((List.replicate 128 (1 : ℚ)).length = 128 ∧ 128 ≤ DELAY_BUFFER_SIZE 128) ∧
    (processAudio 128 (fresh 128) (fun _ => 1) (List.replicate 128 1)).2 =
      List.replicate 128 0 :=
  ⟨⟨List.length_replicate _ _, by decide⟩,
    first_block_latency 128 (fun _ => 1) (List.replicate 128 1) (List.length_replicate _ _)
      (by decide)⟩

/-! ## Silence -/

theorem scanLoop_area_zero (w : Nat → ℚ) (positive : Bool) (hw : ∀ i, w i = 0) :
    ∀ (room n : Nat), (scanLoop w positive room n 0).2 = 0 := by
  intro room
  induction room with
  | zero => intro n; rfl
  | succ room ih =>
    intro n
    simp only [scanLoop]
    split_ifs
    · rfl
    · rw [hw n, add_zero]
      exact ih (n + 1)

/-- On an all-zero history with attack amount 0, a tracker at rest at
position 0 stays there and every output sample is 0. -/
theorem silent_loop (B : Nat) (s : NESPatch) (hA : s.m_AttackParam = 0)
    (hbuf : ∀ i, s.m_Buffer.getD i 0 = 0) (hp : s.m_Position = 0) (hv : s.m_Velocity = 0) :
    ∀ n : Nat,
      (sampleLoop B n s).2 = List.replicate n 0 ∧
      (sampleLoop B n s).1.m_AttackParam = 0 ∧
      (sampleLoop B n s).1.m_Position = 0 ∧ (sampleLoop B n s).1.m_Velocity = 0 := by
  intro n
  induction n with
  | zero => exact ⟨rfl, hA, hp, hv⟩
  | succ n ih =>
    obtain ⟨iout, iatt, ipos, ivel⟩ := ih
    have ht := processSample_tracker B (sampleLoop B n s).1
      (fun i => s.m_Buffer.getD (n + i) 0)
      (fun i => s.m_VolumeBuffer.getD (n / VOLUME_BUFFER_RESOLUTION + i) 0)
      (n % VOLUME_BUFFER_RESOLUTION == 0)
    have htr : (processSample B (sampleLoop B n s).1 (fun i => s.m_Buffer.getD (n + i) 0)
        (fun i => s.m_VolumeBuffer.getD (n / VOLUME_BUFFER_RESOLUTION + i) 0)
        (n % VOLUME_BUFFER_RESOLUTION == 0)).1.m_Position = 0 ∧
        (processSample B (sampleLoop B n s).1 (fun i => s.m_Buffer.getD (n + i) 0)
        (fun i => s.m_VolumeBuffer.getD (n / VOLUME_BUFFER_RESOLUTION + i) 0)
        (n % VOLUME_BUFFER_RESOLUTION == 0)).1.m_Velocity = 0 := by
      rw [ht.2.2.1, ht.2.2.2.1]
      split_ifs with hm
      · have h0 : s.m_Buffer.getD (n + 0) 0 = 0 := hbuf _
        have hz := scanLoop_area_zero (fun i => s.m_Buffer.getD (n + i) 0)
          (decide ((0 : ℚ) > 0)) (fun i => hbuf _) (DELAY_BUFFER_SIZE B - 1) 1
        simp only [segmentStart, Lerp, h0, hz]
        constructor <;> simp
      · have hno : ¬ (((sampleLoop B n s).1.m_Velocity > 0 ∧
            (sampleLoop B n s).1.m_Position + (sampleLoop B n s).1.m_Velocity ≥
              (sampleLoop B n s).1.m_TargetPosition) ∨
            ((sampleLoop B n s).1.m_Velocity < 0 ∧
            (sampleLoop B n s).1.m_Position + (sampleLoop B n s).1.m_Velocity ≤
              (sampleLoop B n s).1.m_TargetPosition)) := by
          rw [ivel]
          simp
        obtain ⟨_, k2, _, k4, _⟩ := inSegment_no_trigger _ hno
        rw [k2, k4, ipos, ivel]
        exact ⟨by norm_num, rfl⟩
    have hatt := (processSample_attackParam B (sampleLoop B n s).1
      (fun i => s.m_Buffer.getD (n + i) 0)
      (fun i => s.m_VolumeBuffer.getD (n / VOLUME_BUFFER_RESOLUTION + i) 0)
      (n % VOLUME_BUFFER_RESOLUTION == 0)).trans iatt
    rw [sampleLoop_succ]
    refine ⟨?_, hatt, htr.1, htr.2⟩
    rw [output_eq_position B _ _ _ _ iatt, htr.1, iout, List.replicate_succ']

theorem getD_zero_of_all_zero (block : List ℚ) (hz : ∀ x ∈ block, x = 0) (i : Nat) :
    block.getD i 0 = 0 := by
  rcases Nat.lt_or_ge i block.length with h | h
  · exact hz _ (getD_mem_of_lt block i h)
  · rw [List.getD_eq_getElem?_getD, List.getElem?_eq_none h]
    rfl

/-- C15: end-to-end silence.  On a freshly constructed instance,
`processAudio` on a one-block input of all zeros with attack amount 0
overwrites the block with all zeros. -/
theorem silence (B : Nat) (params : Nat → ℚ) (block : List ℚ)
    (hb : block.length = B) (hz : ∀ x ∈ block, x = 0)
    (hA : MapParam (params 2) 0 2 = 0) :
    (processAudio B (fresh B) params block).2 = List.replicate B 0 := by
  have hbuf : ∀ i, (loopState B (fresh B) params block).m_Buffer.getD i 0 = 0 := by
    have h1 : (loopState B (fresh B) params block).m_Buffer =
        arm_copy_from (fun i => block.getD i 0) (DELAY_BUFFER_SIZE B) block.length 0
          (arm_copy_within 0 block.length 0 (DELAY_BUFFER_SIZE B) 0 (fresh B).m_Buffer) := rfl
    rw [h1]
    exact arm_copy_from_zero 0 _ _ (getD_zero_of_all_zero block hz) _ _ _
      (arm_copy_within_zero 0 _ _ _ _ _ (fun k => getD_replicate_zero 0 _ k))
  rw [processAudio_eq, hb]
  exact (silent_loop B (loopState B (fresh B) params block) hA hbuf rfl rfl B).1

/-- Witness for C15: `AUDIO_BLOCK_SIZE = 128`, a block of 128 zeros and raw
parameters 0 (attack amount 0). -/
theorem silence_witness :
    ((List.replicate 128 (0 : ℚ)).length = 128 ∧
      (∀ x ∈ List.replicate 128 (0 : ℚ), x = 0) ∧
      MapParam ((fun _ : Nat => (0 : ℚ)) 2) 0 2 = 0) ∧
    (processAudio 128 (fresh 128) (fun _ => 0) (List.replicate 128 0)).2 =
      List.replicate 128 0 :=
  have h1 : (List.replicate 128 (0 : ℚ)).length = 128 := List.length_replicate _ _
  have h2 : ∀ x ∈ List.replicate 128 (0 : ℚ), x = 0 := fun _ hx => List.eq_of_mem_replicate hx
  have h3 : MapParam ((fun _ : Nat => (0 : ℚ)) 2) 0 2 = 0 := MapParam_of_nonpos 0 2 le_rfl
  ⟨⟨h1, h2, h3⟩, silence 128 (fun _ => 0) (List.replicate 128 0) h1 h2 h3⟩

/-! ## Square wave -/

theorem squareBlock_length (H : Nat) : (squareBlock H).length = 2 * H := by
  simp only [squareBlock, List.length_append, List.length_replicate]
  omega

theorem squareBlock_getD (H k : Nat) :
    (squareBlock H).getD k 0 = if k < H then 1 else if k < 2 * H then -1 else 0 := by
  rw [List.getD_eq_getElem?_getD, squareBlock]
  by_cases h1 : k < H
  · rw [List.getElem?_append_left (by rw [List.length_replicate]; exact h1),
      List.getElem?_replicate, if_pos h1, if_pos h1]
    rfl
  · rw [List.getElem?_append_right (by rw [List.length_replicate]; omega),
      List.length_replicate, List.getElem?_replicate, if_neg h1]
    by_cases h2 : k < 2 * H
    · rw [if_pos (by omega), if_pos h2]
      rfl
    · rw [if_neg (by omega), if_neg h2]
      rfl

theorem sampleLoop_prefix (B : Nat) (s : NESPatch) (m : Nat) :
    ∀ k i : Nat, i < m → (sampleLoop B (m + k) s).2[i]? = (sampleLoop B m s).2[i]? := by
  intro k
  induction k with
  | zero => intro i _; rfl
  | succ k ih =>
    intro i hi
    rw [← Nat.add_assoc, sampleLoop_succ,
      List.getElem?_append_left (by rw [sampleLoop_length]; omega), ih i hi]

/-- The attack strength stays 0 while the attack windows only cover envelope
entries that are 0. -/
theorem strength_stays_zero (B : Nat) (a : NESPatch) (values : Nat → ℚ) (vol : List Int)
    (n : Nat) (update_volume : Bool) (ha : a.m_AttackStrength = 0) (hn : n < B)
    (hvol : ∀ j, j < VOLUME_BUFFER_SIZE B → vol.getD j 0 = 0)
    (hUSE : 6 ≤ USE_VOLUME_BUFFER_SIZE B) :
    (processSample B a values (fun i => vol.getD (n / VOLUME_BUFFER_RESOLUTION + i) 0)
      update_volume).1.m_AttackStrength = 0 := by
  rw [processSample_strength]
  split_ifs
  · apply attackStrength_zero B _ hUSE
    intro i hi
    apply hvol
    simp only [USE_VOLUME_BUFFER_SIZE, VOLUME_BUFFER_RESOLUTION] at hi hUSE ⊢
    omega
  · exact ha

/-- The segment start on a window holding `N ≥ 1` samples `+1` followed by a
sample that is not positive, with triangle shape 0: target and position are
both 1. -/
theorem segmentStart_unit_run (B : Nat) (a : NESPatch) (w : Nat → ℚ) (N : Nat)
    (hN1 : 1 ≤ N) (hND : N ≤ DELAY_BUFFER_SIZE B) (hrun : ∀ i, i < N → w i = 1)
    (hend : ¬ (w N > 0)) (htri : a.m_TriangleParam = 0) :
    (segmentStart B a w).m_SamplesLeft = N ∧ (segmentStart B a w).m_TargetPosition = 1 ∧
      (segmentStart B a w).m_Position = 1 := by
  have hw0 : w 0 > 0 := by rw [hrun 0 (by omega)]; norm_num
  have hscan := scanLoop_segmentStart B w N hN1 hND
    (fun i hi => by
      rw [hrun i hi, hrun 0 (by omega)])
    (Or.inr (fun h => hend (h.mpr hw0)))
  have hsum : (∑ i in Finset.range N, w i) = (N : ℚ) := by
    rw [Finset.sum_congr rfl (fun i hi => hrun i (Finset.mem_range.mp hi))]
    simp
  have hNq : (N : ℚ) ≠ 0 := by
    have : (1 : ℚ) ≤ (N : ℚ) := by exact_mod_cast hN1
    linarith
  simp only [segmentStart, hscan, hsum, htri, Lerp, div_self hNq,
    Clamp01_of_nonpos (le_refl (0 : ℚ))]
  refine ⟨trivial, trivial, by norm_num⟩

/-- C14 as stated fails: with `AUDIO_BLOCK_SIZE = 128`, a fresh instance,
triangle shape 0 and saw skew `1/2` (raw parameters 0), the output for a block
holding one full-scale square-wave cycle has no sample of magnitude 1; it is
all zeros. -/
theorem square_wave_first_block_silent :
    MapParam ((fun _ : Nat => (0 : ℚ)) 0) 0 1 = 0 ∧
    MapParam ((fun _ : Nat => (0 : ℚ)) 1) (1 / 2) 1 = 1 / 2 ∧
    (squareBlock 64).length = 128 ∧
    ¬ ∃ x ∈ (processAudio 128 (fresh 128) (fun _ => 0) (squareBlock 64)).2, |x| = 1 := by
  refine ⟨MapParam_of_nonpos 0 1 le_rfl, MapParam_of_nonpos (1 / 2) 1 le_rfl,
    squareBlock_length 64, ?_⟩
  rw [first_block_zero 128 (fun _ => 0) (squareBlock 64) (squareBlock_length 64) (by decide)
    (by decide) (by decide)]
  rintro ⟨x, hx, hx1⟩
  rw [List.eq_of_mem_replicate hx] at hx1
  norm_num at hx1

/-- C14, amended.  On a fresh instance, with a non-empty attack window, the
block holding one full-scale square-wave cycle (`AUDIO_BLOCK_SIZE = 2 * H`),
triangle shape 0 and saw skew `1/2`: if
`AUDIO_BLOCK_SIZE ≤ DELAY_BUFFER_SIZE + 1` the output block is all zeros; if
`DELAY_BUFFER_SIZE + 1 < AUDIO_BLOCK_SIZE`, output samples
`0 .. DELAY_BUFFER_SIZE` are 0 and output sample `DELAY_BUFFER_SIZE + 1` is 1,
the segment started there having target 1 (the average magnitude of the
half-cycle), position 1, run length `H - 1` and equal leg lengths
`up_samples = down_samples`. -/
theorem square_wave (B H : Nat) (params : Nat → ℚ) (hB : B = 2 * H) (hH : 2 ≤ H)
    (hUSE : 6 ≤ USE_VOLUME_BUFFER_SIZE B)
    (htri : MapParam (params 0) 0 1 = 0) (hsaw : MapParam (params 1) (1 / 2) 1 = 1 / 2) :
    (B ≤ DELAY_BUFFER_SIZE B + 1 →
      (processAudio B (fresh B) params (squareBlock H)).2 = List.replicate B 0) ∧
    (DELAY_BUFFER_SIZE B + 1 < B →
      (∀ n, n ≤ DELAY_BUFFER_SIZE B →
        (processAudio B (fresh B) params (squareBlock H)).2[n]? = some 0) ∧
      (processAudio B (fresh B) params (squareBlock H)).2[DELAY_BUFFER_SIZE B + 1]? = some 1 ∧
      let a := (sampleLoop B (DELAY_BUFFER_SIZE B + 2)
        (loopState B (fresh B) params (squareBlock H))).1
      let f := if a.m_TargetPosition > a.m_Position then a.m_SawParam else 1 - a.m_SawParam
      a.m_TargetPosition = 1 ∧ a.m_Position = 1 ∧ a.m_SamplesLeft = H - 1 ∧
        max 1 ((a.m_SamplesLeft : ℚ) * f) = max 1 ((a.m_SamplesLeft : ℚ) * (1 - f))) := by
  have hb : (squareBlock H).length = B := by rw [squareBlock_length, hB]
  have hD : 1 ≤ DELAY_BUFFER_SIZE B := by
    simp only [USE_VOLUME_BUFFER_SIZE, VOLUME_BUFFER_SIZE, VOLUME_BUFFER_RESOLUTION] at hUSE
    omega
  have hHD : H - 1 ≤ DELAY_BUFFER_SIZE B := by
    simp only [USE_VOLUME_BUFFER_SIZE, VOLUME_BUFFER_SIZE, VOLUME_BUFFER_RESOLUTION] at hUSE
    omega
  refine ⟨fun hBD => first_block_zero B params (squareBlock H) hb hBD hUSE hD, ?_⟩
  intro hcfg
  have hs : (fresh B).m_Buffer.length = bufferLength B := by
    simp only [fresh, List.length_replicate]
  have hvol : ∀ j, j < VOLUME_BUFFER_SIZE B →
      (loopState B (fresh B) params (squareBlock H)).m_VolumeBuffer.getD j 0 = 0 :=
    fun j hj => loopState_fresh_volume B params (squareBlock H) j hj
  obtain ⟨hout, hstr, htri', hsaw', _, _, h1⟩ :=
    first_segment_zero B (loopState B (fresh B) params (squareBlock H)) rfl rfl
      (fun i hi => loopState_fresh_buffer B params (squareBlock H) hb i hi) hvol hUSE hD
      (DELAY_BUFFER_SIZE B + 1) le_rfl (by omega)
  have hm : (sampleLoop B (DELAY_BUFFER_SIZE B + 1)
      (loopState B (fresh B) params (squareBlock H))).1.m_SamplesLeft = 0 := by
    have := (h1 (by omega)).1
    omega
  have hwin : ∀ i, i + 1 < B →
      (loopState B (fresh B) params (squareBlock H)).m_Buffer.getD
        (DELAY_BUFFER_SIZE B + 1 + i) 0 = (squareBlock H).getD (1 + i) 0 := by
    intro i hi
    have he : DELAY_BUFFER_SIZE B + 1 + i - DELAY_BUFFER_SIZE B = 1 + i := by omega
    rw [List.getD_eq_getElem?_getD,
      loopState_buffer_getElem? B (fresh B) params (squareBlock H) hs hb,
      if_neg (by omega), if_pos (by omega), he, ← List.getD_eq_getElem?_getD]
  have hrun : ∀ i, i < H - 1 →
      (fun i => (loopState B (fresh B) params (squareBlock H)).m_Buffer.getD
        (DELAY_BUFFER_SIZE B + 1 + i) 0) i = 1 := by
    intro i hi
    show (loopState B (fresh B) params (squareBlock H)).m_Buffer.getD
      (DELAY_BUFFER_SIZE B + 1 + i) 0 = 1
    rw [hwin i (by omega), squareBlock_getD, if_pos (by omega)]
  have hend : ¬ ((fun i => (loopState B (fresh B) params (squareBlock H)).m_Buffer.getD
      (DELAY_BUFFER_SIZE B + 1 + i) 0) (H - 1) > 0) := by
    show ¬ ((loopState B (fresh B) params (squareBlock H)).m_Buffer.getD
      (DELAY_BUFFER_SIZE B + 1 + (H - 1)) 0 > 0)
    rw [hwin (H - 1) (by omega), squareBlock_getD, if_neg (by omega), if_pos (by omega)]
    norm_num
  have htri0 : (sampleLoop B (DELAY_BUFFER_SIZE B + 1)
      (loopState B (fresh B) params (squareBlock H))).1.m_TriangleParam = 0 := by
    rw [htri']
    exact htri
  obtain ⟨u1, u2, u3⟩ := segmentStart_unit_run B
    (sampleLoop B (DELAY_BUFFER_SIZE B + 1) (loopState B (fresh B) params (squareBlock H))).1
    _ (H - 1) (by omega) hHD hrun hend htri0
  have ht := processSample_tracker B
    (sampleLoop B (DELAY_BUFFER_SIZE B + 1) (loopState B (fresh B) params (squareBlock H))).1
    (fun i => (loopState B (fresh B) params (squareBlock H)).m_Buffer.getD
      (DELAY_BUFFER_SIZE B + 1 + i) 0)
    (fun i => (loopState B (fresh B) params (squareBlock H)).m_VolumeBuffer.getD
      ((DELAY_BUFFER_SIZE B + 1) / VOLUME_BUFFER_RESOLUTION + i) 0)
    ((DELAY_BUFFER_SIZE B + 1) % VOLUME_BUFFER_RESOLUTION == 0)
  simp only [hm, if_true] at ht
  have hstr' := strength_stays_zero B
    (sampleLoop B (DELAY_BUFFER_SIZE B + 1) (loopState B (fresh B) params (squareBlock H))).1
    (fun i => (loopState B (fresh B) params (squareBlock H)).m_Buffer.getD
      (DELAY_BUFFER_SIZE B + 1 + i) 0)
    (loopState B (fresh B) params (squareBlock H)).m_VolumeBuffer
    (DELAY_BUFFER_SIZE B + 1) ((DELAY_BUFFER_SIZE B + 1) % VOLUME_BUFFER_RESOLUTION == 0)
    hstr hcfg hvol hUSE
  have hsh := processSample_shape B
    (sampleLoop B (DELAY_BUFFER_SIZE B + 1) (loopState B (fresh B) params (squareBlock H))).1
    (fun i => (loopState B (fresh B) params (squareBlock H)).m_Buffer.getD
      (DELAY_BUFFER_SIZE B + 1 + i) 0)
    (fun i => (loopState B (fresh B) params (squareBlock H)).m_VolumeBuffer.getD
      ((DELAY_BUFFER_SIZE B + 1) / VOLUME_BUFFER_RESOLUTION + i) 0)
    ((DELAY_BUFFER_SIZE B + 1) % VOLUME_BUFFER_RESOLUTION == 0)
  have hnext : sampleLoop B (DELAY_BUFFER_SIZE B + 2)
      (loopState B (fresh B) params (squareBlock H)) = _ :=
    sampleLoop_succ B (DELAY_BUFFER_SIZE B + 1) (loopState B (fresh B) params (squareBlock H))
  have hpre : ∀ n, n < DELAY_BUFFER_SIZE B + 2 →
      (processAudio B (fresh B) params (squareBlock H)).2[n]? =
        (sampleLoop B (DELAY_BUFFER_SIZE B + 2)
          (loopState B (fresh B) params (squareBlock H))).2[n]? := by
    intro n hn
    have hp := sampleLoop_prefix B (loopState B (fresh B) params (squareBlock H))
      (DELAY_BUFFER_SIZE B + 2) (B - (DELAY_BUFFER_SIZE B + 2)) n hn
    rw [Nat.add_sub_cancel' (by omega : DELAY_BUFFER_SIZE B + 2 ≤ B)] at hp
    rw [processAudio_eq, hb]
    exact hp
  refine ⟨?_, ?_, ?_⟩
  · intro n hn
    rw [hpre n (by omega), hnext]
    simp only
    rw [List.getElem?_append_left (by rw [hout, List.length_replicate]; omega), hout,
      List.getElem?_replicate, if_pos (by omega)]
  · rw [hpre _ (by omega), hnext]
    simp only
    rw [List.getElem?_append_right (by rw [hout, List.length_replicate]), hout,
      List.length_replicate, Nat.sub_self, output_of_strength_zero B _ _ _ _ hstr',
      ht.2.2.1, u3]
    rfl
  · rw [hnext]
    simp only
    rw [ht.1, ht.2.1, ht.2.2.1, u1, u2, u3, hsh.2, hsaw']
    have hs2 : (loopState B (fresh B) params (squareBlock H)).m_SawParam = 1 / 2 := hsaw
    rw [hs2]
    refine ⟨rfl, rfl, rfl, ?_⟩
    norm_num

/-- Witness for C14 (amended): `AUDIO_BLOCK_SIZE = 256` (`DELAY_BUFFER_SIZE =
224`), raw parameters 0; output sample 225 is 1. -/
theorem square_wave_witness :
    ((256 : Nat) = 2 * 128 ∧ 2 ≤ 128 ∧ 6 ≤ USE_VOLUME_BUFFER_SIZE 256 ∧
      MapParam ((fun _ : Nat => (0 : ℚ)) 0) 0 1 = 0 ∧
      MapParam ((fun _ : Nat => (0 : ℚ)) 1) (1 / 2) 1 = 1 / 2 ∧
      DELAY_BUFFER_SIZE 256 + 1 < 256) ∧
    (processAudio 256 (fresh 256) (fun _ => 0)
      (squareBlock 128)).2[DELAY_BUFFER_SIZE 256 + 1]? = some 1 :=
  have h3 : 6 ≤ USE_VOLUME_BUFFER_SIZE 256 := by decide
  have h4 : MapParam ((fun _ : Nat => (0 : ℚ)) 0) 0 1 = 0 := MapParam_of_nonpos 0 1 le_rfl
  have h5 : MapParam ((fun _ : Nat => (0 : ℚ)) 1) (1 / 2) 1 = 1 / 2 :=
    MapParam_of_nonpos (1 / 2) 1 le_rfl
  have h6 : DELAY_BUFFER_SIZE 256 + 1 < 256 := by decide
  ⟨⟨rfl, by norm_num, h3, h4, h5, h6⟩,
    ((square_wave 256 128 (fun _ => 0) rfl (by norm_num) h3 h4 h5).2 h6).2.1⟩

end NESPatch
